import Mathlib

/-!
# SingleLinkedList (singlelinkedlist.h): a heap model and its verification

The container is pointer code, so the embedding is a store of nodes indexed by
addresses.

* A `Node*` is an `Option Nat`: `none` is `nullptr`, `some a` is the address `a`.
* The store (`Heap`) maps an address to the node living there, or to `none` when
  nothing lives there (never allocated, or already deleted). `new` hands out the
  address `fresh` and bumps it, so an address is never handed out twice.
* Reading or writing through `nullptr` or through an address where nothing lives
  is undefined behaviour in C++; here it is the result `Fault.undefined`.
* A `SingleLinkedList` object is the address of its embedded sentinel node
  `head_` (the sentinel lives in the same store as the `new`-allocated nodes, so
  that a cursor may reference it) together with the cached `size_`.
* `size_t` is modelled by `Nat`. `++size_` is `+ 1`: a list holds one node per
  distinct address, so the counter cannot reach the width of `size_t` on a real
  machine. `--size_` wraps at 0 to `SIZE_MAX` as the 64-bit `size_t` does.
* Loops whose trip count is not bounded by a counter take a `fuel` argument and
  answer `Fault.fuel` when it runs out.
-/

namespace SLL

/-- The struct `Node`: a value and the raw pointer `next_node`. -/
structure Node (T : Type) where
  value : T
  next_node : Option Nat

/-- The node store: `cells a` is the node living at address `a`, and `fresh` is the
address the next `new` returns. -/
structure Heap (T : Type) where
  cells : Nat → Option (Node T)
  fresh : Nat

/-- The ways an operation can fail to return normally. -/
inductive Fault where
  | out_of_range (what : String)
  | undefined
  | fuel
  deriving DecidableEq

/-- The store in which nothing has been allocated. -/
def Heap.empty {T : Type} : Heap T := ⟨fun _ => none, 0⟩

/-- Dereference of a node pointer: `p->...`. -/
def Heap.load {T : Type} (h : Heap T) (p : Option Nat) : Except Fault (Node T) :=
  match p with
  | none => .error .undefined
  | some a =>
    match h.cells a with
    | none => .error .undefined
    | some n => .ok n

/-- Overwrite the cell at address `a`. -/
def Heap.store {T : Type} (h : Heap T) (a : Nat) (c : Option (Node T)) : Heap T :=
  ⟨fun b => if b = a then c else h.cells b, h.fresh⟩

/-- The expression `new Node(...)`: the node is placed at the address `fresh`. -/
def Heap.new {T : Type} (h : Heap T) (n : Node T) : Nat × Heap T :=
  (h.fresh, ⟨fun b => if b = h.fresh then some n else h.cells b, h.fresh + 1⟩)

/-- The assignment `p->next_node = nx`. -/
def Heap.setNext {T : Type} (h : Heap T) (p : Option Nat) (nx : Option Nat) :
    Except Fault (Heap T) :=
  match h.load p, p with
  | .ok n, some a => .ok (h.store a (some ⟨n.value, nx⟩))
  | .ok _, none => .error .undefined
  | .error e, _ => .error e

/-- The statement `delete p`: a no-op on `nullptr`, undefined on a dead address. -/
def Heap.delete {T : Type} (h : Heap T) (p : Option Nat) : Except Fault (Heap T) :=
  match p with
  | none => .ok h
  | some a =>
    match h.cells a with
    | none => .error .undefined
    | some _ => .ok (h.store a none)

/-- The class `BasicIterator<ValueType>`: its only field is `node_`. Both `Iterator`
and `ConstIterator` are this structure. -/
structure BasicIterator where
  node_ : Option Nat := none
  deriving DecidableEq

/-- The operator `==` taking a `BasicIterator<const Type>` (lines 60-68). -/
def BasicIterator.operator_eq_const (this rhs : BasicIterator) : Bool :=
  if this.node_ = none ∧ rhs.node_ = none then true
  else if this.node_ = none ∨ rhs.node_ = none then false
  else if this.node_ = rhs.node_ then true
  else false

/-- The operator `!=` taking a `BasicIterator<const Type>` (lines 70-72). -/
def BasicIterator.operator_ne_const (this rhs : BasicIterator) : Bool :=
  !(this.operator_eq_const rhs)

/-- The operator `==` taking a `BasicIterator<Type>` (lines 74-76). -/
def BasicIterator.operator_eq (this rhs : BasicIterator) : Bool :=
  decide (this.node_ = rhs.node_)

/-- The operator `!=` taking a `BasicIterator<Type>` (lines 78-80). -/
def BasicIterator.operator_ne (this rhs : BasicIterator) : Bool :=
  if this.operator_eq rhs then false else true

/-- Prefix `operator++` (lines 83-89). The argument `this` is the pointer to the
iterator object: `none` is a null `this`, `some it` an object with contents `it`.
The result is the iterator after the step. -/
def BasicIterator.operator_inc {T : Type} (h : Heap T) (this : Option BasicIterator) :
    Except Fault BasicIterator :=
  match this with
  | none => .error (.out_of_range "++nullptr")
  | some it => do
    let n ← h.load it.node_
    pure ⟨n.next_node⟩

/-- Postfix `operator++` (lines 91-97): the returned copy and the stepped iterator. -/
def BasicIterator.operator_inc_post {T : Type} (h : Heap T) (this : Option BasicIterator) :
    Except Fault (BasicIterator × BasicIterator) :=
  match this with
  | none => .error (.out_of_range "nullptr++")
  | some it => do
    let tmp := it
    let it1 ← BasicIterator.operator_inc h (some it)
    pure (tmp, it1)

/-- The operator `*` (lines 99-103). -/
def BasicIterator.operator_deref {T : Type} (h : Heap T) (this : Option BasicIterator) :
    Except Fault T :=
  match this with
  | none => .error (.out_of_range "*nullptr")
  | some it => do
    let n ← h.load it.node_
    pure n.value

/-- The operator `->` (lines 105-109): the address of the value is the address of its
node, and the value read through it. -/
def BasicIterator.operator_arrow {T : Type} (h : Heap T) (this : Option BasicIterator) :
    Except Fault (Nat × T) :=
  match this with
  | none => .error (.out_of_range "nullptr->")
  | some it =>
    match it.node_ with
    | none => .error .undefined
    | some a => do
      let n ← h.load (some a)
      pure (a, n.value)

/-- The largest value of the 64-bit `size_t`. -/
def SIZE_MAX : Nat := 2 ^ 64 - 1

/-- The statement `--size_` on a `size_t`: at 0 it wraps around to `SIZE_MAX`. -/
def size_t_decrement (n : Nat) : Nat := if n = 0 then SIZE_MAX else n - 1

/-- The class `SingleLinkedList<Type>`: `head_` is the address at which the embedded
sentinel node lives, `size_` the cached element count. -/
structure SingleLinkedList where
  head_ : Nat
  size_ : Nat
  deriving DecidableEq

/-- The default constructor (lines 206-210): the sentinel is a default `Node`. -/
def SingleLinkedList.ctor {T : Type} [Inhabited T] (h : Heap T) :
    Heap T × SingleLinkedList :=
  let r := h.new (⟨default, none⟩ : Node T)
  (r.2, ⟨r.1, 0⟩)

/-- Member `GetSize` (lines 235-239). -/
def SingleLinkedList.GetSize (this : SingleLinkedList) : Nat := this.size_

/-- Member `IsEmpty` (lines 241-244). -/
def SingleLinkedList.IsEmpty (this : SingleLinkedList) : Bool := decide (this.size_ = 0)

/-- Member `begin` and `cbegin` (lines 125-137). -/
def SingleLinkedList.begin {T : Type} (h : Heap T) (this : SingleLinkedList) :
    Except Fault BasicIterator := do
  let hd ← h.load (some this.head_)
  pure ⟨hd.next_node⟩

/-- Member `end` and `cend` (lines 139-151). -/
def SingleLinkedList.end_ (_this : SingleLinkedList) : BasicIterator := ⟨none⟩

/-- Member `before_begin` and `cbefore_begin` (lines 153-167). -/
def SingleLinkedList.before_begin (this : SingleLinkedList) : BasicIterator :=
  ⟨some this.head_⟩

/-- Member `InsertAfter` (lines 178-186). The local `pos_tmp` of the source is never read
and is left out. -/
def SingleLinkedList.InsertAfter {T : Type} (h : Heap T) (this : SingleLinkedList)
    (pos : BasicIterator) (value : T) :
    Except Fault (Heap T × SingleLinkedList × BasicIterator) := do
  let p ← h.load pos.node_
  let r := h.new ⟨value, p.next_node⟩
  let tmp := r.1
  let h2 ← r.2.setNext pos.node_ (some tmp)
  let pos1 ← BasicIterator.operator_inc h2 (some pos)
  let ret : BasicIterator := ⟨pos1.node_⟩
  pure (h2, { this with size_ := this.size_ + 1 }, ret)

/-- Member `EraseAfter` (lines 188-196). -/
def SingleLinkedList.EraseAfter {T : Type} (h : Heap T) (this : SingleLinkedList)
    (pos : BasicIterator) :
    Except Fault (Heap T × SingleLinkedList × BasicIterator) := do
  let p ← h.load pos.node_
  let to_delete := p.next_node
  let d ← h.load to_delete
  let h1 ← h.setNext pos.node_ d.next_node
  let h2 ← h1.delete to_delete
  let pos1 ← BasicIterator.operator_inc h2 (some pos)
  let ret : BasicIterator := ⟨pos1.node_⟩
  pure (h2, { this with size_ := size_t_decrement this.size_ }, ret)

/-- Member `PushFront` (lines 246-250). -/
def SingleLinkedList.PushFront {T : Type} (h : Heap T) (this : SingleLinkedList)
    (value : T) : Except Fault (Heap T × SingleLinkedList) := do
  let hd ← h.load (some this.head_)
  let r := h.new ⟨value, hd.next_node⟩
  let h2 ← r.2.setNext (some this.head_) (some r.1)
  pure (h2, { this with size_ := this.size_ + 1 })

/-- The loop of `PushBack` (lines 262-264): `k` times `t = t->next_node`. -/
def SingleLinkedList.PushBack_walk {T : Type} (h : Heap T) :
    Nat → Option Nat → Except Fault (Option Nat)
  | 0, t => pure t
  | k + 1, t => do
    let n ← h.load t
    SingleLinkedList.PushBack_walk h k n.next_node

/-- Member `PushBack` (lines 252-269). The loop runs for `i = 1, ..., size_ - 1`. -/
def SingleLinkedList.PushBack {T : Type} (h : Heap T) (this : SingleLinkedList)
    (value : T) : Except Fault (Heap T × SingleLinkedList) :=
  if this.size_ = 0 then do
    let r := h.new ⟨value, none⟩
    let h2 ← r.2.setNext (some this.head_) (some r.1)
    pure (h2, { this with size_ := this.size_ + 1 })
  else do
    let hd ← h.load (some this.head_)
    let t ← SingleLinkedList.PushBack_walk h (this.size_ - 1) hd.next_node
    let r := h.new ⟨value, none⟩
    let h2 ← r.2.setNext t (some r.1)
    pure (h2, { this with size_ := this.size_ + 1 })

/-- The `do ... while` loop of `Clear` (lines 274-278). -/
def SingleLinkedList.Clear_loop {T : Type} (head : Nat) :
    Nat → Heap T → Except Fault (Heap T)
  | 0, _ => .error .fuel
  | fuel + 1, h => do
    let hd ← h.load (some head)
    let first ← h.load hd.next_node
    let tmp := first.next_node
    let h1 ← h.delete hd.next_node
    let h2 ← h1.setNext (some head) tmp
    let hd2 ← h2.load (some head)
    if hd2.next_node ≠ none then SingleLinkedList.Clear_loop head fuel h2 else pure h2

/-- Member `Clear` (lines 271-280). -/
def SingleLinkedList.Clear {T : Type} (fuel : Nat) (h : Heap T) (this : SingleLinkedList) :
    Except Fault (Heap T × SingleLinkedList) :=
  if this.size_ = 0 then pure (h, this)
  else do
    let hd ← h.load (some this.head_)
    if hd.next_node = none then pure (h, this)
    else do
      let h1 ← SingleLinkedList.Clear_loop this.head_ fuel h
      pure (h1, { this with size_ := 0 })

/-- Member `swap` (lines 282-286). -/
def SingleLinkedList.swap {T : Type} (h : Heap T) (this other : SingleLinkedList) :
    Except Fault (Heap T × SingleLinkedList × SingleLinkedList) := do
  let a ← h.load (some this.head_)
  let b ← h.load (some other.head_)
  let h1 ← h.setNext (some this.head_) b.next_node
  let h2 ← h1.setNext (some other.head_) a.next_node
  pure (h2, { this with size_ := other.size_ }, { other with size_ := this.size_ })

/-- Member `PopFront` (lines 288-294). -/
def SingleLinkedList.PopFront {T : Type} (h : Heap T) (this : SingleLinkedList) :
    Except Fault (Heap T × SingleLinkedList) := do
  let hd ← h.load (some this.head_)
  let first ← h.load hd.next_node
  let tmp := first.next_node
  let h1 ← h.delete hd.next_node
  let h2 ← h1.setNext (some this.head_) tmp
  pure (h2, { this with size_ := size_t_decrement this.size_ })

/-- The constructor from an initializer list (lines 217-222). -/
def SingleLinkedList.ctor_values {T : Type} [Inhabited T] (h : Heap T) (values : List T) :
    Except Fault (Heap T × SingleLinkedList) :=
  values.foldlM (fun s i => SingleLinkedList.PushBack s.1 s.2 i) (SingleLinkedList.ctor h)

/-- The loop of the copy constructor (lines 229-232), `k` iterations to go. -/
def SingleLinkedList.copy_loop {T : Type} :
    Nat → Heap T → SingleLinkedList → BasicIterator → Except Fault (Heap T × SingleLinkedList)
  | 0, h, this, _ => pure (h, this)
  | k + 1, h, this, curr => do
    let c ← h.load curr.node_
    let s ← SingleLinkedList.PushBack h this c.value
    let curr1 ← BasicIterator.operator_inc s.1 (some curr)
    SingleLinkedList.copy_loop k s.1 s.2 curr1

/-- The copy constructor (lines 224-233). -/
def SingleLinkedList.copy_ctor {T : Type} [Inhabited T] (h : Heap T)
    (other : SingleLinkedList) : Except Fault (Heap T × SingleLinkedList) := do
  let s := SingleLinkedList.ctor h
  let sz_t := other.GetSize
  let curr ← SingleLinkedList.begin s.1 other
  SingleLinkedList.copy_loop sz_t s.1 s.2 curr

/-- The destructor (lines 212-215): `Clear`, after which the storage of the object,
the sentinel included, is gone. -/
def SingleLinkedList.dtor {T : Type} (fuel : Nat) (h : Heap T) (this : SingleLinkedList) :
    Except Fault (Heap T) := do
  let s ← SingleLinkedList.Clear fuel h this
  s.1.delete (some this.head_)

/-- Copy assignment (lines 296-303). The temporary `tmp` is destroyed on return. -/
def SingleLinkedList.operator_assign {T : Type} [Inhabited T] (fuel : Nat) (h : Heap T)
    (this rhs : SingleLinkedList) : Except Fault (Heap T × SingleLinkedList) :=
  if rhs.head_ = this.head_ then pure (h, this)
  else do
    let c ← SingleLinkedList.copy_ctor h rhs
    let s ← SingleLinkedList.swap c.1 this c.2
    let h3 ← SingleLinkedList.dtor fuel s.1 s.2.2
    pure (h3, s.2.1)

/-- The free function `swap` (lines 306-309). -/
def swap {T : Type} (h : Heap T) (lhs rhs : SingleLinkedList) :
    Except Fault (Heap T × SingleLinkedList × SingleLinkedList) :=
  SingleLinkedList.swap h lhs rhs

/-- The algorithm `std::equal(first1, last1, first2)` over constant iterators. The
elements are compared with the `operator==` of the element type, which is the `BEq`
instance of `T`; nothing is assumed of it. -/
def std_equal {T : Type} [BEq T] (h : Heap T) (last1 : BasicIterator) :
    Nat → BasicIterator → BasicIterator → Except Fault Bool
  | 0, _, _ => .error .fuel
  | fuel + 1, first1, first2 =>
    if first1.operator_ne_const last1 then do
      let x ← BasicIterator.operator_deref h (some first1)
      let y ← BasicIterator.operator_deref h (some first2)
      if x == y then do
        let n1 ← BasicIterator.operator_inc h (some first1)
        let n2 ← BasicIterator.operator_inc h (some first2)
        std_equal h last1 fuel n1 n2
      else pure false
    else pure true

/-- The algorithm `std::lexicographical_compare(first1, last1, first2, last2, comp)`
over constant iterators. -/
def std_lexicographical_compare {T : Type} (comp : T → T → Bool) (h : Heap T)
    (last1 last2 : BasicIterator) :
    Nat → BasicIterator → BasicIterator → Except Fault Bool
  | 0, _, _ => .error .fuel
  | fuel + 1, first1, first2 =>
    if first1.operator_ne_const last1 && first2.operator_ne_const last2 then do
      let x ← BasicIterator.operator_deref h (some first1)
      let y ← BasicIterator.operator_deref h (some first2)
      if comp x y then pure true
      else if comp y x then pure false
      else do
        let n1 ← BasicIterator.operator_inc h (some first1)
        let n2 ← BasicIterator.operator_inc h (some first2)
        std_lexicographical_compare comp h last1 last2 fuel n1 n2
    else pure (first1.operator_eq_const last1 && first2.operator_ne_const last2)

/-- The list operator `==` (lines 311-316). -/
def operator_eq {T : Type} [BEq T] (fuel : Nat) (h : Heap T)
    (lhs rhs : SingleLinkedList) : Except Fault Bool :=
  if lhs.GetSize ≠ rhs.GetSize then pure false
  else do
    let b1 ← SingleLinkedList.begin h lhs
    let b2 ← SingleLinkedList.begin h rhs
    std_equal h lhs.end_ fuel b1 b2

/-- The list operator `!=` (lines 318-321). -/
def operator_ne {T : Type} [BEq T] (fuel : Nat) (h : Heap T)
    (lhs rhs : SingleLinkedList) : Except Fault Bool := do
  let e ← operator_eq fuel h lhs rhs
  pure (if e then false else true)

/-- The list operator `<` (lines 323-327); the lambda is `left < right`. -/
def operator_lt {T : Type} [LT T] [DecidableRel (fun a b : T => a < b)] (fuel : Nat)
    (h : Heap T) (lhs rhs : SingleLinkedList) : Except Fault Bool := do
  let b1 ← SingleLinkedList.begin h lhs
  let b2 ← SingleLinkedList.begin h rhs
  std_lexicographical_compare (fun left right => decide (left < right)) h
    lhs.end_ rhs.end_ fuel b1 b2

/-- The list operator `>` (lines 334-338); the lambda is `left > right`. -/
def operator_gt {T : Type} [LT T] [DecidableRel (fun a b : T => a < b)] (fuel : Nat)
    (h : Heap T) (lhs rhs : SingleLinkedList) : Except Fault Bool := do
  let b1 ← SingleLinkedList.begin h lhs
  let b2 ← SingleLinkedList.begin h rhs
  std_lexicographical_compare (fun left right => decide (left > right)) h
    lhs.end_ rhs.end_ fuel b1 b2

/-- The list operator `<=` (lines 329-332). -/
def operator_le {T : Type} [LT T] [DecidableRel (fun a b : T => a < b)] (fuel : Nat)
    (h : Heap T) (lhs rhs : SingleLinkedList) : Except Fault Bool := do
  let g ← operator_gt fuel h lhs rhs
  pure (!g)

/-- The list operator `>=` (lines 340-343). -/
def operator_ge {T : Type} [LT T] [DecidableRel (fun a b : T => a < b)] (fuel : Nat)
    (h : Heap T) (lhs rhs : SingleLinkedList) : Except Fault Bool := do
  let l ← operator_lt fuel h lhs rhs
  pure (!l)

/-- The traversal a client writes, `for (it = first; it != last; ++it) out += *it`,
with mutable iterators. -/
def traverse {T : Type} (h : Heap T) (last : BasicIterator) :
    Nat → BasicIterator → Except Fault (List T)
  | 0, _ => .error .fuel
  | fuel + 1, it =>
    if it.operator_ne last then do
      let x ← BasicIterator.operator_deref h (some it)
      let it1 ← BasicIterator.operator_inc h (some it)
      let rest ← traverse h last fuel it1
      pure (x :: rest)
    else pure []

/-- The element sequence of a list: the traversal from `begin()` to `end()`. -/
def SingleLinkedList.elements {T : Type} (fuel : Nat) (h : Heap T)
    (this : SingleLinkedList) : Except Fault (List T) := do
  let b ← SingleLinkedList.begin h this
  traverse h this.end_ fuel b

/-! ## The abstract view of a store -/

/-- Every address from `fresh` on is unused, so `new` returns an unused address. -/
def HeapOK {T : Type} (h : Heap T) : Prop := ∀ a, h.fresh ≤ a → h.cells a = none

/-- Following `next_node` from the pointer `p` passes exactly through the nodes `cs`
(address and value of each, in order) and arrives at the pointer `q`. -/
def Seg {T : Type} (h : Heap T) : Option Nat → List (Nat × T) → Option Nat → Prop
  | p, [], q => p = q
  | p, c :: cs, q => p = some c.1 ∧ ∃ nx, h.cells c.1 = some ⟨c.2, nx⟩ ∧ Seg h nx cs q

/-- The chain that starts at the pointer `p` consists of the nodes `cs` and ends in
`nullptr`. -/
def Chain {T : Type} (h : Heap T) (p : Option Nat) (cs : List (Nat × T)) : Prop :=
  Seg h p cs none

/-- The list object `l` is well formed in the store `h` with the real nodes `cs`: the
sentinel is alive, the chain hanging off it consists of `cs` and ends in `nullptr`,
and the cached size is the number of those nodes. -/
def WellFormed {T : Type} (h : Heap T) (l : SingleLinkedList) (cs : List (Nat × T)) : Prop :=
  HeapOK h ∧ l.size_ = cs.length ∧
    ∃ d nx, h.cells l.head_ = some ⟨d, nx⟩ ∧ Chain h nx cs

/-- The addresses a well-formed list occupies: the sentinel and its real nodes. -/
def footprint {T : Type} (l : SingleLinkedList) (cs : List (Nat × T)) : List Nat :=
  l.head_ :: cs.map Prod.fst

/-- The cursor `pos` references position `k` of the list: the sentinel for `k = 0`,
the real node of index `k - 1` otherwise. -/
def AtPosition {T : Type} (l : SingleLinkedList) (cs : List (Nat × T)) (pos : BasicIterator)
    (k : Nat) : Prop :=
  k ≤ cs.length ∧ pos.node_ = (footprint l cs)[k]?

/-- The step from `h` to `h2` allocates but never frees an address of `h` outside
`S`, and leaves every cell of `h` outside `S` as it was. -/
def Frame {T : Type} (h h2 : Heap T) (S : List Nat) : Prop :=
  h.fresh ≤ h2.fresh ∧ ∀ b, b < h.fresh → b ∉ S → h2.cells b = h.cells b

/-! ## Program states and the operations that lead from one to the next -/

/-- A program state: the store, and the list objects alive in it, each under a name. -/
structure World (T : Type) where
  heap : Heap T
  lists : Nat → Option SingleLinkedList

/-- The state after an operation left the store `h` and the list `l` under the name `i`. -/
def World.put {T : Type} (w : World T) (h : Heap T) (i : Nat) (l : SingleLinkedList) :
    World T :=
  ⟨h, fun j => if j = i then some l else w.lists j⟩

/-- The precondition on a position of `InsertAfter` and `EraseAfter`: the cursor
references the sentinel of the list or a live node found by following `next_node`
from the sentinel. -/
def ValidPos {T : Type} (h : Heap T) (l : SingleLinkedList) (pos : BasicIterator) : Prop :=
  ∃ a pre, pos.node_ = some a ∧ Seg h (some l.head_) pre (some a) ∧ (h.cells a).isSome

/-- The further precondition of `EraseAfter`: a node exists after the cursor. -/
def HasSuccessor {T : Type} (h : Heap T) (pos : BasicIterator) : Prop :=
  ∃ a n b, pos.node_ = some a ∧ h.cells a = some n ∧ n.next_node = some b

/-- The states a program reaches from the empty store by default-constructing lists and
calling the members of the class with their preconditions met. -/
inductive Reachable {T : Type} [Inhabited T] : World T → Prop
  | start : Reachable ⟨Heap.empty, fun _ => none⟩
  | ctor (w : World T) (i : Nat) : Reachable w → w.lists i = none →
      Reachable (w.put (SingleLinkedList.ctor w.heap).1 i (SingleLinkedList.ctor w.heap).2)
  | PushFront (w : World T) (i : Nat) (l : SingleLinkedList) (v : T) (h2 : Heap T)
      (l2 : SingleLinkedList) : Reachable w → w.lists i = some l →
      SingleLinkedList.PushFront w.heap l v = .ok (h2, l2) → Reachable (w.put h2 i l2)
  | PushBack (w : World T) (i : Nat) (l : SingleLinkedList) (v : T) (h2 : Heap T)
      (l2 : SingleLinkedList) : Reachable w → w.lists i = some l →
      SingleLinkedList.PushBack w.heap l v = .ok (h2, l2) → Reachable (w.put h2 i l2)
  | PopFront (w : World T) (i : Nat) (l : SingleLinkedList) (h2 : Heap T)
      (l2 : SingleLinkedList) : Reachable w → w.lists i = some l → l.IsEmpty = false →
      SingleLinkedList.PopFront w.heap l = .ok (h2, l2) → Reachable (w.put h2 i l2)
  | InsertAfter (w : World T) (i : Nat) (l : SingleLinkedList) (pos : BasicIterator) (v : T)
      (h2 : Heap T) (l2 : SingleLinkedList) (it : BasicIterator) : Reachable w →
      w.lists i = some l → ValidPos w.heap l pos →
      SingleLinkedList.InsertAfter w.heap l pos v = .ok (h2, l2, it) →
      Reachable (w.put h2 i l2)
  | EraseAfter (w : World T) (i : Nat) (l : SingleLinkedList) (pos : BasicIterator)
      (h2 : Heap T) (l2 : SingleLinkedList) (it : BasicIterator) : Reachable w →
      w.lists i = some l → ValidPos w.heap l pos → HasSuccessor w.heap pos →
      SingleLinkedList.EraseAfter w.heap l pos = .ok (h2, l2, it) →
      Reachable (w.put h2 i l2)
  | Clear (w : World T) (i : Nat) (l : SingleLinkedList) (fuel : Nat) (h2 : Heap T)
      (l2 : SingleLinkedList) : Reachable w → w.lists i = some l →
      SingleLinkedList.Clear fuel w.heap l = .ok (h2, l2) → Reachable (w.put h2 i l2)
  | swap (w : World T) (i j : Nat) (li lj : SingleLinkedList) (h2 : Heap T)
      (li2 lj2 : SingleLinkedList) : Reachable w → w.lists i = some li →
      w.lists j = some lj → SingleLinkedList.swap w.heap li lj = .ok (h2, li2, lj2) →
      Reachable ((w.put h2 i li2).put h2 j lj2)
  | copy_ctor (w : World T) (i j : Nat) (lj : SingleLinkedList) (h2 : Heap T)
      (l2 : SingleLinkedList) : Reachable w → w.lists i = none → w.lists j = some lj →
      SingleLinkedList.copy_ctor w.heap lj = .ok (h2, l2) → Reachable (w.put h2 i l2)
  | operator_assign (w : World T) (i j : Nat) (li lj : SingleLinkedList) (fuel : Nat)
      (h2 : Heap T) (l2 : SingleLinkedList) : Reachable w → w.lists i = some li →
      w.lists j = some lj →
      SingleLinkedList.operator_assign fuel w.heap li lj = .ok (h2, l2) →
      Reachable (w.put h2 i l2)

/-- The invariant of the reachable states: unused addresses stay unused, every live
list is well formed, and two different lists share no node. -/
def Inv {T : Type} (w : World T) : Prop :=
  HeapOK w.heap ∧ (∀ i l, w.lists i = some l → ∃ cs, WellFormed w.heap l cs) ∧
  ∀ i j li lj ci cj, i ≠ j → w.lists i = some li → w.lists j = some lj →
    WellFormed w.heap li ci → WellFormed w.heap lj cj →
    ∀ a ∈ footprint li ci, a ∉ footprint lj cj

/-- The effect of one operation on the list `l` with real nodes `cs`: afterwards the
list is well formed, the cells of the old store outside the list are as before, and
the nodes of the list are old nodes of the list or newly allocated ones. -/
def Local {T : Type} (h : Heap T) (l : SingleLinkedList) (cs : List (Nat × T)) (h2 : Heap T)
    (l2 : SingleLinkedList) : Prop :=
  ∃ cs2, WellFormed h2 l2 cs2 ∧
    (∀ b, b < h.fresh → b ∉ footprint l cs → h2.cells b = h.cells b) ∧
    ∀ a ∈ footprint l2 cs2, a ∈ footprint l cs ∨ h.fresh ≤ a

/-! ## Reference notions for the comparisons -/

/-- The sequence `xs` lexicographically precedes `ys`: either at the first index where
they differ the element of `xs` is less than that of `ys`, or `xs` is a proper
beginning of `ys`. -/
def LexPrecedes {T : Type} [LT T] (xs ys : List T) : Prop :=
  (∃ i x y, xs[i]? = some x ∧ ys[i]? = some y ∧ xs.take i = ys.take i ∧ x < y) ∨
  (xs.length < ys.length ∧ ys.take xs.length = xs)

/-- The walk of `std::lexicographical_compare` over two value sequences. -/
def lexWalk {T : Type} (comp : T → T → Bool) : List T → List T → Bool
  | [], [] => false
  | [], _ :: _ => true
  | _ :: _, [] => false
  | x :: xs, y :: ys => if comp x y then true else if comp y x then false else lexWalk comp xs ys

/-! ## A sample store -/

/-- A store holding two lists: `[1, 2, 3]` with its sentinel at address 0 and its real
nodes at the addresses 1, 2, 3, and `[1, 2, 4]` with its sentinel at address 4 and its
real nodes at the addresses 5, 6, 7. -/
def sampleHeap : Heap Nat :=
  ⟨fun a =>
    match a with
    | 0 => some ⟨0, some 1⟩
    | 1 => some ⟨1, some 2⟩
    | 2 => some ⟨2, some 3⟩
    | 3 => some ⟨3, none⟩
    | 4 => some ⟨0, some 5⟩
    | 5 => some ⟨1, some 6⟩
    | 6 => some ⟨2, some 7⟩
    | 7 => some ⟨4, none⟩
    | _ => none, 8⟩

/-- The list object of `[1, 2, 3]` in `sampleHeap`. -/
def sampleList : SingleLinkedList := ⟨0, 3⟩

/-- The real nodes of `sampleList`. -/
def sampleNodes : List (Nat × Nat) := [(1, 1), (2, 2), (3, 3)]

/-- The list object of `[1, 2, 4]` in `sampleHeap`. -/
def sampleOther : SingleLinkedList := ⟨4, 3⟩

/-- The real nodes of `sampleOther`. -/
def sampleOtherNodes : List (Nat × Nat) := [(5, 1), (6, 2), (7, 4)]

/-- The state after an operation on the list named `i` ended with the result `r`; a
failed operation leaves the state alone. -/
def World.exec {T : Type} (w : World T) (i : Nat)
    (r : Except Fault (Heap T × SingleLinkedList)) : World T :=
  match r with
  | .ok s => w.put s.1 i s.2
  | .error _ => w

/-- A run from the empty store: a list named 0 is default-constructed and receives
`PushBack(5)`, `PushBack(6)` and `PushFront(4)`. -/
def sampleRun1 : World Nat :=
  let w0 : World Nat := ⟨Heap.empty, fun _ => none⟩
  let w1 := w0.put (SingleLinkedList.ctor w0.heap).1 0 (SingleLinkedList.ctor w0.heap).2
  let w2 := w1.exec 0 (SingleLinkedList.PushBack w1.heap ⟨0, 0⟩ 5)
  let w3 := w2.exec 0 (SingleLinkedList.PushBack w2.heap ⟨0, 1⟩ 6)
  w3.exec 0 (SingleLinkedList.PushFront w3.heap ⟨0, 2⟩ 4)

/-- The run continues: a list named 1 is copy-constructed from the list named 0, and
the list named 0 then receives `PopFront()`. -/
def sampleRun2 : World Nat :=
  let w5 := sampleRun1.exec 1 (SingleLinkedList.copy_ctor sampleRun1.heap ⟨0, 3⟩)
  w5.exec 0 (SingleLinkedList.PopFront w5.heap ⟨0, 3⟩)

/-- An element type whose `operator==` is not reflexive, in the way of `double`: the
value `nan` compares unequal to everything, itself included. -/
inductive FloatLike where
  | val (n : Nat)
  | nan

/-- The `operator==` of `FloatLike`. -/
def FloatLike.eq : FloatLike → FloatLike → Bool
  | .val m, .val n => m == n
  | _, _ => false

instance : BEq FloatLike := ⟨FloatLike.eq⟩

instance : Inhabited FloatLike := ⟨FloatLike.val 0⟩

/-- A store holding the one-element list `[nan]`: the sentinel at address 0 and the
real node at address 1. -/
def nanHeap : Heap FloatLike :=
  ⟨fun a =>
    match a with
    | 0 => some ⟨FloatLike.val 0, some 1⟩
    | 1 => some ⟨FloatLike.nan, none⟩
    | _ => none, 2⟩

/-- The list object of `[nan]` in `nanHeap`. -/
def nanList : SingleLinkedList := ⟨0, 1⟩

/-! ## Writing through a cursor, and runs of mutations of one list -/

/-- The client statement `*it = v` with a mutable iterator: the operator `*` (lines
99-103) yields the reference `node_->value`, and the value is written through it. -/
def BasicIterator.assign_through {T : Type} (h : Heap T) (this : Option BasicIterator)
    (v : T) : Except Fault (Heap T) :=
  match this with
  | none => .error (.out_of_range "*nullptr")
  | some it =>
    match h.load it.node_, it.node_ with
    | .ok n, some a => .ok (h.store a (some ⟨v, n.next_node⟩))
    | .ok _, none => .error .undefined
    | .error e, _ => .error e

/-- A run of mutations of one list object: from the store `h` and the list `l`, calls
of `PushFront`, `PushBack`, `PopFront` (on a non-empty list), `InsertAfter` and
`EraseAfter` (at positions meeting their preconditions), `Clear`, and writes through
a cursor of the list lead to the store `h2` and the list `l2`. -/
inductive Mutated {T : Type} (h : Heap T) (l : SingleLinkedList) :
    Heap T → SingleLinkedList → Prop
  | same : Mutated h l h l
  | PushFront (h1 : Heap T) (l1 : SingleLinkedList) (v : T) (h2 : Heap T)
      (l2 : SingleLinkedList) : Mutated h l h1 l1 →
      SingleLinkedList.PushFront h1 l1 v = .ok (h2, l2) → Mutated h l h2 l2
  | PushBack (h1 : Heap T) (l1 : SingleLinkedList) (v : T) (h2 : Heap T)
      (l2 : SingleLinkedList) : Mutated h l h1 l1 →
      SingleLinkedList.PushBack h1 l1 v = .ok (h2, l2) → Mutated h l h2 l2
  | PopFront (h1 : Heap T) (l1 : SingleLinkedList) (h2 : Heap T) (l2 : SingleLinkedList) :
      Mutated h l h1 l1 → l1.IsEmpty = false →
      SingleLinkedList.PopFront h1 l1 = .ok (h2, l2) → Mutated h l h2 l2
  | InsertAfter (h1 : Heap T) (l1 : SingleLinkedList) (pos : BasicIterator) (v : T)
      (h2 : Heap T) (l2 : SingleLinkedList) (it : BasicIterator) : Mutated h l h1 l1 →
      ValidPos h1 l1 pos → SingleLinkedList.InsertAfter h1 l1 pos v = .ok (h2, l2, it) →
      Mutated h l h2 l2
  | EraseAfter (h1 : Heap T) (l1 : SingleLinkedList) (pos : BasicIterator) (h2 : Heap T)
      (l2 : SingleLinkedList) (it : BasicIterator) : Mutated h l h1 l1 →
      ValidPos h1 l1 pos → HasSuccessor h1 pos →
      SingleLinkedList.EraseAfter h1 l1 pos = .ok (h2, l2, it) → Mutated h l h2 l2
  | Clear (h1 : Heap T) (l1 : SingleLinkedList) (fuel : Nat) (h2 : Heap T)
      (l2 : SingleLinkedList) : Mutated h l h1 l1 →
      SingleLinkedList.Clear fuel h1 l1 = .ok (h2, l2) → Mutated h l h2 l2
  | write (h1 : Heap T) (l1 : SingleLinkedList) (pos : BasicIterator) (v : T)
      (h2 : Heap T) : Mutated h l h1 l1 → ValidPos h1 l1 pos →
      BasicIterator.assign_through h1 (some pos) v = .ok h2 → Mutated h l h2 l1

/-! ## Facts about the store and the operations -/

@[simp] theorem store_cells {T : Type} (h : Heap T) (a : Nat) (c : Option (Node T)) (b : Nat) :
    (h.store a c).cells b = if b = a then c else h.cells b := rfl

@[simp] theorem store_fresh {T : Type} (h : Heap T) (a : Nat) (c : Option (Node T)) :
    (h.store a c).fresh = h.fresh := rfl

@[simp] theorem new_fst {T : Type} (h : Heap T) (n : Node T) : (h.new n).1 = h.fresh := rfl

@[simp] theorem new_cells {T : Type} (h : Heap T) (n : Node T) (b : Nat) :
    (h.new n).2.cells b = if b = h.fresh then some n else h.cells b := rfl

@[simp] theorem new_fresh {T : Type} (h : Heap T) (n : Node T) : (h.new n).2.fresh = h.fresh + 1 := rfl

theorem load_some {T : Type} {h : Heap T} {a : Nat} {n : Node T} (hc : h.cells a = some n) :
    h.load (some a) = .ok n := by
  simp [Heap.load, hc]

theorem setNext_some {T : Type} {h : Heap T} {a : Nat} {n : Node T} (hc : h.cells a = some n)
    (nx : Option Nat) :
    h.setNext (some a) nx = .ok (h.store a (some ⟨n.value, nx⟩)) := by
  simp [Heap.setNext, Heap.load, hc]

theorem delete_some {T : Type} {h : Heap T} {a : Nat} {n : Node T} (hc : h.cells a = some n) :
    h.delete (some a) = .ok (h.store a none) := by
  simp [Heap.delete, hc]

theorem Seg_frame {T : Type} {h h2 : Heap T} :
    ∀ (cs : List (Nat × T)) (p q : Option Nat),
      (∀ c ∈ cs, h2.cells c.1 = h.cells c.1) → Seg h p cs q → Seg h2 p cs q
  | [], _, _, _, hs => hs
  | c :: cs, p, q, hf, hs => by
    obtain ⟨hp, nx, hc, hrest⟩ := hs
    refine ⟨hp, nx, ?_, Seg_frame cs nx q (fun c2 hc2 => hf c2 (List.mem_cons_of_mem _ hc2)) hrest⟩
    rw [hf c (List.mem_cons_self _ _)]; exact hc

theorem Seg_append {T : Type} {h : Heap T} :
    ∀ (l1 l2 : List (Nat × T)) (p q : Option Nat),
      Seg h p (l1 ++ l2) q ↔ ∃ m, Seg h p l1 m ∧ Seg h m l2 q
  | [], l2, p, q => by simp [Seg]
  | c :: l1, l2, p, q => by
    simp only [List.cons_append, Seg]
    constructor
    · rintro ⟨hp, nx, hc, hs⟩
      obtain ⟨m, h1, h2⟩ := (Seg_append l1 l2 nx q).1 hs
      exact ⟨m, ⟨hp, nx, hc, h1⟩, h2⟩
    · rintro ⟨m, ⟨hp, nx, hc, h1⟩, h2⟩
      exact ⟨hp, nx, hc, (Seg_append l1 l2 nx q).2 ⟨m, h1, h2⟩⟩

theorem Chain_functional {T : Type} {h : Heap T} :
    ∀ (cs cs2 : List (Nat × T)) (p : Option Nat), Chain h p cs → Chain h p cs2 → cs = cs2
  | [], [], _, _, _ => rfl
  | [], c :: cs2, p, h1, h2 => by
    simp only [Chain, Seg] at h1 h2
    rw [h1] at h2; exact absurd h2.1 (by simp)
  | c :: cs, [], p, h1, h2 => by
    simp only [Chain, Seg] at h1 h2
    rw [h2] at h1; exact absurd h1.1 (by simp)
  | c :: cs, c2 :: cs2, p, h1, h2 => by
    obtain ⟨hp, nx, hc, hs⟩ := h1
    obtain ⟨hp2, nx2, hc2, hs2⟩ := h2
    have ha : c.1 = c2.1 := by rw [hp] at hp2; exact Option.some.inj hp2
    rw [ha, hc2] at hc
    have hn := Option.some.inj hc
    have hv : c2.2 = c.2 := congrArg Node.value hn
    have hx : nx2 = nx := congrArg Node.next_node hn
    have hcc : c = c2 := Prod.ext ha hv.symm
    subst hx
    rw [hcc, Chain_functional cs cs2 nx2 hs hs2]

theorem Chain_live {T : Type} {h : Heap T} :
    ∀ (cs : List (Nat × T)) (p q : Option Nat), Seg h p cs q →
      ∀ c ∈ cs, ∃ nx, h.cells c.1 = some ⟨c.2, nx⟩
  | [], _, _, _, c, hc => absurd hc (List.not_mem_nil c)
  | c0 :: cs, p, q, hs, c, hc => by
    obtain ⟨_, nx, hc0, hrest⟩ := hs
    rcases List.mem_cons.1 hc with rfl | hin
    · exact ⟨nx, hc0⟩
    · exact Chain_live cs nx q hrest c hin

theorem Chain_nodup {T : Type} {h : Heap T} :
    ∀ (cs : List (Nat × T)) (p : Option Nat), Chain h p cs → (cs.map Prod.fst).Nodup
  | [], _, _ => List.nodup_nil
  | c :: cs, p, hs => by
    have hs0 := hs
    obtain ⟨hp, nx, hc, hrest⟩ := hs
    rw [List.map_cons, List.nodup_cons]
    refine ⟨?_, Chain_nodup cs nx hrest⟩
    intro hmem
    obtain ⟨c2, hc2, hfst⟩ := List.mem_map.1 hmem
    obtain ⟨l1, l2, rfl⟩ := List.append_of_mem hc2
    obtain ⟨m, _, hm2⟩ := (Seg_append l1 (c2 :: l2) nx none).1 hrest
    have hm3 : Chain h p (c2 :: l2) := by
      obtain ⟨_, nx2, hcc, hr⟩ := hm2
      exact ⟨by rw [hp, hfst], nx2, hcc, hr⟩
    have := congrArg List.length (Chain_functional _ _ p hs0 hm3)
    simp at this
    omega

theorem Seg_lt_fresh {T : Type} {h : Heap T} (hok : HeapOK h) {cs : List (Nat × T)}
    {p q : Option Nat} (hs : Seg h p cs q) : ∀ c ∈ cs, c.1 < h.fresh := by
  intro c hc
  obtain ⟨nx, hcell⟩ := Chain_live cs p q hs c hc
  by_contra hlt
  rw [hok c.1 (Nat.le_of_not_lt hlt)] at hcell
  exact absurd hcell (by simp)

theorem Seg_store_other {T : Type} {h : Heap T} {cs : List (Nat × T)} {p q : Option Nat}
    (a : Nat) (c : Option (Node T)) (ha : a ∉ cs.map Prod.fst) (hs : Seg h p cs q) :
    Seg (h.store a c) p cs q := by
  refine Seg_frame cs p q (fun c2 hc2 => ?_) hs
  have hne : c2.1 ≠ a := fun e => ha (e ▸ List.mem_map_of_mem Prod.fst hc2)
  simp [hne]

theorem Seg_new {T : Type} {h : Heap T} (hok : HeapOK h) {cs : List (Nat × T)}
    {p q : Option Nat} (n : Node T) (hs : Seg h p cs q) : Seg (h.new n).2 p cs q := by
  refine Seg_frame cs p q (fun c2 hc2 => ?_) hs
  have hlt := Seg_lt_fresh hok hs c2 hc2
  have hne : c2.1 ≠ h.fresh := Nat.ne_of_lt hlt
  simp [hne]

theorem HeapOK_store {T : Type} {h : Heap T} (hok : HeapOK h) (a : Nat) (c : Option (Node T))
    (ha : a < h.fresh) : HeapOK (h.store a c) := by
  intro b hb
  have hne : b ≠ a := by
    intro e; subst e; exact absurd ha (Nat.not_lt.2 hb)
  simpa [hne] using hok b hb

theorem HeapOK_new {T : Type} {h : Heap T} (hok : HeapOK h) (n : Node T) :
    HeapOK (h.new n).2 := by
  intro b hb
  have hb2 : h.fresh + 1 ≤ b := hb
  have hne : b ≠ h.fresh := by omega
  simpa [hne] using hok b (by omega)

/-- Splicing a fresh node after the node at address `a` of a chain. -/
theorem Chain_insert {T : Type} {h : Heap T} (hok : HeapOK h) (pre post : List (Nat × T))
    (a : Nat) (x v : T) (p : Option Nat) (hc : Chain h p (pre ++ (a, x) :: post)) :
    ∃ nx, h.cells a = some ⟨x, nx⟩ ∧
      Chain ((h.new ⟨v, nx⟩).2.store a (some ⟨x, some h.fresh⟩)) p
        (pre ++ (a, x) :: (h.fresh, v) :: post) := by
  have hnd := Chain_nodup _ p hc
  have hlt := Seg_lt_fresh hok hc
  obtain ⟨m, hpre, hrest⟩ := (Seg_append pre ((a, x) :: post) p none).1 hc
  obtain ⟨hm, nx, hcell, hpost⟩ := hrest
  rw [List.map_append, List.map_cons, List.nodup_append] at hnd
  obtain ⟨_, hnd2, hdisj⟩ := hnd
  have ha_pre : a ∉ pre.map Prod.fst := fun hmem => hdisj hmem (List.mem_cons_self _ _)
  have ha_post : a ∉ post.map Prod.fst := (List.nodup_cons.1 hnd2).1
  have hf_a : h.fresh ≠ a := by
    have := hlt (a, x) (by simp)
    simp only at this; omega
  refine ⟨nx, hcell, ?_⟩
  refine (Seg_append pre _ p none).2 ⟨m, ?_, ?_⟩
  · exact Seg_store_other a _ ha_pre (Seg_new hok _ hpre)
  · refine ⟨hm, some h.fresh, by simp, rfl, nx, by simp [hf_a], ?_⟩
    exact Seg_store_other a _ ha_post (Seg_new hok _ hpost)

/-- Unlinking and deleting the node that follows the node at address `a`. -/
theorem Chain_erase {T : Type} {h : Heap T} (pre post : List (Nat × T))
    (a b : Nat) (x y : T) (p : Option Nat) (hc : Chain h p (pre ++ (a, x) :: (b, y) :: post)) :
    ∃ nb, h.cells a = some ⟨x, some b⟩ ∧ h.cells b = some ⟨y, nb⟩ ∧ a ≠ b ∧ Chain h nb post ∧
      Chain ((h.store a (some ⟨x, nb⟩)).store b none) p (pre ++ (a, x) :: post) := by
  have hnd := Chain_nodup _ p hc
  obtain ⟨m, hpre, hrest⟩ := (Seg_append pre ((a, x) :: (b, y) :: post) p none).1 hc
  obtain ⟨hm, nx, hcell, hnx, nb, hcellb, hpost⟩ := hrest
  simp only at hnx hcell hcellb
  subst hnx
  rw [List.map_append, List.map_cons, List.map_cons, List.nodup_append] at hnd
  obtain ⟨_, hnd2, hdisj⟩ := hnd
  have ha_pre : a ∉ pre.map Prod.fst := fun hmem => hdisj hmem (List.mem_cons_self _ _)
  have hb_pre : b ∉ pre.map Prod.fst := fun hmem =>
    hdisj hmem (List.mem_cons_of_mem _ (List.mem_cons_self _ _))
  obtain ⟨ha_rest, hnd3⟩ := List.nodup_cons.1 hnd2
  have hb_post : b ∉ post.map Prod.fst := (List.nodup_cons.1 hnd3).1
  have hab : a ≠ b := fun e => ha_rest (e ▸ List.mem_cons_self _ _)
  have ha_post : a ∉ post.map Prod.fst := fun hmem => ha_rest (List.mem_cons_of_mem _ hmem)
  refine ⟨nb, hcell, hcellb, hab, hpost, ?_⟩
  refine (Seg_append pre _ p none).2 ⟨m, ?_, ?_⟩
  · exact Seg_store_other b _ hb_pre (Seg_store_other a _ ha_pre hpre)
  · refine ⟨hm, nb, by simp [hab], ?_⟩
    exact Seg_store_other b _ hb_post (Seg_store_other a _ ha_post hpost)

theorem Chain_head {T : Type} {h : Heap T} {cs : List (Nat × T)} {p : Option Nat}
    (hc : Chain h p cs) : p = (cs.map Prod.fst)[0]? := by
  cases cs with
  | nil => simpa [Chain, Seg] using hc
  | cons c cs => simpa using hc.1

theorem position_split {T : Type} {l : SingleLinkedList} {cs : List (Nat × T)}
    {pos : BasicIterator} {k : Nat} (d : T) (hp : AtPosition l cs pos k) :
    ∃ pre a x, pos.node_ = some a ∧ (l.head_, d) :: cs.take k = pre ++ [(a, x)] := by
  obtain ⟨hk, hn⟩ := hp
  cases k with
  | zero => exact ⟨[], l.head_, d, by simpa [footprint] using hn, by simp⟩
  | succ j =>
    have hj : j < cs.length := hk
    refine ⟨(l.head_, d) :: cs.take j, cs[j].1, cs[j].2, ?_, ?_⟩
    · rw [hn, footprint, List.getElem?_cons_succ, List.getElem?_map,
        List.getElem?_eq_getElem hj]; rfl
    · rw [List.take_succ, List.getElem?_eq_getElem hj]; rfl

theorem WellFormed_lt_fresh {T : Type} {h : Heap T} {l : SingleLinkedList}
    {cs : List (Nat × T)} (hwf : WellFormed h l cs) : ∀ a ∈ footprint l cs, a < h.fresh := by
  obtain ⟨hok, _, d, nx, hcell, hch⟩ := hwf
  intro a ha
  rcases List.mem_cons.1 ha with rfl | hin
  · by_contra hlt
    rw [hok _ (Nat.le_of_not_lt hlt)] at hcell
    exact absurd hcell (by simp)
  · obtain ⟨c, hc, rfl⟩ := List.mem_map.1 hin
    exact Seg_lt_fresh hok hch c hc

theorem InsertAfter_spec {T : Type} {h : Heap T} {l : SingleLinkedList} {cs : List (Nat × T)}
    {pos : BasicIterator} {k : Nat} (v : T) (hwf : WellFormed h l cs)
    (hpos : AtPosition l cs pos k) :
    ∃ a x nx, pos.node_ = some a ∧ h.cells a = some ⟨x, nx⟩ ∧ a < h.fresh ∧
      SingleLinkedList.InsertAfter h l pos v =
        .ok ((h.new ⟨v, nx⟩).2.store a (some ⟨x, some h.fresh⟩),
          { l with size_ := l.size_ + 1 }, ⟨some h.fresh⟩) ∧
      WellFormed ((h.new ⟨v, nx⟩).2.store a (some ⟨x, some h.fresh⟩))
        { l with size_ := l.size_ + 1 } (cs.take k ++ (h.fresh, v) :: cs.drop k) := by
  have hfp := WellFormed_lt_fresh hwf
  obtain ⟨hok, hsz, d, nx0, hcell0, hch⟩ := hwf
  obtain ⟨pre, a, x, hnode, hsplit⟩ := position_split d hpos
  have hfull : Chain h (some l.head_) (pre ++ (a, x) :: cs.drop k) := by
    have h1 : Chain h (some l.head_) ((l.head_, d) :: cs) := ⟨rfl, nx0, hcell0, hch⟩
    have h2 : (l.head_, d) :: cs = pre ++ (a, x) :: cs.drop k := by
      calc (l.head_, d) :: cs = ((l.head_, d) :: cs.take k) ++ cs.drop k := by simp
        _ = pre ++ (a, x) :: cs.drop k := by rw [hsplit]; simp
    rw [← h2]; exact h1
  obtain ⟨nx, hcell, hnew⟩ := Chain_insert hok pre (cs.drop k) a x v (some l.head_) hfull
  have ha_mem : a ∈ footprint l cs := by
    have : (a, x) ∈ (l.head_, d) :: cs.take k := by rw [hsplit]; simp
    rcases List.mem_cons.1 this with e | hin
    · rw [(Prod.mk.inj e).1]; exact List.mem_cons_self _ _
    · exact List.mem_cons_of_mem _ (List.mem_map_of_mem Prod.fst (List.mem_of_mem_take hin))
  have halt : a < h.fresh := hfp a ha_mem
  have hne : a ≠ h.fresh := Nat.ne_of_lt halt
  refine ⟨a, x, nx, hnode, hcell, halt, ?_, ?_⟩
  · have hc1 : (h.new (⟨v, nx⟩ : Node T)).2.cells a = some ⟨x, nx⟩ := by simp [hne, hcell]
    have hc2 : ((h.new (⟨v, nx⟩ : Node T)).2.store a (some ⟨x, some h.fresh⟩)).cells a
        = some ⟨x, some h.fresh⟩ := by simp
    simp only [SingleLinkedList.InsertAfter, hnode, load_some hcell, bind, Except.bind,
      setNext_some hc1, BasicIterator.operator_inc, load_some hc2, pure, Except.pure, new_fst]
  · have hnew2 : Chain ((h.new ⟨v, nx⟩).2.store a (some ⟨x, some h.fresh⟩)) (some l.head_)
        ((l.head_, d) :: (cs.take k ++ (h.fresh, v) :: cs.drop k)) := by
      have e : (l.head_, d) :: (cs.take k ++ (h.fresh, v) :: cs.drop k)
          = pre ++ (a, x) :: (h.fresh, v) :: cs.drop k := by
        calc (l.head_, d) :: (cs.take k ++ (h.fresh, v) :: cs.drop k)
            = ((l.head_, d) :: cs.take k) ++ (h.fresh, v) :: cs.drop k := by simp
          _ = pre ++ (a, x) :: (h.fresh, v) :: cs.drop k := by rw [hsplit]; simp
      rw [e]; exact hnew
    obtain ⟨_, nx1, hcell1, hch1⟩ := hnew2
    refine ⟨HeapOK_store (HeapOK_new hok _) a _ (by simp; omega), ?_, d, nx1, hcell1, hch1⟩
    have hk := hpos.1
    simp [hsz]; omega

theorem EraseAfter_spec {T : Type} {h : Heap T} {l : SingleLinkedList} {cs : List (Nat × T)}
    {pos : BasicIterator} {k : Nat} (hwf : WellFormed h l cs)
    (hpos : AtPosition l cs pos k) (hk : k < cs.length) :
    ∃ a b x y nb, pos.node_ = some a ∧ h.cells a = some ⟨x, some b⟩ ∧
      h.cells b = some ⟨y, nb⟩ ∧ a ≠ b ∧ cs[k]? = some (b, y) ∧
      nb = (cs.map Prod.fst)[k + 1]? ∧
      SingleLinkedList.EraseAfter h l pos =
        .ok ((h.store a (some ⟨x, nb⟩)).store b none,
          { l with size_ := l.size_ - 1 }, ⟨nb⟩) ∧
      WellFormed ((h.store a (some ⟨x, nb⟩)).store b none)
        { l with size_ := l.size_ - 1 } (cs.take k ++ cs.drop (k + 1)) := by
  have hfp := WellFormed_lt_fresh hwf
  obtain ⟨hok, hsz, d, nx0, hcell0, hch⟩ := hwf
  obtain ⟨pre, a, x, hnode, hsplit⟩ := position_split d hpos
  have hdrop : cs.drop k = (cs[k].1, cs[k].2) :: cs.drop (k + 1) := List.drop_eq_getElem_cons hk
  have hfull : Chain h (some l.head_)
      (pre ++ (a, x) :: (cs[k].1, cs[k].2) :: cs.drop (k + 1)) := by
    have h1 : Chain h (some l.head_) ((l.head_, d) :: cs) := ⟨rfl, nx0, hcell0, hch⟩
    have h2 : (l.head_, d) :: cs = pre ++ (a, x) :: (cs[k].1, cs[k].2) :: cs.drop (k + 1) := by
      calc (l.head_, d) :: cs = ((l.head_, d) :: cs.take k) ++ cs.drop k := by simp
        _ = pre ++ (a, x) :: (cs[k].1, cs[k].2) :: cs.drop (k + 1) := by
          rw [hsplit, hdrop]; simp
    rw [← h2]; exact h1
  obtain ⟨nb, hcell, hcellb, hab, hpost, hnew⟩ :=
    Chain_erase pre (cs.drop (k + 1)) a cs[k].1 x cs[k].2 (some l.head_) hfull
  have hb_lt : cs[k].1 < h.fresh :=
    hfp _ (List.mem_cons_of_mem _ (List.mem_map_of_mem Prod.fst (List.getElem_mem hk)))
  have ha_lt : a < h.fresh := by
    by_contra hlt
    rw [hok _ (Nat.le_of_not_lt hlt)] at hcell
    exact absurd hcell (by simp)
  refine ⟨a, cs[k].1, x, cs[k].2, nb, hnode, hcell, hcellb, hab,
    List.getElem?_eq_getElem hk, ?_, ?_, ?_⟩
  · rw [Chain_head hpost]; simp [List.getElem?_drop]
  · have hc1 : (h.store a (some ⟨x, nb⟩)).cells cs[k].1 = some ⟨cs[k].2, nb⟩ := by
      simp [Ne.symm hab, hcellb]
    have hc2 : ((h.store a (some ⟨x, nb⟩)).store cs[k].1 none).cells a = some ⟨x, nb⟩ := by
      simp [hab]
    have hdec : size_t_decrement l.size_ = l.size_ - 1 := by
      have hpos0 : l.size_ ≠ 0 := by omega
      simp [size_t_decrement, hpos0]
    simp only [SingleLinkedList.EraseAfter, hnode, load_some hcell, load_some hcellb, bind,
      Except.bind, setNext_some hcell, delete_some hc1, BasicIterator.operator_inc,
      load_some hc2, pure, Except.pure, hdec]
  · have hnew2 : Chain ((h.store a (some ⟨x, nb⟩)).store cs[k].1 none) (some l.head_)
        ((l.head_, d) :: (cs.take k ++ cs.drop (k + 1))) := by
      have e : (l.head_, d) :: (cs.take k ++ cs.drop (k + 1))
          = pre ++ (a, x) :: cs.drop (k + 1) := by
        calc (l.head_, d) :: (cs.take k ++ cs.drop (k + 1))
            = ((l.head_, d) :: cs.take k) ++ cs.drop (k + 1) := by simp
          _ = pre ++ (a, x) :: cs.drop (k + 1) := by rw [hsplit]; simp
      rw [e]; exact hnew
    obtain ⟨_, nx1, hcell1, hch1⟩ := hnew2
    refine ⟨HeapOK_store (HeapOK_store hok a _ ha_lt) _ _ (by simpa using hb_lt), ?_,
      d, nx1, hcell1, hch1⟩
    simp [hsz]; omega

theorem PushFront_eq_InsertAfter {T : Type} (h : Heap T) (l : SingleLinkedList) (v : T) :
    SingleLinkedList.PushFront h l v =
      (SingleLinkedList.InsertAfter h l l.before_begin v).map (fun r => (r.1, r.2.1)) := by
  simp only [SingleLinkedList.PushFront, SingleLinkedList.InsertAfter,
    SingleLinkedList.before_begin, Heap.load, Heap.setNext, BasicIterator.operator_inc]
  cases hc : h.cells l.head_ with
  | none => rfl
  | some n =>
    by_cases hf : l.head_ = h.fresh
    · simp [bind, Except.bind, Except.map, pure, Except.pure, Heap.new, Heap.store, hf]
    · simp [bind, Except.bind, Except.map, pure, Except.pure, Heap.new, Heap.store, hf, hc]

theorem PushBack_walk_seg {T : Type} {h : Heap T} :
    ∀ (cs : List (Nat × T)) (p q : Option Nat), Seg h p cs q →
      SingleLinkedList.PushBack_walk h cs.length p = .ok q
  | [], p, q, hs => by
    simp only [Seg] at hs
    simp [SingleLinkedList.PushBack_walk, hs, pure, Except.pure]
  | c :: cs, p, q, hs => by
    obtain ⟨hp, nx, hc, hrest⟩ := hs
    simp only [List.length_cons, SingleLinkedList.PushBack_walk, hp, load_some hc, bind,
      Except.bind]
    exact PushBack_walk_seg cs nx q hrest

theorem PushBack_spec {T : Type} {h : Heap T} {l : SingleLinkedList} {cs : List (Nat × T)}
    (v : T) (hwf : WellFormed h l cs) :
    ∃ a x, h.cells a = some ⟨x, none⟩ ∧ some a = (footprint l cs)[cs.length]? ∧
      SingleLinkedList.PushBack h l v =
        .ok ((h.new ⟨v, none⟩).2.store a (some ⟨x, some h.fresh⟩),
          { l with size_ := l.size_ + 1 }) ∧
      WellFormed ((h.new ⟨v, none⟩).2.store a (some ⟨x, some h.fresh⟩))
        { l with size_ := l.size_ + 1 } (cs ++ [(h.fresh, v)]) := by
  have hfp := WellFormed_lt_fresh hwf
  obtain ⟨hok, hsz, d, nx0, hcell0, hch⟩ := hwf
  have hhead_lt : l.head_ < h.fresh := hfp _ (List.mem_cons_self _ _)
  rcases List.eq_nil_or_concat cs with rfl | ⟨init, c, hcc⟩
  · have hnx0 : nx0 = none := by simpa [Chain, Seg] using hch
    subst hnx0
    have hfull : Chain h (some l.head_) ([] ++ (l.head_, d) :: []) := ⟨rfl, none, hcell0, rfl⟩
    obtain ⟨nx, hcell, hnew⟩ := Chain_insert hok [] [] l.head_ d v (some l.head_) hfull
    have hne : l.head_ ≠ h.fresh := Nat.ne_of_lt hhead_lt
    have hc1 : (h.new (⟨v, none⟩ : Node T)).2.cells l.head_ = some ⟨d, none⟩ := by
      simp [hne, hcell0]
    have hsz0 : l.size_ = 0 := by simpa using hsz
    refine ⟨l.head_, d, hcell0, by simp [footprint], ?_, ?_⟩
    · simp only [SingleLinkedList.PushBack, hsz0, if_true, bind, Except.bind,
        setNext_some hc1, pure, Except.pure, new_fst]
    · rw [hcell0] at hcell
      have hnx : nx = none := (congrArg Node.next_node (Option.some.inj hcell)).symm
      subst hnx
      obtain ⟨_, nx1, hcell1, hch1⟩ := hnew
      exact ⟨HeapOK_store (HeapOK_new hok _) _ _ (by simp; omega), by simp [hsz0],
        d, nx1, hcell1, hch1⟩
  · rw [List.concat_eq_append] at hcc
    subst hcc
    obtain ⟨t, x⟩ := c
    obtain ⟨m, hinit, hlast⟩ := (Seg_append init [(t, x)] nx0 none).1 hch
    obtain ⟨hm, nxt, hcellt, hnone⟩ := hlast
    simp only [Seg] at hnone hm hcellt
    subst hnone hm
    have hfull : Chain h (some l.head_) (((l.head_, d) :: init) ++ (t, x) :: []) :=
      ⟨rfl, nx0, hcell0, by simpa using hch⟩
    obtain ⟨nx, hcell, hnew⟩ :=
      Chain_insert hok ((l.head_, d) :: init) [] t x v (some l.head_) hfull
    have ht_lt : t < h.fresh := hfp _ (by simp [footprint])
    have hne : t ≠ h.fresh := Nat.ne_of_lt ht_lt
    have hc1 : (h.new (⟨v, none⟩ : Node T)).2.cells t = some ⟨x, none⟩ := by
      simp [hne, hcellt]
    have hszn : l.size_ = init.length + 1 := by simpa using hsz
    have hwalk := PushBack_walk_seg init nx0 (some t) hinit
    refine ⟨t, x, hcellt, ?_, ?_, ?_⟩
    · simp [footprint]
    · have hs0 : ¬ (l.size_ = 0) := by omega
      have hs1 : l.size_ - 1 = init.length := by omega
      simp only [SingleLinkedList.PushBack, hs0, if_false, load_some hcell0, bind,
        Except.bind, hs1, hwalk, setNext_some hc1, pure, Except.pure, new_fst]
    · rw [hcellt] at hcell
      have hnx : nx = none := (congrArg Node.next_node (Option.some.inj hcell)).symm
      subst hnx
      obtain ⟨_, nx1, hcell1, hch1⟩ := hnew
      refine ⟨HeapOK_store (HeapOK_new hok _) _ _ (by simp; omega), by simp [hszn],
        d, nx1, hcell1, ?_⟩
      simpa using hch1

theorem traverse_chain {T : Type} {h : Heap T} :
    ∀ (cs : List (Nat × T)) (p : Option Nat) (fuel : Nat), Chain h p cs → cs.length < fuel →
      traverse h ⟨none⟩ fuel ⟨p⟩ = .ok (cs.map Prod.snd)
  | [], p, fuel, hc, hf => by
    obtain ⟨f, rfl⟩ : ∃ f, fuel = f + 1 := ⟨fuel - 1, by simp at hf; omega⟩
    simp only [Chain, Seg] at hc
    simp [traverse, hc, BasicIterator.operator_ne, BasicIterator.operator_eq, pure, Except.pure]
  | c :: cs, p, fuel, hc, hf => by
    obtain ⟨f, rfl⟩ : ∃ f, fuel = f + 1 := ⟨fuel - 1, by simp at hf; omega⟩
    obtain ⟨hp, nx, hcell, hrest⟩ := hc
    have ih := traverse_chain cs nx f hrest (by simp at hf; omega)
    simp [traverse, hp, BasicIterator.operator_ne, BasicIterator.operator_eq,
      BasicIterator.operator_deref, BasicIterator.operator_inc, load_some hcell, bind,
      Except.bind, ih, pure, Except.pure]

theorem elements_spec {T : Type} {h : Heap T} {l : SingleLinkedList} {cs : List (Nat × T)}
    (hwf : WellFormed h l cs) (fuel : Nat) (hf : cs.length < fuel) :
    SingleLinkedList.elements fuel h l = .ok (cs.map Prod.snd) := by
  obtain ⟨_, _, d, nx, hcell, hch⟩ := hwf
  simp only [SingleLinkedList.elements, SingleLinkedList.begin, load_some hcell, bind,
    Except.bind, pure, Except.pure, SingleLinkedList.end_]
  exact traverse_chain cs nx fuel hch hf

theorem store_comm {T : Type} (h : Heap T) {a b : Nat} (hab : a ≠ b) (c1 c2 : Option (Node T)) :
    (h.store a c1).store b c2 = (h.store b c2).store a c1 := by
  simp only [Heap.store, Heap.mk.injEq, and_true]
  funext x
  by_cases h1 : x = b
  · have : x ≠ a := fun e => hab (e.symm.trans h1)
    simp [h1, this, Ne.symm hab]
  · simp [h1]

theorem PopFront_eq_EraseAfter {T : Type} (h : Heap T) (l : SingleLinkedList) :
    SingleLinkedList.PopFront h l =
      (SingleLinkedList.EraseAfter h l l.before_begin).map (fun r => (r.1, r.2.1)) := by
  simp only [SingleLinkedList.PopFront, SingleLinkedList.EraseAfter,
    SingleLinkedList.before_begin]
  cases hc : h.cells l.head_ with
  | none => simp [Heap.load, hc, bind, Except.bind, Except.map]
  | some n =>
    obtain ⟨d, nx⟩ := n
    cases nx with
    | none => simp [Heap.load, hc, bind, Except.bind, Except.map]
    | some b =>
      cases hb : h.cells b with
      | none => simp [Heap.load, hc, hb, bind, Except.bind, Except.map]
      | some m =>
        obtain ⟨y, nb⟩ := m
        by_cases hab : l.head_ = b
        · have hc1 : (h.store l.head_ (some ⟨d, nb⟩)).cells b = some ⟨d, nb⟩ := by simp [hab]
          simp [load_some hc, load_some hb, delete_some hb, setNext_some hc, delete_some hc1,
            bind, Except.bind, Except.map, BasicIterator.operator_inc]
          simp [Heap.setNext, Heap.load, hab]
        · have hc1 : (h.store l.head_ (some ⟨d, nb⟩)).cells b = some ⟨y, nb⟩ := by
            simp [Ne.symm hab, hb]
          have hc2 : (h.store b none).cells l.head_ = some ⟨d, some b⟩ := by simp [hab, hc]
          have hc3 : ((h.store l.head_ (some ⟨d, nb⟩)).store b none).cells l.head_
              = some ⟨d, nb⟩ := by simp [hab]
          simp only [load_some hc, load_some hb, delete_some hb, setNext_some hc,
            setNext_some hc2, delete_some hc1, bind, Except.bind, Except.map,
            BasicIterator.operator_inc, load_some hc3, pure, Except.pure]
          rw [store_comm h hab]

theorem PopFront_spec {T : Type} {h : Heap T} {l : SingleLinkedList} {c : Nat × T}
    {cs : List (Nat × T)} (hwf : WellFormed h l (c :: cs)) :
    ∃ d nb, h.cells l.head_ = some ⟨d, some c.1⟩ ∧ h.cells c.1 = some ⟨c.2, nb⟩ ∧
      l.head_ ≠ c.1 ∧
      SingleLinkedList.PopFront h l =
        .ok ((h.store l.head_ (some ⟨d, nb⟩)).store c.1 none,
          { l with size_ := l.size_ - 1 }) ∧
      WellFormed ((h.store l.head_ (some ⟨d, nb⟩)).store c.1 none)
        { l with size_ := l.size_ - 1 } cs := by
  have hpos : AtPosition l (c :: cs) l.before_begin 0 :=
    ⟨Nat.zero_le _, by simp [SingleLinkedList.before_begin, footprint]⟩
  obtain ⟨a, b, x, y, nb, hnode, hca, hcb, hab, hck, _, hrun, hwf2⟩ :=
    EraseAfter_spec hwf hpos (by simp)
  have ha : l.head_ = a := by simpa [SingleLinkedList.before_begin] using hnode
  have hby : c = (b, y) := by simpa using hck
  subst ha; subst hby
  refine ⟨x, nb, hca, hcb, hab, ?_, by simpa using hwf2⟩
  rw [PopFront_eq_EraseAfter, hrun]; rfl

theorem sample_ok : HeapOK sampleHeap := by
  intro a ha
  match a, ha with
  | 0, ha => exact absurd ha (by decide)
  | 1, ha => exact absurd ha (by decide)
  | 2, ha => exact absurd ha (by decide)
  | 3, ha => exact absurd ha (by decide)
  | 4, ha => exact absurd ha (by decide)
  | 5, ha => exact absurd ha (by decide)
  | 6, ha => exact absurd ha (by decide)
  | 7, ha => exact absurd ha (by decide)
  | _ + 8, _ => rfl

theorem sample_wf : WellFormed sampleHeap sampleList sampleNodes :=
  ⟨sample_ok, rfl, 0, some 1, rfl, rfl, some 2, rfl, rfl, some 3, rfl, rfl, none, rfl, rfl⟩

theorem sampleOther_wf : WellFormed sampleHeap sampleOther sampleOtherNodes :=
  ⟨sample_ok, rfl, 0, some 5, rfl, rfl, some 6, rfl, rfl, some 7, rfl, rfl, none, rfl, rfl⟩

theorem HeapOK_empty {T : Type} : HeapOK (Heap.empty : Heap T) := fun _ _ => rfl

theorem WellFormed_ctor {T : Type} [Inhabited T] {h : Heap T} (hok : HeapOK h) :
    WellFormed (SingleLinkedList.ctor h).1 (SingleLinkedList.ctor h).2 ([] : List (Nat × T)) := by
  refine ⟨HeapOK_new hok _, rfl, default, none, ?_, rfl⟩
  simp [SingleLinkedList.ctor]

theorem PushFront_spec {T : Type} {h : Heap T} {l : SingleLinkedList} {cs : List (Nat × T)}
    (v : T) (hwf : WellFormed h l cs) :
    ∃ h2, SingleLinkedList.PushFront h l v = .ok (h2, { l with size_ := l.size_ + 1 }) ∧
      WellFormed h2 { l with size_ := l.size_ + 1 } ((h.fresh, v) :: cs) := by
  have hpos : AtPosition l cs l.before_begin 0 :=
    ⟨Nat.zero_le _, by simp [SingleLinkedList.before_begin, footprint]⟩
  obtain ⟨a, x, nx, _, _, _, hrun, hwf2⟩ := InsertAfter_spec v hwf hpos
  refine ⟨_, ?_, by simpa using hwf2⟩
  rw [PushFront_eq_InsertAfter, hrun]; rfl

theorem PushBack_fold {T : Type} :
    ∀ (vs : List T) (h : Heap T) (l : SingleLinkedList) (cs : List (Nat × T)),
      WellFormed h l cs →
      ∃ h2 l2 cs2, vs.foldlM (fun s i => SingleLinkedList.PushBack s.1 s.2 i) (h, l)
          = .ok (h2, l2) ∧
        WellFormed h2 l2 cs2 ∧ cs2.map Prod.snd = cs.map Prod.snd ++ vs ∧
        l2.size_ = l.size_ + vs.length ∧ l2.head_ = l.head_
  | [], h, l, cs, hwf => ⟨h, l, cs, rfl, hwf, by simp, by simp, rfl⟩
  | v :: vs, h, l, cs, hwf => by
    obtain ⟨a, x, _, _, hrun, hwf2⟩ := PushBack_spec v hwf
    obtain ⟨h3, l3, cs3, hrun3, hwf3, hval, hsz, hhd⟩ := PushBack_fold vs _ _ _ hwf2
    refine ⟨h3, l3, cs3, ?_, hwf3, by simpa using hval, by simp at hsz; simp [hsz]; omega,
      by simpa using hhd⟩
    simp only [List.foldlM_cons, hrun, bind, Except.bind]
    exact hrun3

theorem PushFront_fold {T : Type} :
    ∀ (vs : List T) (h : Heap T) (l : SingleLinkedList) (cs : List (Nat × T)),
      WellFormed h l cs →
      ∃ h2 l2 cs2, vs.foldlM (fun s i => SingleLinkedList.PushFront s.1 s.2 i) (h, l)
          = .ok (h2, l2) ∧
        WellFormed h2 l2 cs2 ∧ cs2.map Prod.snd = vs.reverse ++ cs.map Prod.snd ∧
        l2.size_ = l.size_ + vs.length ∧ l2.head_ = l.head_
  | [], h, l, cs, hwf => ⟨h, l, cs, rfl, hwf, by simp, by simp, rfl⟩
  | v :: vs, h, l, cs, hwf => by
    obtain ⟨h2, hrun, hwf2⟩ := PushFront_spec v hwf
    obtain ⟨h3, l3, cs3, hrun3, hwf3, hval, hsz, hhd⟩ := PushFront_fold vs _ _ _ hwf2
    refine ⟨h3, l3, cs3, ?_, hwf3, by simpa using hval, by simp at hsz; simp [hsz]; omega,
      by simpa using hhd⟩
    simp only [List.foldlM_cons, hrun, bind, Except.bind]
    exact hrun3

theorem ne_const_none (p : Option Nat) :
    BasicIterator.operator_ne_const ⟨p⟩ ⟨none⟩ = p.isSome := by
  cases p <;> simp [BasicIterator.operator_ne_const, BasicIterator.operator_eq_const]

theorem eq_const_none (p : Option Nat) :
    BasicIterator.operator_eq_const ⟨p⟩ ⟨none⟩ = p.isNone := by
  cases p <;> simp [BasicIterator.operator_eq_const]

theorem beq_length {T : Type} [BEq T] :
    ∀ (xs ys : List T), (xs == ys) = true → xs.length = ys.length
  | [], [], _ => rfl
  | [], _ :: _, h => by simp at h
  | _ :: _, [], h => by simp at h
  | x :: xs, y :: ys, h => by
    rw [List.cons_beq_cons, Bool.and_eq_true] at h
    simp [beq_length xs ys h.2]

theorem beq_iff_index {T : Type} [BEq T] :
    ∀ (xs ys : List T), (xs == ys) = true ↔
      xs.length = ys.length ∧
        ∀ (i : Nat) (x y : T), xs[i]? = some x → ys[i]? = some y → (x == y) = true
  | [], [] => by simp
  | [], _ :: _ => by simp
  | _ :: _, [] => by simp
  | x :: xs, y :: ys => by
    rw [List.cons_beq_cons, Bool.and_eq_true, beq_iff_index xs ys]
    constructor
    · rintro ⟨hxy, hlen, hidx⟩
      refine ⟨by simp [hlen], fun i a b ha hb => ?_⟩
      cases i with
      | zero =>
        simp only [List.getElem?_cons_zero, Option.some.injEq] at ha hb
        subst ha hb
        exact hxy
      | succ j => exact hidx j a b (by simpa using ha) (by simpa using hb)
    · rintro ⟨hlen, hidx⟩
      refine ⟨hidx 0 x y (by simp) (by simp), by simpa using hlen, fun i a b ha hb => ?_⟩
      exact hidx (i + 1) a b (by simpa using ha) (by simpa using hb)

theorem beq_iff_eq_of_lawful {T : Type} [BEq T] (hl : ∀ x y : T, (x == y) = true ↔ x = y) :
    ∀ (xs ys : List T), (xs == ys) = true ↔ xs = ys
  | [], [] => by simp
  | [], _ :: _ => by simp
  | _ :: _, [] => by simp
  | x :: xs, y :: ys => by
    rw [List.cons_beq_cons, Bool.and_eq_true, hl, beq_iff_eq_of_lawful hl xs ys]
    simp

theorem beq_self_of_refl {T : Type} [BEq T] (hr : ∀ x : T, (x == x) = true) :
    ∀ (xs : List T), (xs == xs) = true
  | [] => rfl
  | x :: xs => by
    rw [List.cons_beq_cons, hr x, beq_self_of_refl hr xs]
    rfl

theorem std_equal_chain {T : Type} [BEq T] {h : Heap T} :
    ∀ (xs ys : List (Nat × T)) (p q : Option Nat) (fuel : Nat),
      Chain h p xs → Chain h q ys → xs.length = ys.length → xs.length < fuel →
      std_equal h ⟨none⟩ fuel ⟨p⟩ ⟨q⟩ = .ok (xs.map Prod.snd == ys.map Prod.snd)
  | [], ys, p, q, fuel, hp, _, hlen, hf => by
    obtain ⟨f, rfl⟩ : ∃ f, fuel = f + 1 := ⟨fuel - 1, by simp at hf; omega⟩
    have hys : ys = [] := List.length_eq_zero.1 hlen.symm
    subst hys
    simp only [Chain, Seg] at hp
    subst hp
    simp [std_equal, ne_const_none, pure, Except.pure]
  | x :: xs, [], _, _, _, _, _, hlen, _ => by simp at hlen
  | x :: xs, y :: ys, p, q, fuel, hp, hq, hlen, hf => by
    obtain ⟨f, rfl⟩ : ∃ f, fuel = f + 1 := ⟨fuel - 1, by simp at hf; omega⟩
    obtain ⟨hp1, nx, hcx, hrx⟩ := hp
    obtain ⟨hq1, ny, hcy, hry⟩ := hq
    have ih := std_equal_chain xs ys nx ny f hrx hry (by simpa using hlen)
      (by simp at hf; omega)
    subst hp1 hq1
    simp only [std_equal, ne_const_none, Option.isSome_some, if_true,
      BasicIterator.operator_deref, BasicIterator.operator_inc, load_some hcx, load_some hcy,
      bind, Except.bind, pure, Except.pure, List.map_cons, List.cons_beq_cons]
    cases hxy : (x.2 == y.2) with
    | true => simpa using ih
    | false => simp

theorem operator_eq_spec {T : Type} [BEq T] {h : Heap T} {a b : SingleLinkedList}
    {ca cb : List (Nat × T)} (hwa : WellFormed h a ca) (hwb : WellFormed h b cb)
    (fuel : Nat) (hf : ca.length < fuel) :
    operator_eq fuel h a b = .ok (ca.map Prod.snd == cb.map Prod.snd) := by
  obtain ⟨_, hsa, da, na, hca, hcha⟩ := hwa
  obtain ⟨_, hsb, db, nb, hcb, hchb⟩ := hwb
  by_cases hlen : ca.length = cb.length
  · have hsz : a.size_ = b.size_ := by omega
    simp only [operator_eq, SingleLinkedList.GetSize, hsz, ne_eq, not_true_eq_false,
      if_false, SingleLinkedList.begin, load_some hca, load_some hcb, bind, Except.bind, pure,
      Except.pure, SingleLinkedList.end_]
    exact std_equal_chain ca cb na nb fuel hcha hchb hlen hf
  · have hsz : a.size_ ≠ b.size_ := by omega
    have hne : (ca.map Prod.snd == cb.map Prod.snd) = false := by
      cases hb : (ca.map Prod.snd == cb.map Prod.snd) with
      | false => rfl
      | true =>
        have := beq_length _ _ hb
        simp only [List.length_map] at this
        exact absurd this hlen
    simp [operator_eq, SingleLinkedList.GetSize, hsz, hne, pure, Except.pure]

theorem nan_wf : WellFormed nanHeap nanList [(1, FloatLike.nan)] := by
  refine ⟨?_, rfl, FloatLike.val 0, some 1, rfl, rfl, none, rfl, rfl⟩
  intro a ha
  match a, ha with
  | 0, ha => exact absurd ha (by decide)
  | 1, ha => exact absurd ha (by decide)
  | _ + 2, _ => rfl

theorem list_eq_iff_index {T : Type} (xs ys : List T) :
    xs = ys ↔ xs.length = ys.length ∧ ∀ i, i < xs.length → xs[i]? = ys[i]? := by
  constructor
  · rintro rfl; exact ⟨rfl, fun _ _ => rfl⟩
  · rintro ⟨hlen, hidx⟩
    apply List.ext_getElem? 
    intro i
    by_cases hi : i < xs.length
    · exact hidx i hi
    · rw [List.getElem?_eq_none (by omega), List.getElem?_eq_none (by omega)]

theorem lex_chain {T : Type} (comp : T → T → Bool) {h : Heap T} :
    ∀ (xs ys : List (Nat × T)) (p q : Option Nat) (fuel : Nat),
      Chain h p xs → Chain h q ys → xs.length < fuel →
      std_lexicographical_compare comp h ⟨none⟩ ⟨none⟩ fuel ⟨p⟩ ⟨q⟩
        = .ok (lexWalk comp (xs.map Prod.snd) (ys.map Prod.snd))
  | [], ys, p, q, fuel, hp, hq, hf => by
    obtain ⟨f, rfl⟩ : ∃ f, fuel = f + 1 := ⟨fuel - 1, by simp at hf; omega⟩
    simp only [Chain, Seg] at hp
    subst hp
    cases ys with
    | nil =>
      simp only [Chain, Seg] at hq
      subst hq
      simp [std_lexicographical_compare, ne_const_none, eq_const_none, lexWalk, pure,
        Except.pure]
    | cons y ys =>
      obtain ⟨hq1, _⟩ := hq
      subst hq1
      simp [std_lexicographical_compare, ne_const_none, eq_const_none, lexWalk, pure,
        Except.pure]
  | x :: xs, [], p, q, fuel, hp, hq, hf => by
    obtain ⟨f, rfl⟩ : ∃ f, fuel = f + 1 := ⟨fuel - 1, by simp at hf; omega⟩
    obtain ⟨hp1, _⟩ := hp
    simp only [Chain, Seg] at hq
    subst hp1 hq
    simp [std_lexicographical_compare, ne_const_none, eq_const_none, lexWalk, pure,
      Except.pure]
  | x :: xs, y :: ys, p, q, fuel, hp, hq, hf => by
    obtain ⟨f, rfl⟩ : ∃ f, fuel = f + 1 := ⟨fuel - 1, by simp at hf; omega⟩
    obtain ⟨hp1, nx, hcx, hrx⟩ := hp
    obtain ⟨hq1, ny, hcy, hry⟩ := hq
    have ih := lex_chain comp xs ys nx ny f hrx hry (by simp at hf; omega)
    subst hp1 hq1
    simp only [std_lexicographical_compare, ne_const_none, Option.isSome_some, Bool.and_self,
      if_true, BasicIterator.operator_deref, BasicIterator.operator_inc, load_some hcx,
      load_some hcy, bind, Except.bind, pure, Except.pure, List.map_cons, lexWalk]
    cases comp x.2 y.2 with
    | true => rfl
    | false =>
      cases comp y.2 x.2 with
      | true => rfl
      | false => simpa using ih

theorem LexPrecedes_cons {T : Type} [LinearOrder T] (x : T) (xs ys : List T) :
    LexPrecedes (x :: xs) (x :: ys) ↔ LexPrecedes xs ys := by
  constructor
  · rintro (⟨i, a, b, hi, hj, ht, hlt⟩ | ⟨hlen, ht⟩)
    · cases i with
      | zero =>
        simp at hi hj
        subst hi hj
        exact absurd hlt (lt_irrefl _)
      | succ j =>
        refine Or.inl ⟨j, a, b, by simpa using hi, by simpa using hj, ?_, hlt⟩
        simpa using ht
    · exact Or.inr ⟨by simpa using hlen, by simpa using ht⟩
  · rintro (⟨i, a, b, hi, hj, ht, hlt⟩ | ⟨hlen, ht⟩)
    · exact Or.inl ⟨i + 1, a, b, by simpa using hi, by simpa using hj, by simpa using ht, hlt⟩
    · exact Or.inr ⟨by simpa using hlen, by simpa using ht⟩

theorem lexWalk_iff {T : Type} [LinearOrder T] :
    ∀ (xs ys : List T),
      lexWalk (fun left right => decide (left < right)) xs ys = true ↔ LexPrecedes xs ys
  | [], [] => by
    simp [lexWalk, LexPrecedes]
  | [], y :: ys => by
    simp [lexWalk, LexPrecedes]
  | x :: xs, [] => by
    simp [lexWalk, LexPrecedes]
  | x :: xs, y :: ys => by
    have ih := lexWalk_iff xs ys
    rcases lt_trichotomy x y with hlt | heq | hgt
    · simp only [lexWalk, hlt, decide_True, if_true, true_iff]
      exact Or.inl ⟨0, x, y, by simp, by simp, by simp, hlt⟩
    · subst heq
      simp only [lexWalk, lt_irrefl, decide_False, Bool.false_eq_true, if_false]
      rw [ih, LexPrecedes_cons]
    · have hnlt : ¬ x < y := not_lt_of_gt hgt
      simp only [lexWalk, hnlt, decide_False, Bool.false_eq_true, if_false, hgt, decide_True,
        if_true, false_iff]
      rintro (⟨i, a, b, hi, hj, ht, hlt⟩ | ⟨hlen, ht⟩)
      · cases i with
        | zero =>
          simp at hi hj
          subst hi hj
          exact hnlt hlt
        | succ j =>
          simp at ht
          exact absurd ht.1 (ne_of_gt hgt)
      · simp at ht
        exact absurd ht.1.symm (ne_of_gt hgt)

theorem WellFormed_functional {T : Type} {h : Heap T} {l : SingleLinkedList}
    {cs cs2 : List (Nat × T)} (h1 : WellFormed h l cs) (h2 : WellFormed h l cs2) : cs = cs2 := by
  obtain ⟨_, _, d, nx, hc, hch⟩ := h1
  obtain ⟨_, _, d2, nx2, hc2, hch2⟩ := h2
  rw [hc] at hc2
  have hn : nx = nx2 := congrArg Node.next_node (Option.some.inj hc2)
  subst hn
  exact Chain_functional cs cs2 nx hch hch2

theorem WellFormed_head_not_mem {T : Type} {h : Heap T} {l : SingleLinkedList}
    {cs : List (Nat × T)} (hwf : WellFormed h l cs) : l.head_ ∉ cs.map Prod.fst := by
  obtain ⟨_, _, d, nx, hc, hch⟩ := hwf
  have hfull : Chain h (some l.head_) ((l.head_, d) :: cs) := ⟨rfl, nx, hc, hch⟩
  have := Chain_nodup _ _ hfull
  rw [List.map_cons, List.nodup_cons] at this
  exact this.1

theorem WellFormed_nodup {T : Type} {h : Heap T} {l : SingleLinkedList}
    {cs : List (Nat × T)} (hwf : WellFormed h l cs) : (footprint l cs).Nodup := by
  obtain ⟨_, _, d, nx, hc, hch⟩ := hwf
  have hfull : Chain h (some l.head_) ((l.head_, d) :: cs) := ⟨rfl, nx, hc, hch⟩
  exact Chain_nodup _ _ hfull

theorem WellFormed_frame {T : Type} {h h2 : Heap T} {l : SingleLinkedList}
    {cs : List (Nat × T)} (hwf : WellFormed h l cs) (hok : HeapOK h2)
    (hsame : ∀ a ∈ footprint l cs, h2.cells a = h.cells a) : WellFormed h2 l cs := by
  obtain ⟨_, hsz, d, nx, hc, hch⟩ := hwf
  refine ⟨hok, hsz, d, nx, ?_, ?_⟩
  · rw [hsame _ (List.mem_cons_self _ _)]; exact hc
  · exact Seg_frame cs nx none
      (fun c hcm => hsame _ (List.mem_cons_of_mem _ (List.mem_map_of_mem Prod.fst hcm))) hch

theorem Clear_loop_step {T : Type} {h : Heap T} {head b : Nat} {d y : T} {nb : Option Nat}
    (hc : h.cells head = some ⟨d, some b⟩) (hb : h.cells b = some ⟨y, nb⟩) (hne : head ≠ b)
    (f : Nat) :
    SingleLinkedList.Clear_loop head (f + 1) h =
      if nb ≠ none then
        SingleLinkedList.Clear_loop head f ((h.store head (some ⟨d, nb⟩)).store b none)
      else .ok ((h.store head (some ⟨d, nb⟩)).store b none) := by
  have hc2 : (h.store b none).cells head = some ⟨d, some b⟩ := by simp [hne, hc]
  have hc3 : ((h.store b none).store head (some ⟨d, nb⟩)).cells head = some ⟨d, nb⟩ := by
    simp
  simp only [SingleLinkedList.Clear_loop, load_some hc, load_some hb, delete_some hb,
    setNext_some hc2, load_some hc3, bind, Except.bind, pure, Except.pure]
  rw [store_comm h (Ne.symm hne)]

theorem Clear_loop_spec {T : Type} :
    ∀ (cs : List (Nat × T)) (c : Nat × T) (h : Heap T) (l : SingleLinkedList) (fuel : Nat),
      WellFormed h l (c :: cs) →
      (fuel ≤ cs.length → SingleLinkedList.Clear_loop l.head_ fuel h = .error .fuel) ∧
      (cs.length < fuel → ∃ h2, SingleLinkedList.Clear_loop l.head_ fuel h = .ok h2 ∧
        WellFormed h2 { l with size_ := 0 } [] ∧ h2.fresh = h.fresh ∧
        (∀ b, b ∉ footprint l (c :: cs) → h2.cells b = h.cells b) ∧
        ∀ x ∈ c :: cs, h2.cells x.1 = none)
  | cs, c, h, l, 0, _ => ⟨fun _ => rfl, fun hlt => absurd hlt (Nat.not_lt_zero _)⟩
  | [], c, h, l, f + 1, hwf => by
    obtain ⟨d, nb, hc, hb, hne, _, hwf2⟩ := PopFront_spec hwf
    have hnb : nb = none := by
      have hhead : ((h.store l.head_ (some ⟨d, nb⟩)).store c.1 none).cells l.head_
          = some ⟨d, nb⟩ := by simp [hne]
      obtain ⟨_, _, d2, nx2, hc2, hch2⟩ := hwf2
      rw [hhead] at hc2
      have hnx : nb = nx2 := congrArg Node.next_node (Option.some.inj hc2)
      simp only [Chain, Seg] at hch2
      rw [hnx, hch2]
    subst hnb
    refine ⟨fun hle => absurd hle (by simp), fun _ =>
      ⟨(h.store l.head_ (some ⟨d, none⟩)).store c.1 none, ?_, ?_, rfl, ?_, ?_⟩⟩
    · rw [Clear_loop_step hc hb hne]; simp
    · obtain ⟨hok2, _, rest⟩ := hwf2
      exact ⟨hok2, rfl, rest⟩
    · intro b hbn
      have h1 : b ≠ l.head_ := fun e => hbn (e ▸ List.mem_cons_self _ _)
      have h2 : b ≠ c.1 := fun e => hbn (e ▸ by simp [footprint])
      simp [h1, h2]
    · intro x hx
      have : x = c := by simpa using hx
      subst this
      simp
  | c2 :: cs, c, h, l, f + 1, hwf => by
    obtain ⟨d, nb, hc, hb, hne, _, hwf2⟩ := PopFront_spec hwf
    have hhead : ((h.store l.head_ (some ⟨d, nb⟩)).store c.1 none).cells l.head_
        = some ⟨d, nb⟩ := by simp [hne]
    have hnb : nb ≠ none := by
      obtain ⟨_, _, d2, nx2, hc2, hch2⟩ := hwf2
      rw [hhead] at hc2
      have hnx : nb = nx2 := congrArg Node.next_node (Option.some.inj hc2)
      rw [hnx, hch2.1]; simp
    have ih := Clear_loop_spec cs c2 _ { l with size_ := l.size_ - 1 } f hwf2
    have hnd := WellFormed_nodup hwf
    have hstep := Clear_loop_step hc hb hne f
    rw [if_pos hnb] at hstep
    refine ⟨fun hle => ?_, fun hlt => ?_⟩
    · rw [hstep]; exact ih.1 (by simp at hle; omega)
    · obtain ⟨h2, hrun, hwf3, hfr, hsame, hgone⟩ := ih.2 (by simp at hlt; omega)
      refine ⟨h2, by rw [hstep]; exact hrun, hwf3, by rw [hfr]; rfl, ?_, ?_⟩
      · intro b hbn
        have h1 : b ≠ l.head_ := fun e => hbn (e ▸ List.mem_cons_self _ _)
        have h2' : b ≠ c.1 := fun e => hbn (e ▸ by simp [footprint])
        have h3 : b ∉ footprint { l with size_ := l.size_ - 1 } (c2 :: cs) := by
          intro hm
          apply hbn
          simp only [footprint, List.map_cons, List.mem_cons] at hm ⊢
          rcases hm with e | e | e
          · exact Or.inl e
          · exact Or.inr (Or.inr (Or.inl e))
          · exact Or.inr (Or.inr (Or.inr e))
        rw [hsame b h3]; simp [h1, h2']
      · intro x hx
        rcases List.mem_cons.1 hx with rfl | hx2
        · have hx3 : x.1 ∉ footprint { l with size_ := l.size_ - 1 } (c2 :: cs) := by
            intro hm
            rw [footprint, List.nodup_cons] at hnd
            simp only [footprint, List.mem_cons] at hm
            rcases hm with e | hm
            · exact hne e.symm
            · have := (List.nodup_cons.1 hnd.2).1
              exact this hm
          rw [hsame _ hx3]; simp
        · exact hgone x hx2

theorem Clear_spec {T : Type} {h : Heap T} {l : SingleLinkedList} {cs : List (Nat × T)}
    (hwf : WellFormed h l cs) (fuel : Nat) :
    (cs.length ≤ fuel → ∃ h2, SingleLinkedList.Clear fuel h l = .ok (h2, { l with size_ := 0 })) ∧
    (∀ h2 l2, SingleLinkedList.Clear fuel h l = .ok (h2, l2) →
      l2 = { l with size_ := 0 } ∧ WellFormed h2 l2 [] ∧ h2.fresh = h.fresh ∧
      (∀ b, b ∉ footprint l cs → h2.cells b = h.cells b) ∧
      ∀ x ∈ cs, h2.cells x.1 = none) := by
  cases cs with
  | nil =>
    have hsz : l.size_ = 0 := hwf.2.1
    have hl : ({ l with size_ := 0 } : SingleLinkedList) = l := by
      cases l; simp only [SingleLinkedList.mk.injEq, true_and]; exact hsz.symm
    have hrun : SingleLinkedList.Clear fuel h l = .ok (h, l) := by
      simp [SingleLinkedList.Clear, hsz, pure, Except.pure]
    refine ⟨fun _ => ⟨h, by rw [hrun, hl]⟩, fun h2 l2 hr => ?_⟩
    rw [hrun] at hr
    have e := Except.ok.inj hr
    have e1 : h = h2 := congrArg Prod.fst e
    have e2 : l = l2 := congrArg Prod.snd e
    subst e1 e2
    exact ⟨hl.symm, hwf, rfl, fun _ _ => rfl, fun x hx => absurd hx (List.not_mem_nil x)⟩
  | cons c cs =>
    have hsz : l.size_ = cs.length + 1 := hwf.2.1
    have hs0 : ¬ (l.size_ = 0) := by omega
    obtain ⟨d, nb, hc, _, _, _, _⟩ := PopFront_spec hwf
    have hrun : SingleLinkedList.Clear fuel h l =
        (SingleLinkedList.Clear_loop l.head_ fuel h).bind
          (fun h1 => .ok (h1, { l with size_ := 0 })) := by
      simp [SingleLinkedList.Clear, hs0, load_some hc, bind, Except.bind, pure, Except.pure]
    have hloop := Clear_loop_spec cs c h l fuel hwf
    refine ⟨fun hle => ?_, fun h2 l2 hr => ?_⟩
    · obtain ⟨h2, hr2, _⟩ := hloop.2 (by simpa using hle)
      exact ⟨h2, by rw [hrun, hr2]; rfl⟩
    · by_cases hlt : cs.length < fuel
      · obtain ⟨h3, hr3, hwf3, hfr, hsame, hgone⟩ := hloop.2 hlt
        rw [hrun, hr3] at hr
        have e := Except.ok.inj hr
        have e1 : h3 = h2 := congrArg Prod.fst e
        have e2 : ({ l with size_ := 0 } : SingleLinkedList) = l2 := congrArg Prod.snd e
        subst e1 e2
        exact ⟨rfl, hwf3, hfr, hsame, hgone⟩
      · rw [hrun, hloop.1 (Nat.le_of_not_lt hlt)] at hr
        exact absurd hr (by simp [Except.bind])

theorem swap_spec {T : Type} {h : Heap T} {a b : SingleLinkedList} {ca cb : List (Nat × T)}
    (hwa : WellFormed h a ca) (hwb : WellFormed h b cb)
    (hdis : ∀ x ∈ footprint a ca, x ∉ footprint b cb) :
    ∃ da na db nb, h.cells a.head_ = some ⟨da, na⟩ ∧ h.cells b.head_ = some ⟨db, nb⟩ ∧
      SingleLinkedList.swap h a b =
        .ok ((h.store a.head_ (some ⟨da, nb⟩)).store b.head_ (some ⟨db, na⟩),
          { a with size_ := b.size_ }, { b with size_ := a.size_ }) ∧
      WellFormed ((h.store a.head_ (some ⟨da, nb⟩)).store b.head_ (some ⟨db, na⟩))
        { a with size_ := b.size_ } cb ∧
      WellFormed ((h.store a.head_ (some ⟨da, nb⟩)).store b.head_ (some ⟨db, na⟩))
        { b with size_ := a.size_ } ca := by
  have hfa := WellFormed_lt_fresh hwa
  have hfb := WellFormed_lt_fresh hwb
  have hna := WellFormed_head_not_mem hwa
  have hnb := WellFormed_head_not_mem hwb
  obtain ⟨hok, hsa, da, na, hca, hcha⟩ := hwa
  obtain ⟨_, hsb, db, nb, hcb, hchb⟩ := hwb
  have hab : a.head_ ≠ b.head_ := fun e =>
    hdis a.head_ (List.mem_cons_self _ _) (e ▸ List.mem_cons_self _ _)
  have ha_cb : a.head_ ∉ cb.map Prod.fst := fun hm =>
    hdis a.head_ (List.mem_cons_self _ _) (List.mem_cons_of_mem _ hm)
  have hb_ca : b.head_ ∉ ca.map Prod.fst := fun hm =>
    hdis b.head_ (List.mem_cons_of_mem _ hm) (List.mem_cons_self _ _)
  have hc1 : (h.store a.head_ (some ⟨da, nb⟩)).cells b.head_ = some ⟨db, nb⟩ := by
    simp [Ne.symm hab, hcb]
  have hok2 : HeapOK ((h.store a.head_ (some ⟨da, nb⟩)).store b.head_ (some ⟨db, na⟩)) :=
    HeapOK_store (HeapOK_store hok _ _ (hfa _ (List.mem_cons_self _ _))) _ _
      (hfb _ (List.mem_cons_self _ _))
  refine ⟨da, na, db, nb, hca, hcb, ?_, ?_, ?_⟩
  · simp only [SingleLinkedList.swap, load_some hca, load_some hcb, setNext_some hca,
      setNext_some hc1, bind, Except.bind, pure, Except.pure]
  · refine ⟨hok2, hsb, da, nb, by simp [hab], ?_⟩
    exact Seg_store_other _ _ hnb (Seg_store_other _ _ ha_cb hchb)
  · refine ⟨hok2, hsa, db, na, by simp, ?_⟩
    exact Seg_store_other _ _ hb_ca (Seg_store_other _ _ hna hcha)

theorem copy_loop_spec {T : Type} (h0 : Heap T) (F : Nat) :
    ∀ (rest : List (Nat × T)) (p : Option Nat) (h1 : Heap T) (this : SingleLinkedList)
      (done : List (Nat × T)),
      WellFormed h1 this done → (∀ a ∈ footprint this done, F ≤ a) → F ≤ h1.fresh →
      (∀ b, b < F → h1.cells b = h0.cells b) → Chain h0 p rest → (∀ c ∈ rest, c.1 < F) →
      ∃ h2 l2 cs2, SingleLinkedList.copy_loop rest.length h1 this ⟨p⟩ = .ok (h2, l2) ∧
        WellFormed h2 l2 cs2 ∧ cs2.map Prod.snd = done.map Prod.snd ++ rest.map Prod.snd ∧
        (∀ a ∈ footprint l2 cs2, F ≤ a) ∧ (∀ b, b < F → h2.cells b = h0.cells b) ∧
        l2.head_ = this.head_ ∧ F ≤ h2.fresh
  | [], p, h1, this, done, hwf, hfp, hF, hsame, _, _ =>
    ⟨h1, this, done, rfl, hwf, by simp, hfp, hsame, rfl, hF⟩
  | c :: rest, p, h1, this, done, hwf, hfp, hF, hsame, hch, hlt => by
    obtain ⟨hp, nx, hcell, hrest⟩ := hch
    have hcF : c.1 < F := hlt c (List.mem_cons_self _ _)
    have hcell1 : h1.cells c.1 = some ⟨c.2, nx⟩ := by rw [hsame _ hcF]; exact hcell
    obtain ⟨a, x, _, ha, hrun, hwf2⟩ := PushBack_spec c.2 hwf
    have ha_mem : a ∈ footprint this done := List.getElem?_mem ha.symm
    have haF : F ≤ a := hfp a ha_mem
    have hsame2 : ∀ b, b < F →
        ((h1.new (⟨c.2, none⟩ : Node T)).2.store a (some ⟨x, some h1.fresh⟩)).cells b
          = h0.cells b := by
      intro b hb
      have h1' : b ≠ a := by omega
      have h2' : b ≠ h1.fresh := by omega
      simp [h1', h2', hsame b hb]
    have hfp2 : ∀ a2 ∈ footprint { this with size_ := this.size_ + 1 }
        (done ++ [(h1.fresh, c.2)]), F ≤ a2 := by
      intro a2 hm
      simp only [footprint, List.map_append, List.map_cons, List.map_nil, List.mem_cons,
        List.mem_append, List.mem_singleton, List.not_mem_nil, or_false] at hm
      rcases hm with e | e | e
      · exact e ▸ hfp _ (List.mem_cons_self _ _)
      · exact hfp _ (List.mem_cons_of_mem _ e)
      · exact e ▸ hF
    obtain ⟨h2, l2, cs2, hrun2, hwf3, hval, hfp3, hsame3, hhd, hF3⟩ :=
      copy_loop_spec h0 F rest nx _ _ _ hwf2 hfp2 (by simp; omega) hsame2 hrest
        (fun c2 hc2 => hlt c2 (List.mem_cons_of_mem _ hc2))
    refine ⟨h2, l2, cs2, ?_, hwf3, by simpa using hval, hfp3, hsame3, hhd, hF3⟩
    have hcell2 : ((h1.new (⟨c.2, none⟩ : Node T)).2.store a (some ⟨x, some h1.fresh⟩)).cells
        c.1 = some ⟨c.2, nx⟩ := by rw [hsame2 _ hcF]; exact hcell
    simp only [List.length_cons, SingleLinkedList.copy_loop, hp, load_some hcell1, hrun, bind,
      Except.bind, BasicIterator.operator_inc, load_some hcell2, pure, Except.pure]
    exact hrun2

theorem copy_ctor_spec {T : Type} [Inhabited T] {h : Heap T} {other : SingleLinkedList}
    {cs : List (Nat × T)} (hwf : WellFormed h other cs) :
    ∃ h2 l2 cs2, SingleLinkedList.copy_ctor h other = .ok (h2, l2) ∧
      WellFormed h2 l2 cs2 ∧ cs2.map Prod.snd = cs.map Prod.snd ∧
      (∀ a ∈ footprint l2 cs2, h.fresh ≤ a) ∧ (∀ b, b < h.fresh → h2.cells b = h.cells b) ∧
      l2.head_ = h.fresh ∧ h.fresh ≤ h2.fresh := by
  have hfp := WellFormed_lt_fresh hwf
  obtain ⟨hok, hsz, d, nx, hcell, hch⟩ := hwf
  have hhd : other.head_ < h.fresh := hfp _ (List.mem_cons_self _ _)
  have hsame : ∀ b, b < h.fresh → (SingleLinkedList.ctor h).1.cells b = h.cells b := by
    intro b hb
    have : b ≠ h.fresh := Nat.ne_of_lt hb
    simp [SingleLinkedList.ctor, this]
  have hcell1 : (SingleLinkedList.ctor h).1.cells other.head_ = some ⟨d, nx⟩ := by
    rw [hsame _ hhd]; exact hcell
  obtain ⟨h2, l2, cs2, hrun, hwf2, hval, hfp2, hsame2, hhead, hF⟩ :=
    copy_loop_spec h h.fresh cs nx (SingleLinkedList.ctor h).1 (SingleLinkedList.ctor h).2 []
      (WellFormed_ctor hok) (by simp [footprint, SingleLinkedList.ctor])
      (by simp [SingleLinkedList.ctor]) hsame hch
      (fun c hc => hfp _ (List.mem_cons_of_mem _ (List.mem_map_of_mem Prod.fst hc)))
  refine ⟨h2, l2, cs2, ?_, hwf2, by simpa using hval, hfp2, hsame2, hhead, hF⟩
  simp only [SingleLinkedList.copy_ctor, SingleLinkedList.begin, load_some hcell1,
    SingleLinkedList.GetSize, hsz, bind, Except.bind, pure, Except.pure]
  exact hrun

theorem assign_spec {T : Type} [Inhabited T] {h : Heap T} {this rhs : SingleLinkedList}
    {ca cb : List (Nat × T)} (hwa : WellFormed h this ca) (hwb : WellFormed h rhs cb)
    (hdis : ∀ x ∈ footprint this ca, x ∉ footprint rhs cb) (fuel : Nat) :
    (ca.length ≤ fuel →
      ∃ h2 l2, SingleLinkedList.operator_assign fuel h this rhs = .ok (h2, l2)) ∧
    (∀ h2 l2, SingleLinkedList.operator_assign fuel h this rhs = .ok (h2, l2) →
      ∃ cs2, WellFormed h2 l2 cs2 ∧ cs2.map Prod.snd = cb.map Prod.snd ∧
        l2 = ⟨this.head_, rhs.size_⟩ ∧ (∀ a ∈ cs2.map Prod.fst, h.fresh ≤ a) ∧
        h.fresh ≤ h2.fresh ∧
        (∀ b, b < h.fresh → b ∉ footprint this ca → h2.cells b = h.cells b)) := by
  have hne : ¬ (rhs.head_ = this.head_) := fun e =>
    hdis this.head_ (List.mem_cons_self _ _) (e ▸ List.mem_cons_self _ _)
  have hfa := WellFormed_lt_fresh hwa
  obtain ⟨h1, tmp, ct, hcopy, hwt, hval, hfpt, hsame1, htmp, hfr1⟩ := copy_ctor_spec hwb
  have hwa1 : WellFormed h1 this ca :=
    WellFormed_frame hwa hwt.1 (fun a ha => hsame1 a (hfa a ha))
  have hdis1 : ∀ x ∈ footprint this ca, x ∉ footprint tmp ct := fun x hx hx2 =>
    absurd (hfa x hx) (Nat.not_lt.2 (hfpt x hx2))
  obtain ⟨da, na, db, nb, hca1, hcb1, hswap, hwthis, hwtmp⟩ := swap_spec hwa1 hwt hdis1
  have hcl := Clear_spec hwtmp fuel
  have hrun : SingleLinkedList.operator_assign fuel h this rhs =
      (SingleLinkedList.Clear fuel
        ((h1.store this.head_ (some ⟨da, nb⟩)).store tmp.head_ (some ⟨db, na⟩))
        { tmp with size_ := this.size_ }).bind
        (fun s => (s.1.delete (some tmp.head_)).bind
          (fun h3 => .ok (h3, { this with size_ := tmp.size_ }))) := by
    simp only [SingleLinkedList.operator_assign, if_neg hne, hcopy, hswap, bind, Except.bind,
      SingleLinkedList.dtor, pure, Except.pure]
    cases SingleLinkedList.Clear fuel _ _ with
    | error e => rfl
    | ok s => cases s.1.delete (some tmp.head_) <;> rfl
  have hpost : ∀ h3 l3, SingleLinkedList.Clear fuel
        ((h1.store this.head_ (some ⟨da, nb⟩)).store tmp.head_ (some ⟨db, na⟩))
        { tmp with size_ := this.size_ } = .ok (h3, l3) →
      ∃ d3, h3.cells tmp.head_ = some ⟨d3, none⟩ ∧
        SingleLinkedList.operator_assign fuel h this rhs =
          .ok (h3.store tmp.head_ none, { this with size_ := tmp.size_ }) ∧
        WellFormed (h3.store tmp.head_ none) { this with size_ := tmp.size_ } ct ∧
        h.fresh ≤ h3.fresh ∧
        (∀ b, b < h.fresh → b ∉ footprint this ca →
          (h3.store tmp.head_ none).cells b = h.cells b) := by
    intro h3 l3 hr
    obtain ⟨hl3, hw3, hfr3, hsame3, _⟩ := (hcl.2 h3 l3 hr)
    obtain ⟨hok3, _, d3, nx3, hc3, hch3⟩ := hw3
    have hnx3 : nx3 = none := by simpa [Chain, Seg] using hch3
    subst hnx3
    have hc3' : h3.cells tmp.head_ = some ⟨d3, none⟩ := by rw [hl3] at hc3; exact hc3
    have htl : tmp.head_ < h3.fresh := by
      rw [hfr3]
      exact WellFormed_lt_fresh hwtmp _ (List.mem_cons_self _ _)
    have hthis_ne : this.head_ ≠ tmp.head_ := fun e =>
      hdis1 this.head_ (List.mem_cons_self _ _) (e ▸ List.mem_cons_self _ _)
    refine ⟨d3, hc3', ?_, ?_, ?_, ?_⟩
    · rw [hrun, hr]
      simp only [Except.bind, delete_some hc3']
    · refine WellFormed_frame hwthis (HeapOK_store hok3 _ _ htl) (fun a ha => ?_)
      have ha_ne : a ≠ tmp.head_ := by
        intro e
        rcases List.mem_cons.1 ha with e2 | hm
        · exact hthis_ne (e2.symm.trans e)
        · exact WellFormed_head_not_mem hwt (e ▸ hm)
      have ha_nfp : a ∉ footprint { tmp with size_ := this.size_ } ca := by
        intro hm
        rcases List.mem_cons.1 hm with e2 | hm2
        · exact ha_ne e2
        · rcases List.mem_cons.1 ha with e3 | hm3
          · exact WellFormed_head_not_mem hwa (e3 ▸ hm2)
          · exact hdis1 a (List.mem_cons_of_mem _ hm2) (List.mem_cons_of_mem _ hm3)
      rw [store_cells, if_neg ha_ne]
      exact hsame3 a ha_nfp
    · have : h1.fresh ≤ h3.fresh := by rw [hfr3]; exact Nat.le_refl _
      exact Nat.le_trans hfr1 this
    · intro b hb hbn
      have hb_tmp : b ≠ tmp.head_ := by rw [htmp]; exact Nat.ne_of_lt hb
      have hb_this : b ≠ this.head_ := fun e => hbn (e ▸ List.mem_cons_self _ _)
      have hb_nfp : b ∉ footprint { tmp with size_ := this.size_ } ca := by
        intro hm
        rcases List.mem_cons.1 hm with e2 | hm2
        · exact hb_tmp e2
        · exact hbn (List.mem_cons_of_mem _ hm2)
      rw [store_cells, if_neg hb_tmp, hsame3 b hb_nfp, store_cells, if_neg hb_tmp,
        store_cells, if_neg hb_this]
      exact hsame1 b hb
  have hsz : tmp.size_ = rhs.size_ := by
    have h1' : tmp.size_ = ct.length := hwt.2.1
    have h2' : rhs.size_ = cb.length := hwb.2.1
    have h3' := congrArg List.length hval
    simp at h3'
    omega
  refine ⟨fun hle => ?_, fun h2 l2 hr => ?_⟩
  · obtain ⟨h3, hr3⟩ := hcl.1 hle
    obtain ⟨_, _, hr4, _⟩ := hpost h3 _ hr3
    exact ⟨_, _, hr4⟩
  · cases hclr : SingleLinkedList.Clear fuel
        ((h1.store this.head_ (some ⟨da, nb⟩)).store tmp.head_ (some ⟨db, na⟩))
        { tmp with size_ := this.size_ } with
    | error e =>
      rw [hrun, hclr] at hr
      exact absurd hr (by simp [Except.bind])
    | ok s =>
      obtain ⟨h3, l3⟩ := s
      obtain ⟨d3, _, hr4, hw4, hfr4, hsame4⟩ := hpost h3 l3 hclr
      rw [hr4] at hr
      have e := Except.ok.inj hr
      have e1 : h3.store tmp.head_ none = h2 := congrArg Prod.fst e
      have e2 : ({ this with size_ := tmp.size_ } : SingleLinkedList) = l2 := congrArg Prod.snd e
      subst e1 e2
      refine ⟨ct, hw4, hval, by rw [hsz], ?_, hfr4, hsame4⟩
      intro a ha
      exact hfpt a (List.mem_cons_of_mem _ ha)

theorem Seg_prefix_index {T : Type} {h : Heap T} :
    ∀ (pre F : List (Nat × T)) (p : Option Nat) (a : Nat),
      Seg h p pre (some a) → Chain h p F →
      pre.length < F.length ∧ (F.map Prod.fst)[pre.length]? = some a
  | [], [], p, a, hs, hc => by
    simp only [Seg] at hs
    simp only [Chain, Seg] at hc
    rw [hs] at hc; exact absurd hc (by simp)
  | [], c :: F, p, a, hs, hc => by
    simp only [Seg] at hs
    obtain ⟨hp, _⟩ := hc
    rw [hs] at hp
    have : a = c.1 := Option.some.inj hp
    simp [this]
  | c :: pre, [], p, a, hs, hc => by
    simp only [Chain, Seg] at hc
    rw [hc] at hs; exact absurd hs.1 (by simp)
  | c :: pre, c2 :: F, p, a, hs, hc => by
    obtain ⟨hp, nx, hcell, hrest⟩ := hs
    obtain ⟨hp2, nx2, hcell2, hrest2⟩ := hc
    have ha : c.1 = c2.1 := by rw [hp] at hp2; exact Option.some.inj hp2
    rw [ha, hcell2] at hcell
    have hx : nx2 = nx := congrArg Node.next_node (Option.some.inj hcell)
    subst hx
    obtain ⟨h1, h2⟩ := Seg_prefix_index pre F nx2 a hrest hrest2
    exact ⟨by simpa using h1, by simpa using h2⟩

theorem ValidPos_AtPosition {T : Type} {h : Heap T} {l : SingleLinkedList}
    {cs : List (Nat × T)} {pos : BasicIterator} (hwf : WellFormed h l cs)
    (hv : ValidPos h l pos) : ∃ k, AtPosition l cs pos k := by
  obtain ⟨a, pre, hnode, hseg, _⟩ := hv
  obtain ⟨_, _, d, nx, hc, hch⟩ := hwf
  have hfull : Chain h (some l.head_) ((l.head_, d) :: cs) := ⟨rfl, nx, hc, hch⟩
  obtain ⟨h1, h2⟩ := Seg_prefix_index pre _ _ a hseg hfull
  exact ⟨pre.length, by simpa using Nat.le_of_lt_succ h1, by rw [hnode, ← h2]; rfl⟩

theorem HasSuccessor_lt {T : Type} {h : Heap T} {l : SingleLinkedList}
    {cs : List (Nat × T)} {pos : BasicIterator} {k : Nat} (hwf : WellFormed h l cs)
    (hpos : AtPosition l cs pos k) (hs : HasSuccessor h pos) : k < cs.length := by
  obtain ⟨a2, n, b, hnode2, hcell2, hnext⟩ := hs
  obtain ⟨_, _, d, nx0, hcell0, hch⟩ := hwf
  obtain ⟨pre, a, x, hnode, hsplit⟩ := position_split d hpos
  have ha : a2 = a := by rw [hnode] at hnode2; exact (Option.some.inj hnode2).symm
  subst ha
  have hfull : Chain h (some l.head_) (pre ++ (a2, x) :: cs.drop k) := by
    have h1 : Chain h (some l.head_) ((l.head_, d) :: cs) := ⟨rfl, nx0, hcell0, hch⟩
    have h2 : (l.head_, d) :: cs = pre ++ (a2, x) :: cs.drop k := by
      calc (l.head_, d) :: cs = ((l.head_, d) :: cs.take k) ++ cs.drop k := by simp
        _ = pre ++ (a2, x) :: cs.drop k := by rw [hsplit]; simp
    rw [← h2]; exact h1
  obtain ⟨m, _, hrest⟩ := (Seg_append pre _ _ none).1 hfull
  obtain ⟨_, nx, hcell, hpost⟩ := hrest
  simp only at hcell
  rw [hcell2] at hcell
  have hn : n.next_node = nx := congrArg Node.next_node (Option.some.inj hcell)
  rw [hnext] at hn
  subst hn
  by_contra hge
  have hnil : cs.drop k = [] := List.drop_eq_nil_of_le (Nat.le_of_not_lt hge)
  rw [hnil] at hpost
  simp only [Seg] at hpost
  exact absurd hpost (by simp)

theorem Inv_put {T : Type} {w : World T} (hinv : Inv w) (i : Nat) (S : List Nat)
    (h2 : Heap T) (l2 : SingleLinkedList) (cs2 : List (Nat × T))
    (hS : ∀ j lj cj, j ≠ i → w.lists j = some lj → WellFormed w.heap lj cj →
      ∀ a ∈ footprint lj cj, a ∉ S)
    (hfr : ∀ b, b < w.heap.fresh → b ∉ S → h2.cells b = w.heap.cells b)
    (hwf2 : WellFormed h2 l2 cs2)
    (hfp : ∀ a ∈ footprint l2 cs2, a ∈ S ∨ w.heap.fresh ≤ a) : Inv (w.put h2 i l2) := by
  obtain ⟨hok, hall, hdis⟩ := hinv
  have hkeep : ∀ j lj cj, j ≠ i → w.lists j = some lj → WellFormed w.heap lj cj →
      WellFormed h2 lj cj := by
    intro j lj cj hji hlj hwj
    refine WellFormed_frame hwj hwf2.1 (fun a ha => ?_)
    exact hfr a (WellFormed_lt_fresh hwj a ha) (hS j lj cj hji hlj hwj a ha)
  have hcross : ∀ j lj cj, j ≠ i → w.lists j = some lj → WellFormed w.heap lj cj →
      ∀ a ∈ footprint l2 cs2, a ∉ footprint lj cj := by
    intro j lj cj hji hlj hwj a ha ha2
    rcases hfp a ha with hin | hge
    · exact hS j lj cj hji hlj hwj a ha2 hin
    · exact absurd (WellFormed_lt_fresh hwj a ha2) (Nat.not_lt.2 hge)
  refine ⟨hwf2.1, ?_, ?_⟩
  · intro j lj hlj
    by_cases hji : j = i
    · subst hji
      have : l2 = lj := by simpa [World.put] using hlj
      subst this
      exact ⟨cs2, hwf2⟩
    · have hlj' : w.lists j = some lj := by simpa [World.put, hji] using hlj
      obtain ⟨cj, hwj⟩ := hall j lj hlj'
      exact ⟨cj, hkeep j lj cj hji hlj' hwj⟩
  · intro p q lp lq cp cq hpq hlp hlq hwp hwq a ha ha2
    by_cases hp : p = i
    · subst hp
      have e : l2 = lp := by simpa [World.put] using hlp
      subst e
      have hq : q ≠ p := Ne.symm hpq
      have hlq' : w.lists q = some lq := by simpa [World.put, hq] using hlq
      obtain ⟨cq0, hwq0⟩ := hall q lq hlq'
      have e2 := WellFormed_functional hwq (hkeep q lq cq0 hq hlq' hwq0)
      subst e2
      have e3 := WellFormed_functional hwp hwf2
      subst e3
      exact hcross q lq cq hq hlq' hwq0 a ha ha2
    · have hlp' : w.lists p = some lp := by simpa [World.put, hp] using hlp
      obtain ⟨cp0, hwp0⟩ := hall p lp hlp'
      have e1 := WellFormed_functional hwp (hkeep p lp cp0 hp hlp' hwp0)
      subst e1
      by_cases hq : q = i
      · subst hq
        have e : l2 = lq := by simpa [World.put] using hlq
        subst e
        have e3 := WellFormed_functional hwq hwf2
        subst e3
        exact hcross p lp cp hp hlp' hwp0 a ha2 ha
      · have hlq' : w.lists q = some lq := by simpa [World.put, hq] using hlq
        obtain ⟨cq0, hwq0⟩ := hall q lq hlq'
        have e2 := WellFormed_functional hwq (hkeep q lq cq0 hq hlq' hwq0)
        subst e2
        exact hdis p q lp lq cp cq hpq hlp' hlq' hwp0 hwq0 a ha ha2

theorem AtPosition_mem {T : Type} {l : SingleLinkedList} {cs : List (Nat × T)}
    {pos : BasicIterator} {k a : Nat} (hpos : AtPosition l cs pos k)
    (hnode : pos.node_ = some a) : a ∈ footprint l cs := by
  have := hpos.2
  rw [hnode] at this
  exact List.getElem?_mem this.symm

theorem InsertAfter_local {T : Type} {h h2 : Heap T} {l l2 : SingleLinkedList}
    {cs : List (Nat × T)} {pos it : BasicIterator} {k : Nat} {v : T}
    (hwf : WellFormed h l cs) (hpos : AtPosition l cs pos k)
    (hrun : SingleLinkedList.InsertAfter h l pos v = .ok (h2, l2, it)) :
    Local h l cs h2 l2 := by
  obtain ⟨a, x, nx, hnode, _, halt, hrun0, hwf2⟩ := InsertAfter_spec v hwf hpos
  have ha := AtPosition_mem hpos hnode
  rw [hrun0] at hrun
  have e := Except.ok.inj hrun
  have e1 := congrArg Prod.fst e
  have e2 := congrArg (fun r => r.2.1) e
  simp only at e1 e2
  subst e1 e2
  refine ⟨_, hwf2, fun b hb hbn => ?_, fun a2 ha2 => ?_⟩
  · have h1 : b ≠ a := fun e => hbn (e ▸ ha)
    have h2' : b ≠ h.fresh := Nat.ne_of_lt hb
    simp [h1, h2']
  · simp only [footprint, List.map_append, List.map_cons, List.mem_cons, List.mem_append]
      at ha2 ⊢
    rcases ha2 with e | hm | e | hm
    · exact Or.inl (Or.inl e)
    · exact Or.inl (Or.inr (List.mem_of_mem_take (by rw [← List.map_take] at *; exact hm)))
    · exact Or.inr (by omega)
    · exact Or.inl (Or.inr (List.mem_of_mem_drop (by rw [← List.map_drop] at *; exact hm)))

theorem EraseAfter_local {T : Type} {h h2 : Heap T} {l l2 : SingleLinkedList}
    {cs : List (Nat × T)} {pos it : BasicIterator} {k : Nat}
    (hwf : WellFormed h l cs) (hpos : AtPosition l cs pos k) (hk : k < cs.length)
    (hrun : SingleLinkedList.EraseAfter h l pos = .ok (h2, l2, it)) :
    Local h l cs h2 l2 := by
  obtain ⟨a, b, x, y, nb, hnode, _, _, _, hck, _, hrun0, hwf2⟩ := EraseAfter_spec hwf hpos hk
  have ha := AtPosition_mem hpos hnode
  have hb : b ∈ footprint l cs :=
    List.mem_cons_of_mem _ (List.mem_map_of_mem Prod.fst (List.getElem?_mem hck))
  rw [hrun0] at hrun
  have e := Except.ok.inj hrun
  have e1 := congrArg Prod.fst e
  have e2 := congrArg (fun r => r.2.1) e
  simp only at e1 e2
  subst e1 e2
  refine ⟨_, hwf2, fun c hc hcn => ?_, fun a2 ha2 => ?_⟩
  · have h1 : c ≠ a := fun e => hcn (e ▸ ha)
    have h2' : c ≠ b := fun e => hcn (e ▸ hb)
    simp [h1, h2']
  · simp only [footprint, List.map_append, List.mem_cons, List.mem_append] at ha2 ⊢
    rcases ha2 with e | hm | hm
    · exact Or.inl (Or.inl e)
    · exact Or.inl (Or.inr (List.mem_of_mem_take (by rw [← List.map_take] at *; exact hm)))
    · exact Or.inl (Or.inr (List.mem_of_mem_drop (by rw [← List.map_drop] at *; exact hm)))

theorem before_begin_pos {T : Type} (l : SingleLinkedList) (cs : List (Nat × T)) :
    AtPosition l cs l.before_begin 0 :=
  ⟨Nat.zero_le _, by simp [SingleLinkedList.before_begin, footprint]⟩

theorem PushFront_local {T : Type} {h h2 : Heap T} {l l2 : SingleLinkedList}
    {cs : List (Nat × T)} {v : T} (hwf : WellFormed h l cs)
    (hrun : SingleLinkedList.PushFront h l v = .ok (h2, l2)) : Local h l cs h2 l2 := by
  obtain ⟨a, x, nx, _, _, _, hrun0, _⟩ := InsertAfter_spec v hwf (before_begin_pos l cs)
  have hrun1 := hrun0
  rw [PushFront_eq_InsertAfter, hrun0] at hrun
  have e := Except.ok.inj hrun
  have e1 := congrArg Prod.fst e
  have e2 := congrArg Prod.snd e
  simp only at e1 e2
  subst e1 e2
  exact InsertAfter_local hwf (before_begin_pos l cs) hrun1

theorem PopFront_local {T : Type} {h h2 : Heap T} {l l2 : SingleLinkedList}
    {cs : List (Nat × T)} (hwf : WellFormed h l cs) (hne : l.IsEmpty = false)
    (hrun : SingleLinkedList.PopFront h l = .ok (h2, l2)) : Local h l cs h2 l2 := by
  have hk : 0 < cs.length := by
    have hsz : l.size_ = cs.length := hwf.2.1
    have : l.size_ ≠ 0 := by simpa [SingleLinkedList.IsEmpty] using hne
    omega
  obtain ⟨a, b, x, y, nb, _, _, _, _, _, _, hrun0, _⟩ :=
    EraseAfter_spec hwf (before_begin_pos l cs) hk
  have hrun1 := hrun0
  rw [PopFront_eq_EraseAfter, hrun0] at hrun
  have e := Except.ok.inj hrun
  have e1 := congrArg Prod.fst e
  have e2 := congrArg Prod.snd e
  simp only at e1 e2
  subst e1 e2
  exact EraseAfter_local hwf (before_begin_pos l cs) hk hrun1

theorem PushBack_local {T : Type} {h h2 : Heap T} {l l2 : SingleLinkedList}
    {cs : List (Nat × T)} {v : T} (hwf : WellFormed h l cs)
    (hrun : SingleLinkedList.PushBack h l v = .ok (h2, l2)) : Local h l cs h2 l2 := by
  obtain ⟨a, x, _, ha, hrun0, hwf2⟩ := PushBack_spec v hwf
  have ha_mem : a ∈ footprint l cs := List.getElem?_mem ha.symm
  rw [hrun0] at hrun
  have e := Except.ok.inj hrun
  have e1 := congrArg Prod.fst e
  have e2 := congrArg Prod.snd e
  simp only at e1 e2
  subst e1 e2
  refine ⟨_, hwf2, fun b hb hbn => ?_, fun a2 ha2 => ?_⟩
  · have h1 : b ≠ a := fun e => hbn (e ▸ ha_mem)
    have h2' : b ≠ h.fresh := Nat.ne_of_lt hb
    simp [h1, h2']
  · simp only [footprint, List.map_append, List.map_cons, List.map_nil, List.mem_cons,
      List.mem_append, List.not_mem_nil, or_false] at ha2 ⊢
    rcases ha2 with e | hm | e
    · exact Or.inl (Or.inl e)
    · exact Or.inl (Or.inr hm)
    · exact Or.inr (by omega)

theorem Clear_local {T : Type} {h h2 : Heap T} {l l2 : SingleLinkedList}
    {cs : List (Nat × T)} {fuel : Nat} (hwf : WellFormed h l cs)
    (hrun : SingleLinkedList.Clear fuel h l = .ok (h2, l2)) : Local h l cs h2 l2 := by
  obtain ⟨hl2, hwf2, _, hsame, _⟩ := (Clear_spec hwf fuel).2 h2 l2 hrun
  refine ⟨[], hwf2, fun b _ hbn => hsame b hbn, fun a ha => ?_⟩
  have : a = l.head_ := by simpa [footprint, hl2] using ha
  exact Or.inl (this ▸ List.mem_cons_self _ _)

theorem assign_local {T : Type} [Inhabited T] {h h2 : Heap T} {this rhs l2 : SingleLinkedList}
    {ca cb : List (Nat × T)} {fuel : Nat} (hwa : WellFormed h this ca)
    (hwb : WellFormed h rhs cb) (hdis : ∀ x ∈ footprint this ca, x ∉ footprint rhs cb)
    (hrun : SingleLinkedList.operator_assign fuel h this rhs = .ok (h2, l2)) :
    Local h this ca h2 l2 := by
  obtain ⟨cs2, hwf2, _, hl2, hfp, _, hsame⟩ := (assign_spec hwa hwb hdis fuel).2 h2 l2 hrun
  refine ⟨cs2, hwf2, hsame, fun a ha => ?_⟩
  rcases List.mem_cons.1 ha with e | hm
  · exact Or.inl (by rw [e, hl2]; exact List.mem_cons_self _ _)
  · exact Or.inr (hfp a hm)

theorem Inv_update {T : Type} {w : World T} (hinv : Inv w) {i : Nat} {l : SingleLinkedList}
    {cs : List (Nat × T)} (hl : w.lists i = some l) (hwf : WellFormed w.heap l cs)
    {h2 : Heap T} {l2 : SingleLinkedList} (hloc : Local w.heap l cs h2 l2) :
    Inv (w.put h2 i l2) := by
  obtain ⟨cs2, hwf2, hsame, hfp⟩ := hloc
  refine Inv_put hinv i (footprint l cs) h2 l2 cs2 ?_ hsame hwf2 hfp
  intro j lj cj hji hlj hwj a ha
  exact hinv.2.2 j i lj l cj cs hji hlj hl hwj hwf a ha

theorem Inv_new {T : Type} {w : World T} (hinv : Inv w) {i : Nat} {h2 : Heap T}
    {l2 : SingleLinkedList} {cs2 : List (Nat × T)} (hwf2 : WellFormed h2 l2 cs2)
    (hsame : ∀ b, b < w.heap.fresh → h2.cells b = w.heap.cells b)
    (hfp : ∀ a ∈ footprint l2 cs2, w.heap.fresh ≤ a) : Inv (w.put h2 i l2) :=
  Inv_put hinv i [] h2 l2 cs2 (fun _ _ _ _ _ _ _ _ hm => absurd hm (List.not_mem_nil _))
    (fun b hb _ => hsame b hb) hwf2 (fun a ha => Or.inr (hfp a ha))

theorem Inv_of_owner {T : Type} {w2 : World T} (P : Nat → Nat → Prop) (hok : HeapOK w2.heap)
    (hall : ∀ k l, w2.lists k = some l →
      ∃ cs, WellFormed w2.heap l cs ∧ ∀ a ∈ footprint l cs, P k a)
    (hinj : ∀ k k2 a, P k a → P k2 a → k = k2) : Inv w2 := by
  refine ⟨hok, fun k l hl => ?_, ?_⟩
  · obtain ⟨cs, hwf, _⟩ := hall k l hl
    exact ⟨cs, hwf⟩
  · intro p q lp lq cp cq hpq hlp hlq hwp hwq a ha ha2
    obtain ⟨cp0, hwp0, hP⟩ := hall p lp hlp
    obtain ⟨cq0, hwq0, hQ⟩ := hall q lq hlq
    have e1 := WellFormed_functional hwp hwp0
    have e2 := WellFormed_functional hwq hwq0
    subst e1 e2
    exact hpq (hinj p q a (hP a ha) (hQ a ha2))

theorem Inv_owner_unique {T : Type} {w : World T} (hinv : Inv w) {k k2 a : Nat}
    {lk lk2 : SingleLinkedList} {ck ck2 : List (Nat × T)} (h1 : w.lists k = some lk)
    (h2 : w.lists k2 = some lk2) (hw1 : WellFormed w.heap lk ck)
    (hw2 : WellFormed w.heap lk2 ck2) (ha : a ∈ footprint lk ck) (ha2 : a ∈ footprint lk2 ck2) :
    k = k2 := by
  by_contra hne
  exact hinv.2.2 k k2 lk lk2 ck ck2 hne h1 h2 hw1 hw2 a ha ha2

theorem Inv_swap {T : Type} {w : World T} (hinv : Inv w) {i j : Nat} (hij : i ≠ j)
    {li lj : SingleLinkedList} (hli : w.lists i = some li) (hlj : w.lists j = some lj)
    {h2 : Heap T} {li2 lj2 : SingleLinkedList}
    (hrun : SingleLinkedList.swap w.heap li lj = .ok (h2, li2, lj2)) :
    Inv ((w.put h2 i li2).put h2 j lj2) := by
  obtain ⟨ci, hwi⟩ := hinv.2.1 i li hli
  obtain ⟨cj, hwj⟩ := hinv.2.1 j lj hlj
  have hdis := hinv.2.2 i j li lj ci cj hij hli hlj hwi hwj
  obtain ⟨da, na, db, nb, _, _, hrun0, hwi2, hwj2⟩ := swap_spec hwi hwj hdis
  rw [hrun0] at hrun
  have e := Except.ok.inj hrun
  have e1 := congrArg Prod.fst e
  have e2 := congrArg (fun r => r.2.1) e
  have e3 := congrArg (fun r => r.2.2) e
  simp only at e1 e2 e3
  subst e1 e2 e3
  have hni := WellFormed_head_not_mem hwi
  have hnj := WellFormed_head_not_mem hwj
  have hheads : li.head_ ≠ lj.head_ := fun e =>
    hdis li.head_ (List.mem_cons_self _ _) (e ▸ List.mem_cons_self _ _)
  -- the old owner of an address, and the name that owns it after the exchange
  let O : Nat → Nat → Prop := fun k a =>
    ∃ lk ck, w.lists k = some lk ∧ WellFormed w.heap lk ck ∧ a ∈ footprint lk ck
  let τ : Nat → Nat → Nat := fun a k =>
    if a = li.head_ ∨ a = lj.head_ then k else if k = i then j else if k = j then i else k
  have hτ : ∀ a k k2, τ a k = τ a k2 → k = k2 := by
    intro a k k2 hkk
    simp only [τ] at hkk
    split_ifs at hkk <;> omega
  refine Inv_of_owner (fun k a => O (τ a k) a) hwi2.1 ?_ ?_
  · intro k l hl
    by_cases hkj : k = j
    · subst hkj
      have e : ({ lj with size_ := li.size_ } : SingleLinkedList) = l := by
        simpa [World.put] using hl
      subst e
      refine ⟨ci, hwj2, fun a ha => ?_⟩
      rcases List.mem_cons.1 ha with e | hm
      · refine ⟨lj, cj, ?_, hwj, e ▸ List.mem_cons_self _ _⟩
        simp only [τ, e, or_true, if_true]; exact hlj
      · have h1 : a ≠ li.head_ := fun e => hni (e ▸ hm)
        have h2' : a ≠ lj.head_ := fun e =>
          hdis a (List.mem_cons_of_mem _ hm) (e ▸ List.mem_cons_self _ _)
        refine ⟨li, ci, ?_, hwi, List.mem_cons_of_mem _ hm⟩
        simp only [τ, h1, h2', or_self, if_false, Ne.symm hij]; exact hli
    · by_cases hki : k = i
      · subst hki
        have e : ({ li with size_ := lj.size_ } : SingleLinkedList) = l := by
          simpa [World.put, hkj] using hl
        subst e
        refine ⟨cj, hwi2, fun a ha => ?_⟩
        rcases List.mem_cons.1 ha with e | hm
        · refine ⟨li, ci, ?_, hwi, e ▸ List.mem_cons_self _ _⟩
          simp only [τ, e, true_or, if_true]; exact hli
        · have h1 : a ≠ lj.head_ := fun e => hnj (e ▸ hm)
          have h2' : a ≠ li.head_ := fun e =>
            hdis a (e ▸ List.mem_cons_self _ _) (List.mem_cons_of_mem _ hm)
          refine ⟨lj, cj, ?_, hwj, List.mem_cons_of_mem _ hm⟩
          simp only [τ, h1, h2', or_self, if_false, if_true]; exact hlj
      · have hl' : w.lists k = some l := by simpa [World.put, hkj, hki] using hl
        obtain ⟨ck, hwk⟩ := hinv.2.1 k l hl'
        have hd1 := hinv.2.2 k i l li ck ci hki hl' hli hwk hwi
        have hd2 := hinv.2.2 k j l lj ck cj hkj hl' hlj hwk hwj
        refine ⟨ck, WellFormed_frame hwk hwi2.1 (fun a ha => ?_), fun a ha => ?_⟩
        · have h1 : a ≠ li.head_ := fun e => hd1 a ha (e ▸ List.mem_cons_self _ _)
          have h2' : a ≠ lj.head_ := fun e => hd2 a ha (e ▸ List.mem_cons_self _ _)
          simp [World.put, h1, h2']
        · have h1 : a ≠ li.head_ := fun e => hd1 a ha (e ▸ List.mem_cons_self _ _)
          have h2' : a ≠ lj.head_ := fun e => hd2 a ha (e ▸ List.mem_cons_self _ _)
          refine ⟨l, ck, ?_, hwk, ha⟩
          simp only [τ, h1, h2', or_self, if_false, hki, hkj]; exact hl'
  · intro k k2 a hk hk2
    obtain ⟨lk, ck, h1, hw1, hm1⟩ := hk
    obtain ⟨lk2, ck2, h2', hw2, hm2⟩ := hk2
    exact hτ a k k2 (Inv_owner_unique hinv h1 h2' hw1 hw2 hm1 hm2)

theorem swap_self {T : Type} {h : Heap T} {l : SingleLinkedList} {cs : List (Nat × T)}
    (hwf : WellFormed h l cs) :
    ∃ h2, SingleLinkedList.swap h l l = .ok (h2, l, l) ∧ h2.fresh = h.fresh ∧
      ∀ b, h2.cells b = h.cells b := by
  obtain ⟨_, _, d, nx, hc, _⟩ := hwf
  have hc1 : (h.store l.head_ (some ⟨d, nx⟩)).cells l.head_ = some ⟨d, nx⟩ := by simp
  refine ⟨(h.store l.head_ (some ⟨d, nx⟩)).store l.head_ (some ⟨d, nx⟩), ?_, rfl, ?_⟩
  · simp only [SingleLinkedList.swap, load_some hc, setNext_some hc, setNext_some hc1, bind,
      Except.bind, pure, Except.pure]
  · intro b
    by_cases hb : b = l.head_
    · simp [hb, hc]
    · simp [hb]

theorem Reachable_Inv {T : Type} [Inhabited T] {w : World T} (hr : Reachable w) : Inv w := by
  induction hr with
  | start =>
    exact ⟨HeapOK_empty, fun i l hl => absurd hl (by simp),
      fun i j li lj ci cj _ hli => absurd hli (by simp)⟩
  | ctor w i _ _ ih =>
    refine Inv_new ih (WellFormed_ctor ih.1) (fun b hb => ?_) (fun a ha => ?_)
    · have : b ≠ w.heap.fresh := Nat.ne_of_lt hb
      simp [SingleLinkedList.ctor, this]
    · have : a = w.heap.fresh := by simpa [footprint, SingleLinkedList.ctor] using ha
      exact this ▸ Nat.le_refl _
  | PushFront w i l v h2 l2 _ hl hrun ih =>
    obtain ⟨cs, hwf⟩ := ih.2.1 i l hl
    exact Inv_update ih hl hwf (PushFront_local hwf hrun)
  | PushBack w i l v h2 l2 _ hl hrun ih =>
    obtain ⟨cs, hwf⟩ := ih.2.1 i l hl
    exact Inv_update ih hl hwf (PushBack_local hwf hrun)
  | PopFront w i l h2 l2 _ hl hne hrun ih =>
    obtain ⟨cs, hwf⟩ := ih.2.1 i l hl
    exact Inv_update ih hl hwf (PopFront_local hwf hne hrun)
  | InsertAfter w i l pos v h2 l2 it _ hl hpos hrun ih =>
    obtain ⟨cs, hwf⟩ := ih.2.1 i l hl
    obtain ⟨k, hk⟩ := ValidPos_AtPosition hwf hpos
    exact Inv_update ih hl hwf (InsertAfter_local hwf hk hrun)
  | EraseAfter w i l pos h2 l2 it _ hl hpos hsucc hrun ih =>
    obtain ⟨cs, hwf⟩ := ih.2.1 i l hl
    obtain ⟨k, hk⟩ := ValidPos_AtPosition hwf hpos
    exact Inv_update ih hl hwf (EraseAfter_local hwf hk (HasSuccessor_lt hwf hk hsucc) hrun)
  | Clear w i l fuel h2 l2 _ hl hrun ih =>
    obtain ⟨cs, hwf⟩ := ih.2.1 i l hl
    exact Inv_update ih hl hwf (Clear_local hwf hrun)
  | swap w i j li lj h2 li2 lj2 _ hli hlj hrun ih =>
    by_cases hij : i = j
    · subst hij
      have e : li = lj := by rw [hli] at hlj; exact Option.some.inj hlj
      subst e
      obtain ⟨cs, hwf⟩ := ih.2.1 i li hli
      obtain ⟨h3, hrun0, hfr, hsame⟩ := swap_self hwf
      rw [hrun0] at hrun
      have e := Except.ok.inj hrun
      have e1 := congrArg Prod.fst e
      have e2 := congrArg (fun r => r.2.1) e
      have e3 := congrArg (fun r => r.2.2) e
      simp only at e1 e2 e3
      subst e1 e2 e3
      have hok3 : HeapOK h3 := fun a ha => by
        rw [hsame a]; exact ih.1 a (by rw [← hfr]; exact ha)
      have hwf3 : WellFormed h3 li cs := WellFormed_frame hwf hok3 (fun a _ => hsame a)
      have hloc : Local w.heap li cs h3 li :=
        ⟨cs, hwf3, fun b _ _ => hsame b, fun a ha => Or.inl ha⟩
      have hinv1 := Inv_update ih hli hwf hloc
      have hloc2 : Local h3 li cs h3 li := ⟨cs, hwf3, fun b _ _ => rfl, fun a ha => Or.inl ha⟩
      exact Inv_update (w := w.put h3 i li) hinv1 (by simp [World.put]) hwf3 hloc2
    · exact Inv_swap ih hij hli hlj hrun
  | copy_ctor w i j lj h2 l2 _ _ hlj hrun ih =>
    obtain ⟨cs, hwf⟩ := ih.2.1 j lj hlj
    obtain ⟨h3, l3, cs3, hrun0, hwf3, _, hfp, hsame, _, _⟩ := copy_ctor_spec hwf
    rw [hrun0] at hrun
    have e := Except.ok.inj hrun
    have e1 := congrArg Prod.fst e
    have e2 := congrArg Prod.snd e
    simp only at e1 e2
    subst e1 e2
    exact Inv_new ih hwf3 hsame hfp
  | operator_assign w i j li lj fuel h2 l2 _ hli hlj hrun ih =>
    obtain ⟨ci, hwi⟩ := ih.2.1 i li hli
    by_cases hij : i = j
    · subst hij
      have e : li = lj := by rw [hli] at hlj; exact Option.some.inj hlj
      subst e
      have hrun0 : SingleLinkedList.operator_assign fuel w.heap li li = .ok (w.heap, li) := by
        simp [SingleLinkedList.operator_assign, pure, Except.pure]
      rw [hrun0] at hrun
      have e := Except.ok.inj hrun
      have e1 := congrArg Prod.fst e
      have e2 := congrArg Prod.snd e
      simp only at e1 e2
      subst e1 e2
      exact Inv_update ih hli hwi ⟨ci, hwi, fun b _ _ => rfl, fun a ha => Or.inl ha⟩
    · obtain ⟨cj, hwj⟩ := ih.2.1 j lj hlj
      have hdis := ih.2.2 i j li lj ci cj hij hli hlj hwi hwj
      exact Inv_update ih hli hwi (assign_local hwi hwj hdis hrun)

theorem sampleRun1_reachable : Reachable sampleRun1 :=
  Reachable.PushFront _ 0 ⟨0, 2⟩ 4 _ _
    (Reachable.PushBack _ 0 ⟨0, 1⟩ 6 _ _
      (Reachable.PushBack _ 0 ⟨0, 0⟩ 5 _ _
        (Reachable.ctor _ 0 Reachable.start rfl) rfl rfl) rfl rfl) rfl rfl

theorem sampleRun2_reachable : Reachable sampleRun2 :=
  Reachable.PopFront _ 0 ⟨0, 3⟩ _ _
    (Reachable.copy_ctor _ 1 0 ⟨0, 3⟩ _ _ sampleRun1_reachable rfl rfl rfl) rfl rfl rfl

theorem operator_lt_spec {T : Type} [LinearOrder T] {h : Heap T} {a b : SingleLinkedList}
    {ca cb : List (Nat × T)} (hwa : WellFormed h a ca) (hwb : WellFormed h b cb)
    (fuel : Nat) (hf : ca.length < fuel) :
    operator_lt fuel h a b = .ok (lexWalk (fun left right => decide (left < right))
      (ca.map Prod.snd) (cb.map Prod.snd)) := by
  obtain ⟨_, _, da, na, hca, hcha⟩ := hwa
  obtain ⟨_, _, db, nb, hcb, hchb⟩ := hwb
  simp only [operator_lt, SingleLinkedList.begin, load_some hca, load_some hcb, bind,
    Except.bind, pure, Except.pure, SingleLinkedList.end_]
  exact lex_chain _ ca cb na nb fuel hcha hchb hf

theorem operator_gt_spec {T : Type} [LinearOrder T] {h : Heap T} {a b : SingleLinkedList}
    {ca cb : List (Nat × T)} (hwa : WellFormed h a ca) (hwb : WellFormed h b cb)
    (fuel : Nat) (hf : ca.length < fuel) :
    operator_gt fuel h a b = .ok (lexWalk (fun left right => decide (left > right))
      (ca.map Prod.snd) (cb.map Prod.snd)) := by
  obtain ⟨_, _, da, na, hca, hcha⟩ := hwa
  obtain ⟨_, _, db, nb, hcb, hchb⟩ := hwb
  simp only [operator_gt, SingleLinkedList.begin, load_some hca, load_some hcb, bind,
    Except.bind, pure, Except.pure, SingleLinkedList.end_]
  exact lex_chain _ ca cb na nb fuel hcha hchb hf

theorem lexWalk_lt_total {T : Type} [LinearOrder T] :
    ∀ (xs ys : List T),
      lexWalk (fun left right => decide (left < right)) xs ys = false ↔
        (lexWalk (fun left right => decide (left < right)) ys xs = true ∨ xs = ys)
  | [], [] => by simp [lexWalk]
  | [], y :: ys => by simp [lexWalk]
  | x :: xs, [] => by simp [lexWalk]
  | x :: xs, y :: ys => by
    have ih := lexWalk_lt_total xs ys
    rcases lt_trichotomy x y with hlt | heq | hgt
    · have hn : ¬ y < x := not_lt_of_gt hlt
      have hne : ¬ x = y := ne_of_lt hlt
      simp [lexWalk, hlt, hn, hne]
    · subst heq
      simp only [lexWalk, lt_irrefl, decide_False, Bool.false_eq_true, if_false]
      rw [ih]; simp
    · have hn : ¬ x < y := not_lt_of_gt hgt
      simp [lexWalk, hgt, hn]

theorem Chain_set_value {T : Type} {h : Heap T} (pre post : List (Nat × T))
    (a : Nat) (x v : T) (p : Option Nat) (hc : Chain h p (pre ++ (a, x) :: post)) :
    ∃ nx, h.cells a = some ⟨x, nx⟩ ∧
      Chain (h.store a (some ⟨v, nx⟩)) p (pre ++ (a, v) :: post) := by
  have hnd := Chain_nodup _ p hc
  obtain ⟨m, hpre, hrest⟩ := (Seg_append pre ((a, x) :: post) p none).1 hc
  obtain ⟨hm, nx, hcell, hpost⟩ := hrest
  rw [List.map_append, List.map_cons, List.nodup_append] at hnd
  obtain ⟨_, hnd2, hdisj⟩ := hnd
  have ha_pre : a ∉ pre.map Prod.fst := fun hmem => hdisj hmem (List.mem_cons_self _ _)
  have ha_post : a ∉ post.map Prod.fst := (List.nodup_cons.1 hnd2).1
  refine ⟨nx, hcell, (Seg_append pre _ p none).2 ⟨m, Seg_store_other a _ ha_pre hpre, ?_⟩⟩
  exact ⟨hm, nx, by simp, Seg_store_other a _ ha_post hpost⟩

theorem write_local {T : Type} {h h2 : Heap T} {l : SingleLinkedList}
    {cs : List (Nat × T)} {pos : BasicIterator} {k : Nat} {v : T}
    (hwf : WellFormed h l cs) (hpos : AtPosition l cs pos k)
    (hrun : BasicIterator.assign_through h (some pos) v = .ok h2) :
    Local h l cs h2 l := by
  have hfp := WellFormed_lt_fresh hwf
  obtain ⟨hok, hsz, d, nx0, hcell0, hch⟩ := hwf
  obtain ⟨pre, a, x, hnode, hsplit⟩ := position_split d hpos
  have ha := AtPosition_mem hpos hnode
  have hfull : (l.head_, d) :: cs = pre ++ (a, x) :: cs.drop k := by
    calc (l.head_, d) :: cs = ((l.head_, d) :: cs.take k) ++ cs.drop k := by simp
      _ = pre ++ (a, x) :: cs.drop k := by rw [hsplit]; simp
  have hchain : Chain h (some l.head_) (pre ++ (a, x) :: cs.drop k) := by
    rw [← hfull]; exact ⟨rfl, nx0, hcell0, hch⟩
  obtain ⟨nx, hcell, hnew⟩ := Chain_set_value pre (cs.drop k) a x v (some l.head_) hchain
  have hh2 : h2 = h.store a (some ⟨v, nx⟩) := by
    simp only [BasicIterator.assign_through, hnode, load_some hcell] at hrun
    exact (Except.ok.inj hrun).symm
  subst hh2
  have hok2 : HeapOK (h.store a (some ⟨v, nx⟩)) := HeapOK_store hok a _ (hfp a ha)
  have hframe : ∀ b, b < h.fresh → b ∉ footprint l cs →
      (h.store a (some ⟨v, nx⟩)).cells b = h.cells b := by
    intro b _ hbn
    have : b ≠ a := fun e => hbn (e ▸ ha)
    simp [this]
  -- the new node list: the sentinel entry may be the one that was written
  cases hpre : pre with
  | nil =>
    rw [hpre] at hnew hfull
    simp only [List.nil_append, List.cons.injEq, Prod.mk.injEq] at hfull
    obtain ⟨⟨hha, _⟩, hcs⟩ := hfull
    obtain ⟨_, nx1, hcell1, hch1⟩ := hnew
    refine ⟨cs, ⟨hok2, hsz, v, nx1, by rw [hha]; exact hcell1, by rw [hcs]; exact hch1⟩,
      hframe, fun a2 ha2 => Or.inl ha2⟩
  | cons c0 pre2 =>
    rw [hpre] at hnew hfull
    simp only [List.cons_append, List.cons.injEq] at hfull
    obtain ⟨hc0, hcs⟩ := hfull
    subst hc0
    obtain ⟨_, nx1, hcell1, hch1⟩ := hnew
    refine ⟨pre2 ++ (a, v) :: cs.drop k, ⟨hok2, ?_, d, nx1, hcell1, hch1⟩, hframe,
      fun a2 ha2 => Or.inl ?_⟩
    · have hlen := congrArg List.length hcs
      simp only [List.length_append, List.length_cons] at hlen ⊢
      omega
    · have e : (pre2 ++ (a, v) :: cs.drop k).map Prod.fst = cs.map Prod.fst := by
        conv_rhs => rw [hcs]
        simp
      simpa [footprint, e] using ha2

theorem Local_keeps_other {T : Type} {h h2 : Heap T} {L c c2 : SingleLinkedList}
    {cs cc : List (Nat × T)} (hL : WellFormed h L cs)
    (hdis : ∀ a ∈ footprint c cc, a ∉ footprint L cs) (hloc : Local h c cc h2 c2) :
    ∃ cc2, WellFormed h2 c2 cc2 ∧ WellFormed h2 L cs ∧
      (∀ a ∈ footprint c2 cc2, a ∉ footprint L cs) ∧
      ∀ a ∈ footprint L cs, h2.cells a = h.cells a := by
  obtain ⟨cc2, hwf2, hframe, hfp⟩ := hloc
  have hLlt := WellFormed_lt_fresh hL
  have hsame : ∀ a ∈ footprint L cs, h2.cells a = h.cells a := fun a ha =>
    hframe a (hLlt a ha) (fun hm => hdis a hm ha)
  refine ⟨cc2, hwf2, WellFormed_frame hL hwf2.1 hsame, fun a ha ha2 => ?_, hsame⟩
  rcases hfp a ha with hin | hge
  · exact hdis a hin ha2
  · exact absurd (hLlt a ha2) (Nat.not_lt.2 hge)

theorem Mutated_keeps_other {T : Type} (h0 : Heap T) {L : SingleLinkedList}
    {cs : List (Nat × T)} {h c : Heap T} {l lc : SingleLinkedList}
    (hm : Mutated h l c lc) :
    ∀ cc, WellFormed h L cs → WellFormed h l cc →
      (∀ a ∈ footprint l cc, a ∉ footprint L cs) →
      (∀ a ∈ footprint L cs, h.cells a = h0.cells a) →
      ∃ cc2, WellFormed c lc cc2 ∧ WellFormed c L cs ∧
        (∀ a ∈ footprint lc cc2, a ∉ footprint L cs) ∧
        ∀ a ∈ footprint L cs, c.cells a = h0.cells a := by
  induction hm with
  | same => exact fun cc hL hl hdis hsame => ⟨cc, hl, hL, hdis, hsame⟩
  | PushFront h1 l1 v h2 l2 _ hrun ih =>
    intro cc hL hl hdis hsame
    obtain ⟨cc1, hw1, hL1, hd1, hs1⟩ := ih cc hL hl hdis hsame
    obtain ⟨cc2, hw2, hL2, hd2, hs2⟩ := Local_keeps_other hL1 hd1 (PushFront_local hw1 hrun)
    exact ⟨cc2, hw2, hL2, hd2, fun a ha => (hs2 a ha).trans (hs1 a ha)⟩
  | PushBack h1 l1 v h2 l2 _ hrun ih =>
    intro cc hL hl hdis hsame
    obtain ⟨cc1, hw1, hL1, hd1, hs1⟩ := ih cc hL hl hdis hsame
    obtain ⟨cc2, hw2, hL2, hd2, hs2⟩ := Local_keeps_other hL1 hd1 (PushBack_local hw1 hrun)
    exact ⟨cc2, hw2, hL2, hd2, fun a ha => (hs2 a ha).trans (hs1 a ha)⟩
  | PopFront h1 l1 h2 l2 _ hne hrun ih =>
    intro cc hL hl hdis hsame
    obtain ⟨cc1, hw1, hL1, hd1, hs1⟩ := ih cc hL hl hdis hsame
    obtain ⟨cc2, hw2, hL2, hd2, hs2⟩ :=
      Local_keeps_other hL1 hd1 (PopFront_local hw1 hne hrun)
    exact ⟨cc2, hw2, hL2, hd2, fun a ha => (hs2 a ha).trans (hs1 a ha)⟩
  | InsertAfter h1 l1 pos v h2 l2 it _ hpos hrun ih =>
    intro cc hL hl hdis hsame
    obtain ⟨cc1, hw1, hL1, hd1, hs1⟩ := ih cc hL hl hdis hsame
    obtain ⟨k, hk⟩ := ValidPos_AtPosition hw1 hpos
    obtain ⟨cc2, hw2, hL2, hd2, hs2⟩ :=
      Local_keeps_other hL1 hd1 (InsertAfter_local hw1 hk hrun)
    exact ⟨cc2, hw2, hL2, hd2, fun a ha => (hs2 a ha).trans (hs1 a ha)⟩
  | EraseAfter h1 l1 pos h2 l2 it _ hpos hsucc hrun ih =>
    intro cc hL hl hdis hsame
    obtain ⟨cc1, hw1, hL1, hd1, hs1⟩ := ih cc hL hl hdis hsame
    obtain ⟨k, hk⟩ := ValidPos_AtPosition hw1 hpos
    obtain ⟨cc2, hw2, hL2, hd2, hs2⟩ := Local_keeps_other hL1 hd1
      (EraseAfter_local hw1 hk (HasSuccessor_lt hw1 hk hsucc) hrun)
    exact ⟨cc2, hw2, hL2, hd2, fun a ha => (hs2 a ha).trans (hs1 a ha)⟩
  | Clear h1 l1 fuel h2 l2 _ hrun ih =>
    intro cc hL hl hdis hsame
    obtain ⟨cc1, hw1, hL1, hd1, hs1⟩ := ih cc hL hl hdis hsame
    obtain ⟨cc2, hw2, hL2, hd2, hs2⟩ := Local_keeps_other hL1 hd1 (Clear_local hw1 hrun)
    exact ⟨cc2, hw2, hL2, hd2, fun a ha => (hs2 a ha).trans (hs1 a ha)⟩
  | write h1 l1 pos v h2 _ hpos hrun ih =>
    intro cc hL hl hdis hsame
    obtain ⟨cc1, hw1, hL1, hd1, hs1⟩ := ih cc hL hl hdis hsame
    obtain ⟨k, hk⟩ := ValidPos_AtPosition hw1 hpos
    obtain ⟨cc2, hw2, hL2, hd2, hs2⟩ := Local_keeps_other hL1 hd1 (write_local hw1 hk hrun)
    exact ⟨cc2, hw2, hL2, hd2, fun a ha => (hs2 a ha).trans (hs1 a ha)⟩

theorem Heap_ext {T : Type} {h1 h2 : Heap T} (hc : ∀ b, h1.cells b = h2.cells b)
    (hf : h1.fresh = h2.fresh) : h1 = h2 := by
  cases h1; cases h2
  simp only [Heap.mk.injEq]
  exact ⟨funext hc, hf⟩

theorem swap_back {T : Type} {h : Heap T} {a b : SingleLinkedList} {da db : T}
    {na nb : Option Nat} (hca : h.cells a.head_ = some ⟨da, na⟩)
    (hcb : h.cells b.head_ = some ⟨db, nb⟩) (hab : a.head_ ≠ b.head_) :
    SingleLinkedList.swap
      ((h.store a.head_ (some ⟨da, nb⟩)).store b.head_ (some ⟨db, na⟩))
      { a with size_ := b.size_ } { b with size_ := a.size_ } = .ok (h, a, b) := by
  have hc1 : ((h.store a.head_ (some ⟨da, nb⟩)).store b.head_ (some ⟨db, na⟩)).cells a.head_
      = some ⟨da, nb⟩ := by simp [hab]
  have hc2 : ((h.store a.head_ (some ⟨da, nb⟩)).store b.head_ (some ⟨db, na⟩)).cells b.head_
      = some ⟨db, na⟩ := by simp
  have hc3 : (((h.store a.head_ (some ⟨da, nb⟩)).store b.head_ (some ⟨db, na⟩)).store
      a.head_ (some ⟨da, na⟩)).cells b.head_ = some ⟨db, na⟩ := by simp [Ne.symm hab]
  simp only [SingleLinkedList.swap, load_some hc1, load_some hc2, setNext_some hc1,
    setNext_some hc3, bind, Except.bind, pure, Except.pure]
  have hheap : (((h.store a.head_ (some ⟨da, nb⟩)).store b.head_ (some ⟨db, na⟩)).store
      a.head_ (some ⟨da, na⟩)).store b.head_ (some ⟨db, nb⟩) = h := by
    apply Heap_ext
    · intro c
      by_cases h1 : c = b.head_
      · simp [h1, hcb]
      · by_cases h2 : c = a.head_
        · simp [h2, hab, hca]
        · simp [h1, h2]
    · rfl
  rw [hheap]

theorem walk_reaches {T : Type} {h : Heap T} {cs : List (Nat × T)} {nx : Option Nat}
    (hch : Chain h nx cs) (k : Nat) (hk : k < cs.length) :
    ∃ nk, SingleLinkedList.PushBack_walk h k nx = .ok (some cs[k].1) ∧
      h.cells cs[k].1 = some ⟨cs[k].2, nk⟩ ∧ Chain h nk (cs.drop (k + 1)) := by
  have hsplit : cs = cs.take k ++ cs[k] :: cs.drop (k + 1) := by
    rw [← List.drop_eq_getElem_cons hk, List.take_append_drop]
  have hch2 : Chain h nx (cs.take k ++ cs[k] :: cs.drop (k + 1)) := by
    rw [← hsplit]; exact hch
  obtain ⟨m, hpre, hm, nk, hcell, hpost⟩ :=
    (Seg_append (cs.take k) (cs[k] :: cs.drop (k + 1)) nx none).1 hch2
  have hwalk := PushBack_walk_seg (cs.take k) nx m hpre
  rw [List.length_take_of_le (Nat.le_of_lt hk), hm] at hwalk
  exact ⟨nk, hwalk, hcell, hpost⟩

/-! ## The claims -/

/-- C1: in every state reached from the empty store by default-constructing lists and
calling `PushFront`, `PushBack`, `PopFront` (on a non-empty list), `InsertAfter` and
`EraseAfter` (at positions meeting their preconditions), `Clear`, `swap`, the copy
constructor and copy assignment, every live list has a live sentinel, the chain
that starts at the `next_node` of the sentinel passes through pairwise different
nodes and ends in `nullptr`, and the cached `size_` is the number of those nodes. -/
theorem C1_size_is_chain_length {T : Type} [Inhabited T] (w : World T) (i : Nat)
    (l : SingleLinkedList) (hr : Reachable w) (hl : w.lists i = some l) :
    ∃ d nx cs, w.heap.cells l.head_ = some ⟨d, nx⟩ ∧ Chain w.heap nx cs ∧
      (cs.map Prod.fst).Nodup ∧ l.size_ = cs.length := by
  obtain ⟨cs, hwf⟩ := (Reachable_Inv hr).2.1 i l hl
  obtain ⟨_, hsz, d, nx, hc, hch⟩ := hwf
  exact ⟨d, nx, cs, hc, hch, Chain_nodup cs nx hch, hsz⟩

/-- C1 at a sample run: after the default constructor, `PushBack(5)`, `PushBack(6)`,
`PushFront(4)`, a copy construction and `PopFront()`, the first list has size 2 and
the copy has size 3, each with a chain of that many nodes. -/
theorem C1_size_is_chain_length_witness :
    Reachable sampleRun2 ∧ sampleRun2.lists 0 = some ⟨0, 2⟩ ∧
    sampleRun2.lists 1 = some ⟨4, 3⟩ ∧
    (∃ d nx cs, sampleRun2.heap.cells 0 = some ⟨d, nx⟩ ∧ Chain sampleRun2.heap nx cs ∧
      (cs.map Prod.fst).Nodup ∧ 2 = cs.length) ∧
    SingleLinkedList.elements 3 sampleRun2.heap ⟨0, 2⟩ = .ok [5, 6] ∧
    SingleLinkedList.elements 4 sampleRun2.heap ⟨4, 3⟩ = .ok [4, 5, 6] :=
  ⟨sampleRun2_reachable, rfl, rfl,
    C1_size_is_chain_length sampleRun2 0 ⟨0, 2⟩ sampleRun2_reachable rfl, rfl, rfl⟩

/-- C2: `PushBack(v)` on a well-formed list with elements `xs` returns and leaves a
well-formed list with elements `xs ++ [v]` and a size one larger; a run of `PushBack`
calls over the values `vs` appends `vs` in order; and the list built from the values
`vs`, the default constructor followed by `PushBack` of each, has size `vs.length` and
its traversal from `begin()` to `end()` yields exactly `vs`. -/
theorem C2_PushBack_order {T : Type} [Inhabited T] (h : Heap T) (l : SingleLinkedList)
    (cs : List (Nat × T)) (v : T) (vs : List T) (hwf : WellFormed h l cs) :
    (∃ h2 l2, SingleLinkedList.PushBack h l v = .ok (h2, l2) ∧
      WellFormed h2 l2 (cs ++ [(h.fresh, v)]) ∧ l2.GetSize = l.GetSize + 1 ∧
      ∀ fuel, cs.length + 1 < fuel →
        SingleLinkedList.elements fuel h2 l2 = .ok (cs.map Prod.snd ++ [v])) ∧
    (∃ h3 l3 cs3,
      vs.foldlM (fun s i => SingleLinkedList.PushBack s.1 s.2 i) (h, l) = .ok (h3, l3) ∧
      WellFormed h3 l3 cs3 ∧ l3.GetSize = l.GetSize + vs.length ∧
      ∀ fuel, cs.length + vs.length < fuel →
        SingleLinkedList.elements fuel h3 l3 = .ok (cs.map Prod.snd ++ vs)) ∧
    (∃ h4 l4 cs4, SingleLinkedList.ctor_values h vs = .ok (h4, l4) ∧
      WellFormed h4 l4 cs4 ∧ l4.GetSize = vs.length ∧
      ∀ fuel, vs.length < fuel → SingleLinkedList.elements fuel h4 l4 = .ok vs) := by
  refine ⟨?_, ?_, ?_⟩
  · obtain ⟨a, x, _, _, hrun, hwf2⟩ := PushBack_spec v hwf
    refine ⟨_, _, hrun, hwf2, rfl, fun fuel hf => ?_⟩
    have := elements_spec hwf2 fuel (by simpa using hf)
    simpa using this
  · obtain ⟨h3, l3, cs3, hrun, hwf3, hval, hsz, _⟩ := PushBack_fold vs h l cs hwf
    refine ⟨h3, l3, cs3, hrun, hwf3, hsz, fun fuel hf => ?_⟩
    have hlen : cs3.length = cs.length + vs.length := by
      have := congrArg List.length hval
      simpa using this
    rw [← hval]
    exact elements_spec hwf3 fuel (by omega)
  · obtain ⟨h4, l4, cs4, hrun, hwf4, hval, hsz, _⟩ :=
      PushBack_fold vs _ _ _ (WellFormed_ctor (T := T) hwf.1)
    refine ⟨h4, l4, cs4, hrun, hwf4, by simpa [SingleLinkedList.ctor] using hsz,
      fun fuel hf => ?_⟩
    have hval2 : cs4.map Prod.snd = vs := by simpa using hval
    have hlen : cs4.length = vs.length := by
      have := congrArg List.length hval2
      simpa using this
    rw [← hval2]
    exact elements_spec hwf4 fuel (by omega)

/-- C2 at the sample store: `PushBack(4)` on `[1, 2, 3]` gives `[1, 2, 3, 4]`. -/
theorem C2_PushBack_order_witness :
    WellFormed sampleHeap sampleList sampleNodes ∧
    ∃ h2 l2, SingleLinkedList.PushBack sampleHeap sampleList 4 = .ok (h2, l2) ∧
      l2.GetSize = 4 ∧ SingleLinkedList.elements 5 h2 l2 = .ok [1, 2, 3, 4] := by
  refine ⟨sample_wf, ?_⟩
  obtain ⟨⟨h2, l2, hrun, _, hsz, hel⟩, _⟩ :=
    C2_PushBack_order sampleHeap sampleList sampleNodes 4 [] sample_wf
  exact ⟨h2, l2, hrun, hsz, hel 5 (by decide)⟩

/-- C3: a run of `PushFront` calls over the values `vs` on a well-formed list with
elements `xs` returns and leaves a well-formed list whose traversal yields the
reverse of `vs` followed by `xs` and whose size grew by `vs.length`; started on a
default-constructed (empty) list the traversal is the reverse of `vs` and the size
is `vs.length`. -/
theorem C3_PushFront_reverse {T : Type} [Inhabited T] (h : Heap T) (l : SingleLinkedList)
    (cs : List (Nat × T)) (vs : List T) (hwf : WellFormed h l cs) :
    (∃ h2 l2 cs2,
      vs.foldlM (fun s i => SingleLinkedList.PushFront s.1 s.2 i) (h, l) = .ok (h2, l2) ∧
      WellFormed h2 l2 cs2 ∧ l2.GetSize = l.GetSize + vs.length ∧
      ∀ fuel, cs.length + vs.length < fuel →
        SingleLinkedList.elements fuel h2 l2 = .ok (vs.reverse ++ cs.map Prod.snd)) ∧
    (∃ h3 l3 cs3,
      vs.foldlM (fun s i => SingleLinkedList.PushFront s.1 s.2 i) (SingleLinkedList.ctor h)
        = .ok (h3, l3) ∧
      WellFormed h3 l3 cs3 ∧ l3.GetSize = vs.length ∧
      ∀ fuel, vs.length < fuel → SingleLinkedList.elements fuel h3 l3 = .ok vs.reverse) := by
  refine ⟨?_, ?_⟩
  · obtain ⟨h3, l3, cs3, hrun, hwf3, hval, hsz, _⟩ := PushFront_fold vs h l cs hwf
    refine ⟨h3, l3, cs3, hrun, hwf3, hsz, fun fuel hf => ?_⟩
    have hlen : cs3.length = cs.length + vs.length := by
      have := congrArg List.length hval
      simp at this; omega
    rw [← hval]
    exact elements_spec hwf3 fuel (by omega)
  · obtain ⟨h4, l4, cs4, hrun, hwf4, hval, hsz, _⟩ :=
      PushFront_fold vs _ _ _ (WellFormed_ctor (T := T) hwf.1)
    refine ⟨h4, l4, cs4, hrun, hwf4, by simpa [SingleLinkedList.ctor] using hsz,
      fun fuel hf => ?_⟩
    have hval2 : cs4.map Prod.snd = vs.reverse := by simpa using hval
    have hlen : cs4.length = vs.length := by
      have := congrArg List.length hval2
      simpa using this
    rw [← hval2]
    exact elements_spec hwf4 fuel (by omega)

/-- C3 at the sample store: `PushFront` of 7, 8, 9 on a new list gives `[9, 8, 7]`. -/
theorem C3_PushFront_reverse_witness :
    WellFormed sampleHeap sampleList sampleNodes ∧
    ∃ h3 l3,
      [7, 8, 9].foldlM (fun s i => SingleLinkedList.PushFront s.1 s.2 i)
        (SingleLinkedList.ctor sampleHeap) = .ok (h3, l3) ∧
      l3.GetSize = 3 ∧ SingleLinkedList.elements 4 h3 l3 = .ok [9, 8, 7] := by
  refine ⟨sample_wf, ?_⟩
  obtain ⟨_, h3, l3, _, hrun, _, hsz, hel⟩ :=
    C3_PushFront_reverse sampleHeap sampleList sampleNodes [7, 8, 9] sample_wf
  exact ⟨h3, l3, hrun, hsz, hel 4 (by decide)⟩

/-- C4: on a well-formed list with real nodes `cs`, for a cursor `pos` at position `k`
(the sentinel for `k = 0`, the node of index `k - 1` otherwise), `InsertAfter(pos, v)`
returns; the list is well formed with `v` inserted at index `k` and all other
elements in their order, the size grew by exactly 1, and the returned cursor
references the node just created (its address was unused before), dereferences to
`v`, and is `pos` advanced once. -/
theorem C4_InsertAfter {T : Type} (h : Heap T) (l : SingleLinkedList) (cs : List (Nat × T))
    (pos : BasicIterator) (k : Nat) (v : T) (hwf : WellFormed h l cs)
    (hpos : AtPosition l cs pos k) :
    ∃ h2 l2 it, SingleLinkedList.InsertAfter h l pos v = .ok (h2, l2, it) ∧
      WellFormed h2 l2 (cs.take k ++ (h.fresh, v) :: cs.drop k) ∧
      (∀ fuel, cs.length + 1 < fuel → SingleLinkedList.elements fuel h2 l2
        = .ok ((cs.map Prod.snd).take k ++ v :: (cs.map Prod.snd).drop k)) ∧
      l2.GetSize = l.GetSize + 1 ∧
      it.node_ = some h.fresh ∧ h.cells h.fresh = none ∧
      AtPosition l2 (cs.take k ++ (h.fresh, v) :: cs.drop k) it (k + 1) ∧
      BasicIterator.operator_deref h2 (some it) = .ok v ∧
      BasicIterator.operator_inc h2 (some pos) = .ok it := by
  obtain ⟨a, x, nx, hnode, hcell, halt, hrun, hwf2⟩ := InsertAfter_spec v hwf hpos
  have hk := hpos.1
  have hne : h.fresh ≠ a := Nat.ne_of_gt halt
  have hcf : ((h.new (⟨v, nx⟩ : Node T)).2.store a (some ⟨x, some h.fresh⟩)).cells h.fresh
      = some ⟨v, nx⟩ := by simp [hne]
  have hca : ((h.new (⟨v, nx⟩ : Node T)).2.store a (some ⟨x, some h.fresh⟩)).cells a
      = some ⟨x, some h.fresh⟩ := by simp
  refine ⟨_, _, _, hrun, hwf2, fun fuel hf => ?_, rfl, rfl, hwf.1 _ (Nat.le_refl _), ?_, ?_, ?_⟩
  · have := elements_spec hwf2 fuel (by simp; omega)
    simpa [List.map_take, List.map_drop] using this
  · refine ⟨by simp; omega, ?_⟩
    have hlen : (List.map Prod.fst (List.take k cs)).length = k := by
      rw [List.length_map]; exact List.length_take_of_le hk
    simp only [footprint, List.getElem?_cons_succ, List.map_append, List.map_cons]
    rw [List.getElem?_append_right (by rw [hlen]), hlen, Nat.sub_self]
    simp
  · simp [BasicIterator.operator_deref, load_some hcf, bind, Except.bind, pure, Except.pure]
  · simp [BasicIterator.operator_inc, hnode, load_some hca, bind, Except.bind, pure,
      Except.pure]

/-- C4 at the sample store: inserting 7 after the node of index 0 of `[1, 2, 3]`. -/
theorem C4_InsertAfter_witness :
    WellFormed sampleHeap sampleList sampleNodes ∧
    AtPosition sampleList sampleNodes ⟨some 1⟩ 1 ∧
    ∃ h2 l2 it, SingleLinkedList.InsertAfter sampleHeap sampleList ⟨some 1⟩ 7
        = .ok (h2, l2, it) ∧
      SingleLinkedList.elements 5 h2 l2 = .ok [1, 7, 2, 3] ∧ l2.GetSize = 4 ∧
      BasicIterator.operator_deref h2 (some it) = .ok 7 := by
  have hpos : AtPosition sampleList sampleNodes ⟨some 1⟩ 1 := ⟨by decide, rfl⟩
  refine ⟨sample_wf, hpos, ?_⟩
  obtain ⟨h2, l2, it, hrun, _, hel, hsz, _, _, _, hd, _⟩ :=
    C4_InsertAfter sampleHeap sampleList sampleNodes ⟨some 1⟩ 1 7 sample_wf hpos
  exact ⟨h2, l2, it, hrun, hel 5 (by decide), hsz, hd⟩

/-- C5: on a well-formed list with real nodes `cs`, for a cursor `pos` at position `k`
(the sentinel for `k = 0`, the node of index `k - 1` otherwise) that has a successor
node, `EraseAfter(pos)` returns; the list is well formed with the element of index
`k` removed and all others unchanged in order, the size dropped by exactly 1, and the
returned cursor is `pos` advanced once, the node now following `pos`, which is
`end()` exactly when the erased node was the last one. -/
theorem C5_EraseAfter {T : Type} (h : Heap T) (l : SingleLinkedList) (cs : List (Nat × T))
    (pos : BasicIterator) (k : Nat) (hwf : WellFormed h l cs)
    (hpos : AtPosition l cs pos k) (hk : k < cs.length) :
    ∃ h2 l2 it, SingleLinkedList.EraseAfter h l pos = .ok (h2, l2, it) ∧
      WellFormed h2 l2 (cs.eraseIdx k) ∧
      (∀ fuel, cs.length < fuel →
        SingleLinkedList.elements fuel h2 l2 = .ok ((cs.map Prod.snd).eraseIdx k)) ∧
      l2.GetSize + 1 = l.GetSize ∧
      it.node_ = (footprint l2 (cs.eraseIdx k))[k + 1]? ∧
      BasicIterator.operator_inc h2 (some pos) = .ok it ∧
      (it = l2.end_ ↔ k + 1 = cs.length) := by
  obtain ⟨a, b, x, y, nb, hnode, hca, hcb, hab, hck, hnb, hrun, hwf2⟩ :=
    EraseAfter_spec hwf hpos hk
  have hca2 : ((h.store a (some ⟨x, nb⟩)).store b none).cells a = some ⟨x, nb⟩ := by
    simp [hab]
  rw [← List.eraseIdx_eq_take_drop_succ] at hwf2
  have hlen : (cs.eraseIdx k).length = cs.length - 1 := List.length_eraseIdx_of_lt hk
  have hsz : l.size_ = cs.length := hwf.2.1
  have hidx : (List.map Prod.fst (cs.eraseIdx k))[k]? = (cs.map Prod.fst)[k + 1]? := by
    have hlen2 : (List.map Prod.fst (List.take k cs)).length = k := by
      rw [List.length_map]; exact List.length_take_of_le (Nat.le_of_lt hk)
    rw [List.eraseIdx_eq_take_drop_succ, List.map_append,
      List.getElem?_append_right (by rw [hlen2]), hlen2, Nat.sub_self, List.map_drop,
      List.getElem?_drop]
  refine ⟨_, _, _, hrun, hwf2, fun fuel hf => ?_, ?_, ?_, ?_, ?_⟩
  · have := elements_spec hwf2 fuel (by omega)
    rw [this, List.eraseIdx_eq_take_drop_succ, List.eraseIdx_eq_take_drop_succ]
    simp [List.map_take, List.map_drop]
  · simp [SingleLinkedList.GetSize, hsz]; omega
  · simp only [footprint, List.getElem?_cons_succ]
    rw [hidx, hnb]
  · simp [BasicIterator.operator_inc, hnode, load_some hca2, bind, Except.bind, pure,
      Except.pure]
  · simp only [SingleLinkedList.end_, BasicIterator.mk.injEq, hnb]
    rw [List.getElem?_eq_none_iff]
    simp; omega

/-- C5 at the sample store: erasing after the node of index 1 of `[1, 2, 3]`. -/
theorem C5_EraseAfter_witness :
    WellFormed sampleHeap sampleList sampleNodes ∧
    AtPosition sampleList sampleNodes ⟨some 2⟩ 2 ∧ 2 < sampleNodes.length ∧
    ∃ h2 l2 it, SingleLinkedList.EraseAfter sampleHeap sampleList ⟨some 2⟩
        = .ok (h2, l2, it) ∧
      SingleLinkedList.elements 4 h2 l2 = .ok [1, 2] ∧ l2.GetSize + 1 = 3 ∧
      it = l2.end_ := by
  have hpos : AtPosition sampleList sampleNodes ⟨some 2⟩ 2 := ⟨by decide, rfl⟩
  refine ⟨sample_wf, hpos, by decide, ?_⟩
  obtain ⟨h2, l2, it, hrun, _, hel, hsz, _, _, hend⟩ :=
    C5_EraseAfter sampleHeap sampleList sampleNodes ⟨some 2⟩ 2 sample_wf hpos (by decide)
  exact ⟨h2, l2, it, hrun, hel 4 (by decide), hsz, hend.2 rfl⟩

/-- C6: on a well-formed list, for a cursor `pos` at a valid position (the sentinel or
a real node) and a value `v`, `InsertAfter(pos, v)` followed by `EraseAfter(pos)`
both return and give back a well-formed list with the same size and the same
element sequence (indeed the same nodes) as before the two calls. -/
theorem C6_Insert_then_Erase {T : Type} (h : Heap T) (l : SingleLinkedList)
    (cs : List (Nat × T)) (pos : BasicIterator) (k : Nat) (v : T) (hwf : WellFormed h l cs)
    (hpos : AtPosition l cs pos k) :
    ∃ h2 l2 it h3 l3 it3, SingleLinkedList.InsertAfter h l pos v = .ok (h2, l2, it) ∧
      SingleLinkedList.EraseAfter h2 l2 pos = .ok (h3, l3, it3) ∧
      WellFormed h3 l3 cs ∧ l3.GetSize = l.GetSize ∧ l3 = l ∧
      ∀ fuel, cs.length < fuel →
        SingleLinkedList.elements fuel h3 l3 = .ok (cs.map Prod.snd) ∧
        SingleLinkedList.elements fuel h3 l3 = SingleLinkedList.elements fuel h l := by
  obtain ⟨a, x, nx, _, _, _, hrun, hwf2⟩ := InsertAfter_spec v hwf hpos
  have hk := hpos.1
  have hlen : (List.take k cs).length = k := List.length_take_of_le hk
  have hpos2 : AtPosition { l with size_ := l.size_ + 1 }
      (cs.take k ++ (h.fresh, v) :: cs.drop k) pos k := by
    refine ⟨by simp; omega, ?_⟩
    rw [hpos.2, footprint, footprint]
    cases k with
    | zero => simp
    | succ j =>
      have hl2 : (List.map Prod.fst (List.take (j + 1) cs)).length = j + 1 := by
        rw [List.length_map]; exact hlen
      rw [List.getElem?_cons_succ, List.getElem?_cons_succ, List.map_append,
        List.getElem?_append_left (by rw [hl2]; exact Nat.lt_succ_self j), List.map_take,
        List.getElem?_take_of_lt (Nat.lt_succ_self j)]
  have hk2 : k < (cs.take k ++ (h.fresh, v) :: cs.drop k).length := by simp; omega
  obtain ⟨a2, b2, x2, y2, nb, _, _, _, _, _, _, hrun3, hwf3⟩ :=
    EraseAfter_spec hwf2 hpos2 hk2
  have hback : List.take k (cs.take k ++ (h.fresh, v) :: cs.drop k)
      ++ List.drop (k + 1) (cs.take k ++ (h.fresh, v) :: cs.drop k) = cs := by
    rw [← List.eraseIdx_eq_take_drop_succ,
      List.eraseIdx_append_of_length_le (by rw [hlen]), hlen, Nat.sub_self]
    simp
  rw [hback] at hwf3
  have hl3 : ({ head_ := l.head_, size_ := l.size_ + 1 - 1 } : SingleLinkedList) = l := by
    cases l; simp
  simp only [hl3] at hrun3 hwf3
  refine ⟨_, _, _, _, _, _, hrun, hrun3, hwf3, rfl, rfl, fun fuel hf => ?_⟩
  rw [elements_spec hwf3 fuel hf, elements_spec hwf fuel hf]
  exact ⟨rfl, rfl⟩

/-- C6 at the sample store: insert 7 after the sentinel of `[1, 2, 3]`, then erase. -/
theorem C6_Insert_then_Erase_witness :
    WellFormed sampleHeap sampleList sampleNodes ∧
    AtPosition sampleList sampleNodes sampleList.before_begin 0 ∧
    ∃ h2 l2 it h3 l3 it3,
      SingleLinkedList.InsertAfter sampleHeap sampleList sampleList.before_begin 7
        = .ok (h2, l2, it) ∧
      SingleLinkedList.EraseAfter h2 l2 sampleList.before_begin = .ok (h3, l3, it3) ∧
      l3.GetSize = 3 ∧ SingleLinkedList.elements 4 h3 l3 = .ok [1, 2, 3] := by
  have hpos : AtPosition sampleList sampleNodes sampleList.before_begin 0 :=
    ⟨by decide, rfl⟩
  refine ⟨sample_wf, hpos, ?_⟩
  obtain ⟨h2, l2, it, h3, l3, it3, hrun, hrun3, _, hsz, _, hel⟩ :=
    C6_Insert_then_Erase sampleHeap sampleList sampleNodes _ 0 7 sample_wf hpos
  exact ⟨h2, l2, it, h3, l3, it3, hrun, hrun3, hsz, (hel 4 (by decide)).1⟩

/-- C7: on a well-formed list with elements `xs`, `InsertAfter(before_begin(), v)` and
`PushFront(v)` both return and leave the same store and the same list object; the
list is well formed, its size grew by 1 and its traversal yields `v` followed by
`xs`. -/
theorem C7_InsertAfter_before_begin {T : Type} (h : Heap T) (l : SingleLinkedList)
    (cs : List (Nat × T)) (v : T) (hwf : WellFormed h l cs) :
    ∃ h2 l2 it, SingleLinkedList.InsertAfter h l l.before_begin v = .ok (h2, l2, it) ∧
      SingleLinkedList.PushFront h l v = .ok (h2, l2) ∧
      WellFormed h2 l2 ((h.fresh, v) :: cs) ∧ l2.GetSize = l.GetSize + 1 ∧
      ∀ fuel, cs.length + 1 < fuel →
        SingleLinkedList.elements fuel h2 l2 = .ok (v :: cs.map Prod.snd) := by
  have hpos : AtPosition l cs l.before_begin 0 :=
    ⟨Nat.zero_le _, by simp [SingleLinkedList.before_begin, footprint]⟩
  obtain ⟨a, x, nx, _, _, _, hrun, hwf2⟩ := InsertAfter_spec v hwf hpos
  have hwf3 : WellFormed ((h.new ⟨v, nx⟩).2.store a (some ⟨x, some h.fresh⟩))
      { l with size_ := l.size_ + 1 } ((h.fresh, v) :: cs) := by simpa using hwf2
  refine ⟨_, _, _, hrun, ?_, hwf3, rfl, fun fuel hf => ?_⟩
  · rw [PushFront_eq_InsertAfter, hrun]; rfl
  · simpa using elements_spec hwf3 fuel (by simpa using hf)

/-- C7 at the sample store: both calls turn `[1, 2, 3]` into `[7, 1, 2, 3]`. -/
theorem C7_InsertAfter_before_begin_witness :
    WellFormed sampleHeap sampleList sampleNodes ∧
    ∃ h2 l2 it,
      SingleLinkedList.InsertAfter sampleHeap sampleList sampleList.before_begin 7
        = .ok (h2, l2, it) ∧
      SingleLinkedList.PushFront sampleHeap sampleList 7 = .ok (h2, l2) ∧
      SingleLinkedList.elements 5 h2 l2 = .ok [7, 1, 2, 3] := by
  refine ⟨sample_wf, ?_⟩
  obtain ⟨h2, l2, it, hrun, hpf, _, _, hel⟩ :=
    C7_InsertAfter_before_begin sampleHeap sampleList sampleNodes 7 sample_wf
  exact ⟨h2, l2, it, hrun, hpf, hel 5 (by decide)⟩

/-- C8: on a well-formed list with real nodes `c :: cs`, `PopFront()` returns and
leaves a well-formed list with the nodes `cs` and a size reduced by 1, and
`EraseAfter(before_begin())` leaves the same store and the same list object; and
from an empty store, the list of 1, 2, 3 built by `PushBack` has traversal
`[1, 2, 3]` and size 3, `EraseAfter(before_begin())` gives `[2, 3]` and size 2, and
`PopFront` gives `[3]` and size 1. -/
theorem C8_PopFront {T : Type} (h : Heap T) (l : SingleLinkedList) (c : Nat × T)
    (cs : List (Nat × T)) (hwf : WellFormed h l (c :: cs)) :
    (∃ h2 l2 it, SingleLinkedList.PopFront h l = .ok (h2, l2) ∧
      SingleLinkedList.EraseAfter h l l.before_begin = .ok (h2, l2, it) ∧
      WellFormed h2 l2 cs ∧ l2.GetSize + 1 = l.GetSize ∧
      ∀ fuel, cs.length < fuel →
        SingleLinkedList.elements fuel h2 l2 = .ok (cs.map Prod.snd)) ∧
    (∃ h1 l1 h2 l2 it h3 l3,
      SingleLinkedList.ctor_values (Heap.empty : Heap Nat) [1, 2, 3] = .ok (h1, l1) ∧
      SingleLinkedList.elements 4 h1 l1 = .ok [1, 2, 3] ∧ l1.GetSize = 3 ∧
      SingleLinkedList.EraseAfter h1 l1 l1.before_begin = .ok (h2, l2, it) ∧
      SingleLinkedList.elements 4 h2 l2 = .ok [2, 3] ∧ l2.GetSize = 2 ∧
      SingleLinkedList.PopFront h2 l2 = .ok (h3, l3) ∧
      SingleLinkedList.elements 4 h3 l3 = .ok [3] ∧ l3.GetSize = 1) := by
  refine ⟨?_, ?_⟩
  · have hpos : AtPosition l (c :: cs) l.before_begin 0 :=
      ⟨Nat.zero_le _, by simp [SingleLinkedList.before_begin, footprint]⟩
    obtain ⟨a, b, x, y, nb, _, _, _, _, _, _, hrun, hwf2⟩ :=
      EraseAfter_spec hwf hpos (by simp)
    have hwf3 : WellFormed ((h.store a (some ⟨x, nb⟩)).store b none)
        { l with size_ := l.size_ - 1 } cs := by simpa using hwf2
    have hsz : l.size_ = cs.length + 1 := by simpa using hwf.2.1
    refine ⟨_, _, _, ?_, hrun, hwf3, ?_, fun fuel hf => elements_spec hwf3 fuel hf⟩
    · rw [PopFront_eq_EraseAfter, hrun]; rfl
    · simp [SingleLinkedList.GetSize, hsz]
  · exact ⟨_, _, _, _, _, _, _, rfl, rfl, rfl, rfl, rfl, rfl, rfl, rfl, rfl⟩

/-- C8 at the sample store: `PopFront` turns `[1, 2, 3]` into `[2, 3]`. -/
theorem C8_PopFront_witness :
    WellFormed sampleHeap sampleList ((1, 1) :: [(2, 2), (3, 3)]) ∧
    ∃ h2 l2, SingleLinkedList.PopFront sampleHeap sampleList = .ok (h2, l2) ∧
      l2.GetSize + 1 = 3 ∧ SingleLinkedList.elements 3 h2 l2 = .ok [2, 3] := by
  refine ⟨sample_wf, ?_⟩
  obtain ⟨⟨h2, l2, _, hrun, _, _, hsz, hel⟩, _⟩ :=
    C8_PopFront sampleHeap sampleList (1, 1) [(2, 2), (3, 3)] sample_wf
  exact ⟨h2, l2, hrun, hsz, hel 3 (by decide)⟩

/-- C9, as amended: for two well-formed lists `a` and `b` of one store, the list
operator `==` returns, and its answer is true exactly when the sizes are equal and
at every index the two elements compare equal under the `operator==` of the element
type; the operator `!=` answers the negation. Where that `operator==` is equality
of values, the answer is true exactly when the sizes are equal and the elements at
every index are equal. Where it is reflexive, `a == a` is true and two lists with
the same element sequence are equal. A list is not equal to one whose elements are
its own followed by one more value. The closing part evaluates this on lists built
from 1, 2, 3. -/
theorem C9_operator_eq {T : Type} [BEq T] (h : Heap T) (a b : SingleLinkedList)
    (ca cb : List (Nat × T)) (fuel : Nat) (hwa : WellFormed h a ca) (hwb : WellFormed h b cb)
    (hf : ca.length < fuel) :
    (∃ r, operator_eq fuel h a b = .ok r ∧
      (r = true ↔ a.GetSize = b.GetSize ∧
        ∀ (i : Nat) (x y : T), (ca.map Prod.snd)[i]? = some x →
          (cb.map Prod.snd)[i]? = some y → (x == y) = true) ∧
      ((∀ x y : T, (x == y) = true ↔ x = y) →
        (r = true ↔ a.GetSize = b.GetSize ∧
          ∀ i, i < a.GetSize → (ca.map Prod.snd)[i]? = (cb.map Prod.snd)[i]?)) ∧
      operator_ne fuel h a b = .ok (!r)) ∧
    ((∀ x : T, (x == x) = true) →
      operator_eq fuel h a a = .ok true ∧
      (ca.map Prod.snd = cb.map Prod.snd → operator_eq fuel h a b = .ok true)) ∧
    (∀ v, cb.map Prod.snd = ca.map Prod.snd ++ [v] →
      operator_eq fuel h a b = .ok false ∧ operator_ne fuel h a b = .ok true) ∧
    (∃ h1 l1 h2 l2 h3 l3,
      SingleLinkedList.ctor_values (Heap.empty : Heap Nat) [1, 2, 3] = .ok (h1, l1) ∧
      SingleLinkedList.ctor_values h1 [1, 2, 3] = .ok (h2, l2) ∧
      operator_eq 4 h2 l1 l2 = .ok true ∧ operator_ne 4 h2 l1 l2 = .ok false ∧
      SingleLinkedList.PushBack h2 l2 4 = .ok (h3, l3) ∧
      operator_eq 4 h3 l1 l3 = .ok false ∧ operator_ne 4 h3 l1 l3 = .ok true) := by
  have hmain := operator_eq_spec hwa hwb fuel hf
  have hsa : a.size_ = ca.length := hwa.2.1
  have hsb : b.size_ = cb.length := hwb.2.1
  have hne_run : ∀ r, operator_eq fuel h a b = .ok r → operator_ne fuel h a b = .ok (!r) := by
    intro r hr
    simp only [operator_ne, hr, bind, Except.bind, pure, Except.pure]
    cases r <;> rfl
  refine ⟨⟨_, hmain, ?_, fun hl => ?_, hne_run _ hmain⟩, fun hr => ⟨?_, fun e => ?_⟩,
    fun v e => ?_, ?_⟩
  · rw [beq_iff_index]
    simp only [SingleLinkedList.GetSize, hsa, hsb, List.length_map]
  · rw [beq_iff_eq_of_lawful hl, list_eq_iff_index]
    simp only [SingleLinkedList.GetSize, hsa, hsb, List.length_map]
  · rw [operator_eq_spec hwa hwa fuel hf, beq_self_of_refl hr]
  · rw [hmain, e, beq_self_of_refl hr]
  · have hfalse : (ca.map Prod.snd == cb.map Prod.snd) = false := by
      cases hb : (ca.map Prod.snd == cb.map Prod.snd) with
      | false => rfl
      | true =>
        have := beq_length _ _ hb
        rw [e] at this
        simp at this
    rw [hfalse] at hmain
    exact ⟨hmain, hne_run _ hmain⟩
  · exact ⟨_, _, _, _, _, _, rfl, rfl, rfl, rfl, rfl, rfl, rfl⟩

/-- C9 at the sample store: `[1, 2, 3] == [1, 2, 4]` is false and `!=` is true. -/
theorem C9_operator_eq_witness :
    WellFormed sampleHeap sampleList sampleNodes ∧
    WellFormed sampleHeap sampleOther sampleOtherNodes ∧ sampleNodes.length < 4 ∧
    operator_eq 4 sampleHeap sampleList sampleOther = .ok false ∧
    operator_ne 4 sampleHeap sampleList sampleOther = .ok true ∧
    operator_eq 4 sampleHeap sampleList sampleList = .ok true := by
  refine ⟨sample_wf, sampleOther_wf, by decide, ?_⟩
  obtain ⟨⟨r, hr, hiff, _, hne⟩, hself, _⟩ :=
    C9_operator_eq sampleHeap sampleList sampleOther sampleNodes sampleOtherNodes 4
      sample_wf sampleOther_wf (by decide)
  have hr2 : r = false := by
    cases r with
    | false => rfl
    | true =>
      have := (hiff.1 rfl).2 2 3 4 rfl rfl
      exact absurd this (by decide)
  subst hr2
  exact ⟨hr, hne, (hself (fun x => by simp)).1⟩

/-- C9, the claim as written fails where the `operator==` of the element type is not
reflexive: the well-formed one-element list `[nan]` is not equal to itself, and two
lists built from the same sequence `[nan]` are not equal to each other. -/
theorem C9_list_of_nan_differs_from_itself :
    WellFormed nanHeap nanList [(1, FloatLike.nan)] ∧
    operator_eq 2 nanHeap nanList nanList = .ok false ∧
    operator_ne 2 nanHeap nanList nanList = .ok true ∧
    (SingleLinkedList.ctor_values (Heap.empty : Heap FloatLike) [FloatLike.nan]).bind
      (fun s => (SingleLinkedList.ctor_values s.1 [FloatLike.nan]).bind
        (fun t => operator_eq 2 t.1 s.2 t.2)) = .ok false :=
  ⟨nan_wf, rfl, rfl, rfl⟩

/-- C10: for two well-formed lists `a` and `b` of one store over a linearly ordered
element type, the list operator `<` returns, and its answer is true exactly when the
elements of `a` lexicographically precede those of `b`: at the first index where they
differ the element of `a` is the smaller one, or `a` is a proper beginning of `b`.
The closing part evaluates `{1,2,3} < {1,2,4}`, `{1,2} < {1,2,3}` and `{} < {1}`. -/
theorem C10_operator_lt {T : Type} [LinearOrder T] (h : Heap T) (a b : SingleLinkedList)
    (ca cb : List (Nat × T)) (fuel : Nat) (hwa : WellFormed h a ca) (hwb : WellFormed h b cb)
    (hf : ca.length < fuel) :
    (∃ r, operator_lt fuel h a b = .ok r ∧
      (r = true ↔ LexPrecedes (ca.map Prod.snd) (cb.map Prod.snd))) ∧
    (∃ h1 l1 h2 l2,
      SingleLinkedList.ctor_values (Heap.empty : Heap Nat) [1, 2, 3] = .ok (h1, l1) ∧
      SingleLinkedList.ctor_values h1 [1, 2, 4] = .ok (h2, l2) ∧
      operator_lt 4 h2 l1 l2 = .ok true) ∧
    (∃ h1 l1 h2 l2,
      SingleLinkedList.ctor_values (Heap.empty : Heap Nat) [1, 2] = .ok (h1, l1) ∧
      SingleLinkedList.ctor_values h1 [1, 2, 3] = .ok (h2, l2) ∧
      operator_lt 3 h2 l1 l2 = .ok true) ∧
    (∃ h1 l1 h2 l2,
      SingleLinkedList.ctor_values (Heap.empty : Heap Nat) [] = .ok (h1, l1) ∧
      SingleLinkedList.ctor_values h1 [1] = .ok (h2, l2) ∧
      operator_lt 1 h2 l1 l2 = .ok true) := by
  refine ⟨⟨_, ?_, lexWalk_iff _ _⟩, ?_, ?_, ?_⟩
  · obtain ⟨_, _, da, na, hca, hcha⟩ := hwa
    obtain ⟨_, _, db, nb, hcb, hchb⟩ := hwb
    simp only [operator_lt, SingleLinkedList.begin, load_some hca, load_some hcb, bind,
      Except.bind, pure, Except.pure, SingleLinkedList.end_]
    exact lex_chain _ ca cb na nb fuel hcha hchb hf
  · exact ⟨_, _, _, _, rfl, rfl, rfl⟩
  · exact ⟨_, _, _, _, rfl, rfl, rfl⟩
  · exact ⟨_, _, _, _, rfl, rfl, rfl⟩

/-- C10 at the sample store: `[1, 2, 3] < [1, 2, 4]` is true and the converse false. -/
theorem C10_operator_lt_witness :
    WellFormed sampleHeap sampleList sampleNodes ∧
    WellFormed sampleHeap sampleOther sampleOtherNodes ∧ sampleNodes.length < 4 ∧
    operator_lt 4 sampleHeap sampleList sampleOther = .ok true := by
  refine ⟨sample_wf, sampleOther_wf, by decide, ?_⟩
  obtain ⟨⟨r, hr, hiff⟩, _⟩ :=
    C10_operator_lt sampleHeap sampleList sampleOther sampleNodes sampleOtherNodes 4
      sample_wf sampleOther_wf (by decide)
  have hr2 : r = true := hiff.2 (Or.inl ⟨2, 3, 4, rfl, rfl, rfl, by decide⟩)
  subst hr2
  exact hr

/-- C11: evaluation of the list operator `>` where one list is a proper beginning of
the other. For `a = {1,2,3}` and `b = {1,2}` the call `a > b` answers false and
`b > a` answers true, although `b < a` answers true and `a < b` answers false: the
operator `>` does not agree with the operator `<` on swapped arguments. -/
theorem C11_operator_gt_at_proper_prefix :
    ∃ h1 a h2 b,
      SingleLinkedList.ctor_values (Heap.empty : Heap Nat) [1, 2, 3] = .ok (h1, a) ∧
      SingleLinkedList.ctor_values h1 [1, 2] = .ok (h2, b) ∧
      operator_gt 4 h2 a b = .ok false ∧ operator_lt 4 h2 b a = .ok true ∧
      operator_gt 4 h2 b a = .ok true ∧ operator_lt 4 h2 a b = .ok false :=
  ⟨_, _, _, _, rfl, rfl, rfl, rfl, rfl, rfl⟩

/-- C12: evaluation of the list operator `<=` where the left list is a proper
beginning of the right one. `{1,2} <= {1,2,3}` and `{} <= {1}` both answer false,
although `{1,2} < {1,2,3}` and `{} < {1}` answer true. -/
theorem C12_operator_le_at_proper_prefix :
    (∃ h1 a h2 b,
      SingleLinkedList.ctor_values (Heap.empty : Heap Nat) [1, 2] = .ok (h1, a) ∧
      SingleLinkedList.ctor_values h1 [1, 2, 3] = .ok (h2, b) ∧
      operator_le 4 h2 a b = .ok false ∧ operator_lt 4 h2 a b = .ok true ∧
      operator_eq 4 h2 a b = .ok false) ∧
    (∃ h1 a h2 b,
      SingleLinkedList.ctor_values (Heap.empty : Heap Nat) [] = .ok (h1, a) ∧
      SingleLinkedList.ctor_values h1 [1] = .ok (h2, b) ∧
      operator_le 2 h2 a b = .ok false ∧ operator_lt 2 h2 a b = .ok true ∧
      operator_eq 2 h2 a b = .ok false) :=
  ⟨⟨_, _, _, _, rfl, rfl, rfl, rfl, rfl⟩, ⟨_, _, _, _, rfl, rfl, rfl, rfl, rfl⟩⟩

/-- C13: for two well-formed lists `a` and `b` of one store over a linearly ordered
element type, the list operator `>=` returns, and its answer is true exactly when the
elements of `b` lexicographically precede those of `a` or the two element sequences
are equal; it is the disjunction of the answers of `b < a` and `a == b`. -/
theorem C13_operator_ge {T : Type} [LinearOrder T] (h : Heap T) (a b : SingleLinkedList)
    (ca cb : List (Nat × T)) (fuel : Nat) (hwa : WellFormed h a ca) (hwb : WellFormed h b cb)
    (hfa : ca.length < fuel) (hfb : cb.length < fuel) :
    ∃ r lt_ba eq_ab, operator_ge fuel h a b = .ok r ∧ operator_lt fuel h b a = .ok lt_ba ∧
      operator_eq fuel h a b = .ok eq_ab ∧
      (r = true ↔ LexPrecedes (cb.map Prod.snd) (ca.map Prod.snd) ∨
        ca.map Prod.snd = cb.map Prod.snd) ∧
      r = (lt_ba || eq_ab) := by
  have hlt := operator_lt_spec hwa hwb fuel hfa
  have hlt2 := operator_lt_spec hwb hwa fuel hfb
  have heq := operator_eq_spec hwa hwb fuel hfa
  have htot := lexWalk_lt_total (ca.map Prod.snd) (cb.map Prod.snd)
  refine ⟨!(lexWalk (fun left right => decide (left < right)) (ca.map Prod.snd)
    (cb.map Prod.snd)), _, _, ?_, hlt2, heq, ?_, ?_⟩
  · simp only [operator_ge, hlt, bind, Except.bind, pure, Except.pure]
  · rw [Bool.not_eq_true', htot, lexWalk_iff]
  · cases hw : lexWalk (fun left right => decide (left < right)) (ca.map Prod.snd)
        (cb.map Prod.snd) with
    | false =>
      rcases htot.1 hw with h1 | h1
      · simp [h1]
      · simp [h1]
    | true =>
      have hnot : ¬ (lexWalk (fun left right => decide (left < right)) (cb.map Prod.snd)
          (ca.map Prod.snd) = true ∨ ca.map Prod.snd = cb.map Prod.snd) := by
        rw [← htot, hw]; simp
      have h1 : lexWalk (fun left right => decide (left < right)) (cb.map Prod.snd)
          (ca.map Prod.snd) = false := by
        cases h2 : lexWalk (fun left right => decide (left < right)) (cb.map Prod.snd)
          (ca.map Prod.snd) with
        | false => rfl
        | true => exact absurd (Or.inl h2) hnot
      have h3 : ¬ (ca.map Prod.snd = cb.map Prod.snd) := fun e => hnot (Or.inr e)
      simp [h1, h3]

/-- C13 at the sample store: `[1, 2, 4] >= [1, 2, 3]` is true, the converse false. -/
theorem C13_operator_ge_witness :
    WellFormed sampleHeap sampleOther sampleOtherNodes ∧
    WellFormed sampleHeap sampleList sampleNodes ∧ sampleOtherNodes.length < 4 ∧
    sampleNodes.length < 4 ∧
    operator_ge 4 sampleHeap sampleOther sampleList = .ok true ∧
    operator_ge 4 sampleHeap sampleList sampleOther = .ok false := by
  refine ⟨sampleOther_wf, sample_wf, by decide, by decide, ?_, rfl⟩
  obtain ⟨r, _, _, hr, _, _, hiff, _⟩ :=
    C13_operator_ge sampleHeap sampleOther sampleList sampleOtherNodes sampleNodes 4
      sampleOther_wf sample_wf (by decide) (by decide)
  have hr2 : r = true := hiff.2 (Or.inl (Or.inl ⟨2, 3, 4, rfl, rfl, rfl, by decide⟩))
  subst hr2
  exact hr

/-- C14: the copy constructor applied to a well-formed list `L` returns a well-formed
list with the size of `L` and the elements of `L` in the same order; `L` and its
nodes are as before; every node of the copy lives at an address that was unused
before and is no node of `L`; and after any run of mutations of the copy
(`PushFront`, `PushBack`, `PopFront`, `InsertAfter`, `EraseAfter`, `Clear`, writes
through a cursor) `L` is still well formed with the same nodes, the same size and
the same element sequence. -/
theorem C14_copy_is_independent {T : Type} [Inhabited T] (h : Heap T)
    (L : SingleLinkedList) (cs : List (Nat × T)) (hwf : WellFormed h L cs) :
    ∃ h2 c cc, SingleLinkedList.copy_ctor h L = .ok (h2, c) ∧
      WellFormed h2 c cc ∧ c.GetSize = L.GetSize ∧ cc.map Prod.snd = cs.map Prod.snd ∧
      WellFormed h2 L cs ∧ (∀ a ∈ footprint L cs, h2.cells a = h.cells a) ∧
      (∀ a ∈ footprint c cc, h.cells a = none ∧ a ∉ footprint L cs) ∧
      ∀ h3 c3, Mutated h2 c h3 c3 →
        WellFormed h3 L cs ∧ (∀ a ∈ footprint L cs, h3.cells a = h.cells a) ∧
        ∀ fuel, cs.length < fuel →
          SingleLinkedList.elements fuel h3 L = .ok (cs.map Prod.snd) := by
  have hLlt := WellFormed_lt_fresh hwf
  obtain ⟨h2, c, cc, hrun, hwc, hval, hfp, hsame, _, _⟩ := copy_ctor_spec hwf
  have hsameL : ∀ a ∈ footprint L cs, h2.cells a = h.cells a := fun a ha =>
    hsame a (hLlt a ha)
  have hL2 : WellFormed h2 L cs := WellFormed_frame hwf hwc.1 hsameL
  have hdis : ∀ a ∈ footprint c cc, a ∉ footprint L cs := fun a ha ha2 =>
    absurd (hLlt a ha2) (Nat.not_lt.2 (hfp a ha))
  have hsz : c.GetSize = L.GetSize := by
    have h1 : c.size_ = cc.length := hwc.2.1
    have h2' : L.size_ = cs.length := hwf.2.1
    have h3 := congrArg List.length hval
    simp only [List.length_map] at h3
    simp only [SingleLinkedList.GetSize]
    omega
  refine ⟨h2, c, cc, hrun, hwc, hsz, hval, hL2, hsameL,
    fun a ha => ⟨hwf.1 a (hfp a ha), hdis a ha⟩, fun h3 c3 hm => ?_⟩
  obtain ⟨cc3, _, hL3, _, hs3⟩ := Mutated_keeps_other h hm cc hL2 hwc hdis hsameL
  exact ⟨hL3, hs3, fun fuel hf => elements_spec hL3 fuel hf⟩

/-- C14 at the sample store: `[1, 2, 3]` is copied, the copy receives `PushFront(9)`,
and the original still reads `[1, 2, 3]`. -/
theorem C14_copy_is_independent_witness :
    WellFormed sampleHeap sampleList sampleNodes ∧
    ∃ h2 c h3 c3, SingleLinkedList.copy_ctor sampleHeap sampleList = .ok (h2, c) ∧
      SingleLinkedList.PushFront h2 c 9 = .ok (h3, c3) ∧
      SingleLinkedList.elements 5 h3 c3 = .ok [9, 1, 2, 3] ∧
      SingleLinkedList.elements 4 h3 sampleList = .ok [1, 2, 3] := by
  refine ⟨sample_wf, ?_⟩
  obtain ⟨h2, c, cc, hrun, hwc, _, hval, _, _, _, hmut⟩ :=
    C14_copy_is_independent sampleHeap sampleList sampleNodes sample_wf
  obtain ⟨h3, hpf, hw3⟩ := PushFront_spec 9 hwc
  have hlen : cc.length = 3 := by
    have := congrArg List.length hval
    simpa [sampleNodes] using this
  have hel := elements_spec hw3 5 (by simp [hlen])
  rw [List.map_cons, hval] at hel
  exact ⟨h2, c, h3, _, hrun, hpf, hel,
    (hmut h3 _ (Mutated.PushFront h2 c 9 h3 _ Mutated.same hpf)).2.2 4 (by decide)⟩

/-- C15: for two well-formed lists `A` and `B` of one store that share no node, the
copy assignment `A = B` returns (given fuel for the destruction of the old nodes of
`A`). The result is the list object `A` itself, with its own sentinel and the size
of `B`; it is well formed with the element sequence of `B`, held in nodes that were
newly allocated and are no nodes of `B`. `B` and its nodes are as before, and no
cell outside the old nodes of `A` is changed. The self-assignment `A = A` returns
the store and the list object exactly as they were, whatever the fuel. -/
theorem C15_copy_assignment {T : Type} [Inhabited T] (h : Heap T) (A B : SingleLinkedList)
    (ca cb : List (Nat × T)) (fuel : Nat) (hwa : WellFormed h A ca) (hwb : WellFormed h B cb)
    (hdis : ∀ x ∈ footprint A ca, x ∉ footprint B cb) (hf : ca.length ≤ fuel) :
    (∃ h2 A2 ca2, SingleLinkedList.operator_assign fuel h A B = .ok (h2, A2) ∧
      A2 = ⟨A.head_, B.size_⟩ ∧
      WellFormed h2 A2 ca2 ∧ A2.GetSize = B.GetSize ∧ ca2.map Prod.snd = cb.map Prod.snd ∧
      (∀ a ∈ ca2.map Prod.fst, h.cells a = none ∧ a ∉ footprint B cb) ∧
      WellFormed h2 B cb ∧ (∀ a ∈ footprint B cb, h2.cells a = h.cells a) ∧
      (∀ e, e < h.fresh → e ∉ footprint A ca → h2.cells e = h.cells e) ∧
      ∀ fuel2, cb.length < fuel2 →
        SingleLinkedList.elements fuel2 h2 A2 = .ok (cb.map Prod.snd) ∧
        SingleLinkedList.elements fuel2 h2 B = .ok (cb.map Prod.snd)) ∧
    (∀ fuel2, SingleLinkedList.operator_assign fuel2 h A A = .ok (h, A)) := by
  refine ⟨?_, fun fuel2 => by simp [SingleLinkedList.operator_assign, pure, Except.pure]⟩
  have hspec := assign_spec hwa hwb hdis fuel
  obtain ⟨h2, A2, hrun⟩ := hspec.1 hf
  obtain ⟨ca2, hw2, hval, hA2, hfp, _, hframe⟩ := hspec.2 h2 A2 hrun
  have hBlt := WellFormed_lt_fresh hwb
  have hsameB : ∀ a ∈ footprint B cb, h2.cells a = h.cells a := fun a ha =>
    hframe a (hBlt a ha) (fun hm => hdis a hm ha)
  have hwB2 : WellFormed h2 B cb := WellFormed_frame hwb hw2.1 hsameB
  have hlen : ca2.length = cb.length := by
    have := congrArg List.length hval
    simpa using this
  have hnew : ∀ a ∈ ca2.map Prod.fst, h.cells a = none ∧ a ∉ footprint B cb := fun a ha =>
    ⟨hwa.1 a (hfp a ha), fun hm => absurd (hBlt a hm) (Nat.not_lt.2 (hfp a ha))⟩
  refine ⟨h2, A2, ca2, hrun, hA2, hw2, by rw [hA2]; rfl, hval, hnew, hwB2, hsameB, hframe,
    fun fuel2 hf2 => ?_⟩
  refine ⟨?_, elements_spec hwB2 fuel2 hf2⟩
  rw [← hval]
  exact elements_spec hw2 fuel2 (by omega)

/-- C15 at the sample store: after `[1, 2, 3] = [1, 2, 4]` both lists read
`[1, 2, 4]`, and the assigned list is still the object with its sentinel at 0. -/
theorem C15_copy_assignment_witness :
    WellFormed sampleHeap sampleList sampleNodes ∧
    WellFormed sampleHeap sampleOther sampleOtherNodes ∧
    (∀ x ∈ footprint sampleList sampleNodes, x ∉ footprint sampleOther sampleOtherNodes) ∧
    sampleNodes.length ≤ 3 ∧
    ∃ h2 A2, SingleLinkedList.operator_assign 3 sampleHeap sampleList sampleOther
        = .ok (h2, A2) ∧
      A2 = ⟨0, 3⟩ ∧ SingleLinkedList.elements 4 h2 A2 = .ok [1, 2, 4] ∧
      SingleLinkedList.elements 4 h2 sampleOther = .ok [1, 2, 4] := by
  have hdis : ∀ x ∈ footprint sampleList sampleNodes,
      x ∉ footprint sampleOther sampleOtherNodes := by decide
  refine ⟨sample_wf, sampleOther_wf, hdis, by decide, ?_⟩
  obtain ⟨⟨h2, A2, _, hrun, hA2, _, _, _, _, _, _, _, hel⟩, _⟩ :=
    C15_copy_assignment sampleHeap sampleList sampleOther sampleNodes sampleOtherNodes 3
      sample_wf sampleOther_wf hdis (by decide)
  exact ⟨h2, A2, hrun, hA2, (hel 4 (by decide)).1, (hel 4 (by decide)).2⟩

/-- C16: for two well-formed lists `A` and `B` of one store that share no node, the
member `swap` returns. The results are the list objects `A` and `B` themselves with
their sizes exchanged; in the store only the `next_node` of the two sentinels is
exchanged, nothing is allocated and every other cell is as before. So `A` is well
formed with the former nodes, size and element sequence of `B`, and `B` with those
of `A`. A second `swap` gives back the original store and both original list
objects, and the free function `swap` is the member `swap`. -/
theorem C16_swap {T : Type} (h : Heap T) (A B : SingleLinkedList) (ca cb : List (Nat × T))
    (hwa : WellFormed h A ca) (hwb : WellFormed h B cb)
    (hdis : ∀ x ∈ footprint A ca, x ∉ footprint B cb) :
    ∃ h2 A2 B2, SingleLinkedList.swap h A B = .ok (h2, A2, B2) ∧
      swap h A B = SingleLinkedList.swap h A B ∧
      A2 = ⟨A.head_, B.size_⟩ ∧ B2 = ⟨B.head_, A.size_⟩ ∧
      (∃ da na db nb, h.cells A.head_ = some ⟨da, na⟩ ∧ h.cells B.head_ = some ⟨db, nb⟩ ∧
        h2.cells A.head_ = some ⟨da, nb⟩ ∧ h2.cells B.head_ = some ⟨db, na⟩) ∧
      h2.fresh = h.fresh ∧
      (∀ e, e ≠ A.head_ → e ≠ B.head_ → h2.cells e = h.cells e) ∧
      WellFormed h2 A2 cb ∧ WellFormed h2 B2 ca ∧
      A2.GetSize = B.GetSize ∧ B2.GetSize = A.GetSize ∧
      (∀ fuel, cb.length < fuel →
        SingleLinkedList.elements fuel h2 A2 = .ok (cb.map Prod.snd)) ∧
      (∀ fuel, ca.length < fuel →
        SingleLinkedList.elements fuel h2 B2 = .ok (ca.map Prod.snd)) ∧
      SingleLinkedList.swap h2 A2 B2 = .ok (h, A, B) ∧
      swap h2 A2 B2 = .ok (h, A, B) := by
  obtain ⟨da, na, db, nb, hca, hcb, hrun, hw1, hw2⟩ := swap_spec hwa hwb hdis
  have hab : A.head_ ≠ B.head_ := fun e =>
    hdis A.head_ (List.mem_cons_self _ _) (e ▸ List.mem_cons_self _ _)
  have hback := swap_back hca hcb hab
  refine ⟨_, _, _, hrun, rfl, rfl, rfl, ⟨da, na, db, nb, hca, hcb, by simp [hab], by simp⟩,
    rfl, fun e h1 h2 => by simp [h1, h2], hw1, hw2, rfl, rfl,
    fun fuel hf => elements_spec hw1 fuel hf, fun fuel hf => elements_spec hw2 fuel hf,
    hback, hback⟩

/-- C16 at the sample store: `swap` exchanges `[1, 2, 3]` and `[1, 2, 4]`, and a
second `swap` restores the store and both lists. -/
theorem C16_swap_witness :
    WellFormed sampleHeap sampleList sampleNodes ∧
    WellFormed sampleHeap sampleOther sampleOtherNodes ∧
    (∀ x ∈ footprint sampleList sampleNodes, x ∉ footprint sampleOther sampleOtherNodes) ∧
    ∃ h2 A2 B2, SingleLinkedList.swap sampleHeap sampleList sampleOther = .ok (h2, A2, B2) ∧
      A2 = ⟨0, 3⟩ ∧ B2 = ⟨4, 3⟩ ∧
      SingleLinkedList.elements 4 h2 A2 = .ok [1, 2, 4] ∧
      SingleLinkedList.elements 4 h2 B2 = .ok [1, 2, 3] ∧
      SingleLinkedList.swap h2 A2 B2 = .ok (sampleHeap, sampleList, sampleOther) := by
  have hdis : ∀ x ∈ footprint sampleList sampleNodes,
      x ∉ footprint sampleOther sampleOtherNodes := by decide
  refine ⟨sample_wf, sampleOther_wf, hdis, ?_⟩
  obtain ⟨h2, A2, B2, hrun, _, hA2, hB2, _, _, _, _, _, _, _, hel1, hel2, hback, _⟩ :=
    C16_swap sampleHeap sampleList sampleOther sampleNodes sampleOtherNodes
      sample_wf sampleOther_wf hdis
  exact ⟨h2, A2, B2, hrun, hA2, hB2, hel1 4 (by decide), hel2 4 (by decide), hback⟩

/-- C17: on a well-formed list, empty or not, `Clear()` returns once the fuel covers
the number of nodes; afterwards the list is well formed with no nodes, every former
node is destroyed, `GetSize()` is 0, `IsEmpty()` is true and `begin() == end()`;
and on every well-formed list `IsEmpty()` is true exactly when `begin() == end()`. -/
theorem C17_Clear {T : Type} (h : Heap T) (l : SingleLinkedList) (cs : List (Nat × T))
    (fuel : Nat) (hwf : WellFormed h l cs) (hf : cs.length ≤ fuel) :
    (∃ h2 l2 b, SingleLinkedList.Clear fuel h l = .ok (h2, l2) ∧ WellFormed h2 l2 [] ∧
      (∀ c ∈ cs, h2.cells c.1 = none) ∧ l2.GetSize = 0 ∧ l2.IsEmpty = true ∧
      SingleLinkedList.begin h2 l2 = .ok b ∧ b.operator_eq l2.end_ = true ∧
      b.operator_eq_const l2.end_ = true) ∧
    (∃ b, SingleLinkedList.begin h l = .ok b ∧
      (l.IsEmpty = true ↔ b.operator_eq l.end_ = true) ∧
      (l.IsEmpty = true ↔ b.operator_eq_const l.end_ = true)) := by
  have hbegin : ∀ (h1 : Heap T) (l1 : SingleLinkedList) (c1 : List (Nat × T)),
      WellFormed h1 l1 c1 → ∃ b, SingleLinkedList.begin h1 l1 = .ok b ∧
        (l1.IsEmpty = true ↔ b.operator_eq l1.end_ = true) ∧
        (l1.IsEmpty = true ↔ b.operator_eq_const l1.end_ = true) := by
    intro h1 l1 c1 hw
    obtain ⟨_, hsz, d, nx, hc, hch⟩ := hw
    refine ⟨⟨nx⟩, by simp [SingleLinkedList.begin, load_some hc, bind, Except.bind, pure,
      Except.pure], ?_, ?_⟩
    · cases c1 with
      | nil =>
        have hnx : nx = none := by simpa [Chain, Seg] using hch
        simp [SingleLinkedList.IsEmpty, BasicIterator.operator_eq, SingleLinkedList.end_, hsz,
          hnx]
      | cons c c1 =>
        have hnx : nx = some c.1 := hch.1
        simp [SingleLinkedList.IsEmpty, BasicIterator.operator_eq, SingleLinkedList.end_, hsz,
          hnx]
    · cases c1 with
      | nil =>
        have hnx : nx = none := by simpa [Chain, Seg] using hch
        simp [SingleLinkedList.IsEmpty, BasicIterator.operator_eq_const,
          SingleLinkedList.end_, hsz, hnx]
      | cons c c1 =>
        have hnx : nx = some c.1 := hch.1
        simp [SingleLinkedList.IsEmpty, BasicIterator.operator_eq_const,
          SingleLinkedList.end_, hsz, hnx]
  refine ⟨?_, hbegin h l cs hwf⟩
  obtain ⟨h2, hrun⟩ := (Clear_spec hwf fuel).1 hf
  obtain ⟨_, hw2, _, _, hgone⟩ := (Clear_spec hwf fuel).2 h2 _ hrun
  obtain ⟨b, hb, hiff1, hiff2⟩ := hbegin h2 _ [] hw2
  have hemp : ({ l with size_ := 0 } : SingleLinkedList).IsEmpty = true := by
    simp [SingleLinkedList.IsEmpty]
  exact ⟨h2, _, b, hrun, hw2, hgone, rfl, hemp, hb, hiff1.1 hemp, hiff2.1 hemp⟩

/-- C17 at the sample store: `Clear()` empties `[1, 2, 3]`. -/
theorem C17_Clear_witness :
    WellFormed sampleHeap sampleList sampleNodes ∧ sampleNodes.length ≤ 3 ∧
    ∃ h2 l2 b, SingleLinkedList.Clear 3 sampleHeap sampleList = .ok (h2, l2) ∧
      l2.GetSize = 0 ∧ l2.IsEmpty = true ∧ SingleLinkedList.begin h2 l2 = .ok b ∧
      b.operator_eq l2.end_ = true ∧ SingleLinkedList.elements 1 h2 l2 = .ok [] := by
  refine ⟨sample_wf, by decide, ?_⟩
  obtain ⟨⟨h2, l2, b, hrun, hw2, _, hsz, hemp, hb, heq, _⟩, _⟩ :=
    C17_Clear sampleHeap sampleList sampleNodes 3 sample_wf (by decide)
  exact ⟨h2, l2, b, hrun, hsz, hemp, hb, heq, elements_spec hw2 1 (by decide)⟩

/-- C18: evaluation of the cursor operations on a cursor that references none, which
is what a default-constructed cursor and `end()` are. Prefix and postfix `++`, `*`
and `->` all pass their guard, which tests the address `this` of the cursor object,
and go on to read through the null `node_`: the result is undefined behaviour, not
`std::out_of_range`. The guard answers `std::out_of_range` only for a null `this`. -/
theorem C18_none_cursor_is_read_through {T : Type} (h : Heap T) (l : SingleLinkedList) :
    ({} : BasicIterator) = ⟨none⟩ ∧ l.end_ = ⟨none⟩ ∧
    BasicIterator.operator_inc h (some ⟨none⟩) = .error .undefined ∧
    BasicIterator.operator_inc_post h (some ⟨none⟩) = .error .undefined ∧
    BasicIterator.operator_deref h (some ⟨none⟩) = .error .undefined ∧
    BasicIterator.operator_arrow h (some ⟨none⟩) = .error .undefined ∧
    BasicIterator.operator_inc h none = .error (.out_of_range "++nullptr") ∧
    BasicIterator.operator_inc_post h none = .error (.out_of_range "nullptr++") ∧
    BasicIterator.operator_deref h none = .error (.out_of_range "*nullptr") ∧
    BasicIterator.operator_arrow h none = .error (.out_of_range "nullptr->") :=
  ⟨rfl, rfl, rfl, rfl, rfl, rfl, rfl, rfl, rfl, rfl⟩

/-- C19, as amended: on a well-formed list, for a cursor `pos` at a valid position,
`InsertAfter(pos, v)` changes only the successor link of the node of `pos` and the
cached size, and `EraseAfter(pos)` (when `pos` has a successor) changes only that
link and the cached size and destroys only the node that followed `pos`. Every
other pre-existing node keeps its value and its successor. So every cursor to a
pre-existing node other than the erased one dereferences to the same value as
before, and every cursor to a node other than the node of `pos` and the erased one
advances to the same node as before. -/
theorem C19_frame_of_Insert_and_Erase {T : Type} (h : Heap T) (l : SingleLinkedList)
    (cs : List (Nat × T)) (pos : BasicIterator) (k : Nat) (v : T)
    (hwf : WellFormed h l cs) (hpos : AtPosition l cs pos k) :
    (∃ a x nx h2 it, pos.node_ = some a ∧ h.cells a = some ⟨x, nx⟩ ∧
      SingleLinkedList.InsertAfter h l pos v
        = .ok (h2, { l with size_ := l.size_ + 1 }, it) ∧
      h2.cells a = some ⟨x, some h.fresh⟩ ∧ h.cells h.fresh = none ∧
      (∀ e n, e ≠ a → h.cells e = some n → h2.cells e = some n) ∧
      ∀ (c : BasicIterator) (e : Nat) (n : Node T), c.node_ = some e → h.cells e = some n →
        BasicIterator.operator_deref h2 (some c) = BasicIterator.operator_deref h (some c) ∧
        (e ≠ a →
          BasicIterator.operator_inc h2 (some c) = BasicIterator.operator_inc h (some c))) ∧
    (k < cs.length →
      ∃ a b x y nb h2 it, pos.node_ = some a ∧ h.cells a = some ⟨x, some b⟩ ∧
        h.cells b = some ⟨y, nb⟩ ∧
        SingleLinkedList.EraseAfter h l pos
          = .ok (h2, { l with size_ := l.size_ - 1 }, it) ∧
        h2.cells a = some ⟨x, nb⟩ ∧ h2.cells b = none ∧
        (∀ e n, e ≠ a → e ≠ b → h.cells e = some n → h2.cells e = some n) ∧
        ∀ (c : BasicIterator) (e : Nat) (n : Node T), c.node_ = some e →
          h.cells e = some n → e ≠ b →
          BasicIterator.operator_deref h2 (some c)
            = BasicIterator.operator_deref h (some c) ∧
          (e ≠ a →
            BasicIterator.operator_inc h2 (some c)
              = BasicIterator.operator_inc h (some c))) := by
  refine ⟨?_, fun hk => ?_⟩
  · obtain ⟨a, x, nx, hnode, hcell, halt, hrun, _⟩ := InsertAfter_spec v hwf hpos
    have hfresh : h.cells h.fresh = none := hwf.1 _ (Nat.le_refl _)
    have hne : a ≠ h.fresh := Nat.ne_of_lt halt
    have hkeep : ∀ e n, e ≠ a → h.cells e = some n →
        ((h.new (⟨v, nx⟩ : Node T)).2.store a (some ⟨x, some h.fresh⟩)).cells e = some n := by
      intro e n hea hen
      have hef : e ≠ h.fresh := fun e2 => by rw [e2, hfresh] at hen; exact absurd hen (by simp)
      simp [hea, hef, hen]
    refine ⟨a, x, nx, _, _, hnode, hcell, hrun, by simp, hfresh, hkeep, fun c e n hce hen => ?_⟩
    by_cases hea : e = a
    · subst hea
      rw [hcell] at hen
      have hca : ((h.new (⟨v, nx⟩ : Node T)).2.store e (some ⟨x, some h.fresh⟩)).cells e
          = some ⟨x, some h.fresh⟩ := by simp
      refine ⟨?_, fun hcontra => absurd rfl hcontra⟩
      simp only [BasicIterator.operator_deref, hce, load_some hca, load_some hcell, bind,
        Except.bind, pure, Except.pure]
    · have hc2 := hkeep e n hea hen
      refine ⟨?_, fun _ => ?_⟩
      · simp only [BasicIterator.operator_deref, hce, load_some hc2, load_some hen, bind,
          Except.bind, pure, Except.pure]
      · simp only [BasicIterator.operator_inc, hce, load_some hc2, load_some hen, bind,
          Except.bind, pure, Except.pure]
  · obtain ⟨a, b, x, y, nb, hnode, hca, hcb, hab, _, _, hrun, _⟩ := EraseAfter_spec hwf hpos hk
    have hkeep : ∀ e n, e ≠ a → e ≠ b → h.cells e = some n →
        ((h.store a (some ⟨x, nb⟩)).store b none).cells e = some n := by
      intro e n hea heb hen
      simp [hea, heb, hen]
    have hca2 : ((h.store a (some ⟨x, nb⟩)).store b none).cells a = some ⟨x, nb⟩ := by
      simp [hab]
    refine ⟨a, b, x, y, nb, _, _, hnode, hca, hcb, hrun, hca2, by simp, hkeep,
      fun c e n hce hen heb => ?_⟩
    by_cases hea : e = a
    · subst hea
      refine ⟨?_, fun hcontra => absurd rfl hcontra⟩
      simp only [BasicIterator.operator_deref, hce, load_some hca2, load_some hca, bind,
        Except.bind, pure, Except.pure]
    · have hc2 := hkeep e n hea heb hen
      refine ⟨?_, fun _ => ?_⟩
      · simp only [BasicIterator.operator_deref, hce, load_some hc2, load_some hen, bind,
          Except.bind, pure, Except.pure]
      · simp only [BasicIterator.operator_inc, hce, load_some hc2, load_some hen, bind,
          Except.bind, pure, Except.pure]

/-- C19 at the sample store: after inserting 7 behind the node of index 0 of
`[1, 2, 3]`, a cursor to the node of index 1 dereferences and advances as before. -/
theorem C19_frame_of_Insert_and_Erase_witness :
    WellFormed sampleHeap sampleList sampleNodes ∧
    AtPosition sampleList sampleNodes ⟨some 1⟩ 1 ∧
    ∃ h2 l2 it, SingleLinkedList.InsertAfter sampleHeap sampleList ⟨some 1⟩ 7
        = .ok (h2, l2, it) ∧
      BasicIterator.operator_deref h2 (some ⟨some 2⟩) = .ok 2 ∧
      BasicIterator.operator_inc h2 (some ⟨some 2⟩) = .ok ⟨some 3⟩ ∧
      BasicIterator.operator_deref h2 (some ⟨some 1⟩) = .ok 1 := by
  have hpos : AtPosition sampleList sampleNodes ⟨some 1⟩ 1 := ⟨by decide, rfl⟩
  refine ⟨sample_wf, hpos, ?_⟩
  obtain ⟨⟨a, x, nx, h2, it, hnode, _, hrun, _, _, _, hcur⟩, _⟩ :=
    C19_frame_of_Insert_and_Erase sampleHeap sampleList sampleNodes ⟨some 1⟩ 1 7
      sample_wf hpos
  have ha : a = 1 := (Option.some.inj hnode).symm
  have h2' := hcur ⟨some 2⟩ 2 ⟨2, some 3⟩ rfl rfl
  have h1' := hcur ⟨some 1⟩ 1 ⟨1, some 2⟩ rfl rfl
  exact ⟨h2, _, it, hrun, h2'.1, h2'.2 (by rw [ha]; decide), h1'.1⟩

/-- C19, the claim as written fails for the cursor `pos` itself: in the sample store
a cursor to the node of index 0 of `[1, 2, 3]` (address 1) advances to the node at
address 2; after `InsertAfter` at that cursor it advances to the new node at
address 8, and after `EraseAfter` at that cursor it advances to the node at
address 3, although the node at address 1 is not the erased one. -/
theorem C19_cursor_at_pos_advances_elsewhere :
    WellFormed sampleHeap sampleList sampleNodes ∧
    AtPosition sampleList sampleNodes ⟨some 1⟩ 1 ∧
    BasicIterator.operator_inc sampleHeap (some ⟨some 1⟩) = .ok ⟨some 2⟩ ∧
    (SingleLinkedList.InsertAfter sampleHeap sampleList ⟨some 1⟩ 7).bind
      (fun r => BasicIterator.operator_inc r.1 (some ⟨some 1⟩)) = .ok ⟨some 8⟩ ∧
    (SingleLinkedList.EraseAfter sampleHeap sampleList ⟨some 1⟩).bind
      (fun r => BasicIterator.operator_inc r.1 (some ⟨some 1⟩)) = .ok ⟨some 3⟩ ∧
    (SingleLinkedList.EraseAfter sampleHeap sampleList ⟨some 1⟩).bind
      (fun r => BasicIterator.operator_deref r.1 (some ⟨some 1⟩)) = .ok 1 :=
  ⟨sample_wf, ⟨by decide, rfl⟩, rfl, rfl, rfl, rfl⟩

/-- C20: let the chain that starts at `head_.next_node` consist of the nodes `cs` and
end in `nullptr`, and let `size_` be the number `n >= 1` of those nodes. Then the
walk of `PushBack` reaches a live node after each of its `0 .. n - 1` steps, so it
never follows a null link; after `n - 1` steps it stands at the last node, whose
`next_node` is null. If moreover `new` returns an unused address, `PushBack`
returns, links the new node behind that last node, leaves every other existing
node as it was and the last node with its value, and the list is well formed with
the new element at the end. The facts about the walk need no assumption beyond the
chain and the size. -/
theorem C20_PushBack_walk {T : Type} (h : Heap T) (l : SingleLinkedList)
    (cs : List (Nat × T)) (d : T) (nx : Option Nat) (v : T)
    (hc : h.cells l.head_ = some ⟨d, nx⟩) (hch : Chain h nx cs) (hsz : l.size_ = cs.length)
    (hn : 1 ≤ l.size_) :
    (∀ k, k ≤ l.size_ - 1 → ∃ a n, SingleLinkedList.PushBack_walk h k nx = .ok (some a) ∧
      (cs.map Prod.fst)[k]? = some a ∧ h.cells a = some n) ∧
    (∃ t x, SingleLinkedList.PushBack_walk h (l.size_ - 1) nx = .ok (some t) ∧
      cs.getLast? = some (t, x) ∧ h.cells t = some ⟨x, none⟩ ∧
      (HeapOK h → ∃ h2, SingleLinkedList.PushBack h l v
          = .ok (h2, { l with size_ := l.size_ + 1 }) ∧
        h2.cells t = some ⟨x, some h.fresh⟩ ∧ h2.cells h.fresh = some ⟨v, none⟩ ∧
        (∀ e n, e ≠ t → h.cells e = some n → h2.cells e = some n) ∧
        WellFormed h2 { l with size_ := l.size_ + 1 } (cs ++ [(h.fresh, v)]))) := by
  have hlast : l.size_ - 1 < cs.length := by omega
  refine ⟨fun k hk => ?_, ?_⟩
  · have hk2 : k < cs.length := by omega
    obtain ⟨nk, hwalk, hcell, _⟩ := walk_reaches hch k hk2
    exact ⟨cs[k].1, _, hwalk, by simp [List.getElem?_eq_getElem hk2], hcell⟩
  · obtain ⟨nk, hwalk, hcell, hrest⟩ := walk_reaches hch (l.size_ - 1) hlast
    have hnk : nk = none := by
      have : cs.drop (l.size_ - 1 + 1) = [] := List.drop_eq_nil_of_le (by omega)
      rw [this] at hrest
      simpa [Chain, Seg] using hrest
    subst hnk
    have hget : cs.getLast? = some (cs[l.size_ - 1].1, cs[l.size_ - 1].2) := by
      rw [List.getLast?_eq_getElem?, ← hsz, List.getElem?_eq_getElem hlast]
    refine ⟨cs[l.size_ - 1].1, cs[l.size_ - 1].2, hwalk, hget, hcell, fun hok => ?_⟩
    have hwf : WellFormed h l cs := ⟨hok, hsz, d, nx, hc, hch⟩
    obtain ⟨a, x, hca, ha, hrun, hwf2⟩ := PushBack_spec v hwf
    have hat : a = cs[l.size_ - 1].1 := by
      have h1 : (footprint l cs)[cs.length]? = some cs[l.size_ - 1].1 := by
        have e : cs.length = (l.size_ - 1) + 1 := by omega
        rw [footprint, e, List.getElem?_cons_succ, List.getElem?_map,
          List.getElem?_eq_getElem hlast]
        rfl
      rw [h1] at ha
      exact Option.some.inj ha
    subst hat
    have hx : x = cs[l.size_ - 1].2 := by
      rw [hcell] at hca
      exact (congrArg Node.value (Option.some.inj hca)).symm
    subst hx
    have hfresh : h.cells h.fresh = none := hok _ (Nat.le_refl _)
    have hne : cs[l.size_ - 1].1 ≠ h.fresh := fun e => by
      rw [e, hfresh] at hcell; exact absurd hcell (by simp)
    refine ⟨_, hrun, by simp, by simp [Ne.symm hne], fun e n he hen => ?_, hwf2⟩
    have hef : e ≠ h.fresh := fun e2 => by rw [e2, hfresh] at hen; exact absurd hen (by simp)
    simp [he, hef, hen]

/-- C20 at the sample store: on `[1, 2, 3]` the walk takes two steps and stands at the
node at address 3, the last one. -/
theorem C20_PushBack_walk_witness :
    sampleHeap.cells sampleList.head_ = some ⟨0, some 1⟩ ∧
    Chain sampleHeap (some 1) sampleNodes ∧ sampleList.size_ = sampleNodes.length ∧
    1 ≤ sampleList.size_ ∧
    SingleLinkedList.PushBack_walk sampleHeap 2 (some 1) = .ok (some 3) ∧
    sampleHeap.cells 3 = some ⟨3, none⟩ := by
  have hch : Chain sampleHeap (some 1) sampleNodes :=
    ⟨rfl, some 2, rfl, rfl, some 3, rfl, rfl, none, rfl, rfl⟩
  refine ⟨rfl, hch, rfl, by decide, ?_⟩
  obtain ⟨_, t, x, hwalk, hlast, hcell, _⟩ :=
    C20_PushBack_walk sampleHeap sampleList sampleNodes 0 (some 1) 4 rfl hch rfl (by decide)
  have e : (t, x) = (3, 3) := Option.some.inj (hlast.symm.trans rfl)
  have ht : t = 3 := congrArg Prod.fst e
  have hx : x = 3 := congrArg Prod.snd e
  subst ht hx
  exact ⟨hwalk, hcell⟩

end SLL
